import Mathlib

/-!
# go-render: the `render` command line tool

A shallow embedding of `render/render.go` (package `main` of
github.com/redsift/go-render) and of the library functions its URL
normalisation and its reading of standard input run through (`net/url`,
`bufio`), followed by theorems about the URL source, the snapshot resolver,
the result classifier and the session lifecycle.

Conventions of the embedding

* A Go `string` is the list of its bytes (`GoString`, naturals below 256);
  `str` turns a Lean string literal into its UTF-8 bytes.
* A `*url.URL` that may be nil is an `Option URL`.
* Code with effects returns a `Run`: the events it performed, in order, and
  how it ended (returned, terminated the process through kingpin, or
  panicked).
-/

set_option autoImplicit false

/-! ## Go strings -/

/-- A Go string: its bytes in order. -/
abbrev GoString := List Nat

/-- UTF-8 encoding of one code point. -/
def utf8 (n : Nat) : List Nat :=
  if n < 0x80 then [n]
  else if n < 0x800 then [0xC0 + n / 64, 0x80 + n % 64]
  else if n < 0x10000 then [0xE0 + n / 4096, 0x80 + n / 64 % 64, 0x80 + n % 64]
  else [0xF0 + n / 262144, 0x80 + n / 4096 % 64, 0x80 + n / 64 % 64, 0x80 + n % 64]

/-- UTF-8 bytes of a list of characters. -/
def utf8s : List Char → GoString
  | [] => []
  | c :: cs => utf8 c.toNat ++ utf8s cs

/-- The Go string written as the literal `s`. -/
def str (s : String) : GoString := utf8s s.toList

/-- The byte of an ASCII character. -/
def ch (c : Char) : Nat := c.toNat

namespace strings

/-- Go `strings.HasPrefix`. -/
def HasPrefix : GoString → GoString → Bool
  | _, [] => true
  | [], _ :: _ => false
  | c :: s, d :: p => c == d && HasPrefix s p

/-- Go `strings.Index`: position of the first instance of `sep` in `s`. -/
def Index : GoString → GoString → Option Nat
  | [], sep => if sep = [] then some 0 else none
  | c :: s, sep =>
    if HasPrefix (c :: s) sep then some 0
    else match Index s sep with
      | some i => some (i + 1)
      | none => none

/-- Position of the last instance of the byte `sep` in `s` (Go
`strings.LastIndex` with a one-byte separator). -/
def LastIndexByte : GoString → Nat → Option Nat
  | [], _ => none
  | c :: s, sep =>
    match LastIndexByte s sep with
    | some i => some (i + 1)
    | none => if c = sep then some 0 else none

/-- Go `strings.Contains` with a one-byte separator. -/
def ContainsByte (s : GoString) (sep : Nat) : Bool := s.any (fun c => c == sep)

/-- Go `strings.Count` with a one-byte separator. -/
def CountByte (s : GoString) (sep : Nat) : Nat := s.count sep

/-- Go `strings.Cut` with a one-byte separator: the text before and after
the first instance of `sep`, and whether `sep` was found. -/
def Cut : GoString → Nat → GoString × GoString × Bool
  | [], _ => ([], [], false)
  | c :: s, sep =>
    if c = sep then ([], s, true)
    else
      let r := Cut s sep
      (c :: r.1, r.2.1, r.2.2)

/-- Go `strings.HasSuffix` with a one-byte suffix. -/
def HasSuffixByte (s : GoString) (c : Nat) : Bool := s.getLast? == some c

/-- Go `strings.ToLower` on ASCII text. -/
def ToLower (s : GoString) : GoString :=
  s.map (fun c => if ch 'A' ≤ c ∧ c ≤ ch 'Z' then c + 32 else c)

/-- The loop of Go `genSplit` for a one-byte separator, with `n` pieces
still to cut off: the text up to each instance of `sep`, then the rest. -/
def genSplit (sep : Nat) : Nat → GoString → List GoString
  | 0, s => [s]
  | n + 1, s =>
    match Index s [sep] with
    | none => [s]
    | some m => s.take m :: genSplit sep n (s.drop (m + 1))

/-- Go `strings.Split` with a one-byte separator: `genSplit` with as many
cuts as the separator has instances. -/
def Split (s : GoString) (sep : Nat) : List GoString := genSplit sep (CountByte s sep) s

end strings

/-! ## bufio (Go standard library, `scan.go`) -/

namespace bufio

/-- Go `bufio.MaxScanTokenSize`: the size of the largest buffer that a
`Scanner` made by `bufio.NewScanner` allocates. -/
def MaxScanTokenSize : Nat := 64 * 1024

/-- Go `dropCR`: the data without a terminal carriage return. -/
def dropCR (data : GoString) : GoString :=
  if data.getLast? = some (ch '\r') then data.dropLast else data

/-- The texts that `scanner.Text()` holds after each successful
`scanner.Scan()` of a scanner made by `bufio.NewScanner` (split function
`ScanLines`, buffer limit `MaxScanTokenSize`), for an input given by its
lines: the bytes between one newline and the next. A line is a token when it
fits the buffer together with its newline, that is when it is shorter than
`MaxScanTokenSize`; at the first line that is not, the buffer is full without
a token, `Scan` records `ErrTooLong` and returns false, then and ever
after. -/
def Scan : List GoString → List GoString
  | [] => []
  | l :: ls => if l.length < MaxScanTokenSize then dropCR l :: Scan ls else []

end bufio

/-! ## net/url (Go standard library, `url.go`)

`processURL` re-parses the text it prints, so `url.Parse` and
`(*URL).String` are transcribed here function by function, from the
`url.go` of Go 1.21. A Go loop over the bytes of a string is a recursion
over the list; an early `return` is the branch that ends the recursion. -/

namespace url

/-- The errors `url.Parse` reports. -/
inductive Error where
  | EscapeError (s : GoString)
  | InvalidHostError (s : GoString)
  | missingProtocolScheme
  | invalidControlCharacter
  | firstPathSegmentColon
  | missingBracketInHost
  | invalidPort (colonPort : GoString)
  | invalidUserinfo
  deriving DecidableEq, Repr

/-- The `encoding` modes of `shouldEscape`. -/
inductive encoding where
  | encodePath
  | encodePathSegment
  | encodeHost
  | encodeZone
  | encodeUserPassword
  | encodeQueryComponent
  | encodeFragment
  deriving DecidableEq, Repr

open encoding

def ishex (c : Nat) : Bool :=
  (ch '0' ≤ c && c ≤ ch '9') || (ch 'a' ≤ c && c ≤ ch 'f') || (ch 'A' ≤ c && c ≤ ch 'F')

def unhex (c : Nat) : Nat :=
  if ch '0' ≤ c ∧ c ≤ ch '9' then c - ch '0'
  else if ch 'a' ≤ c ∧ c ≤ ch 'f' then c - ch 'a' + 10
  else if ch 'A' ≤ c ∧ c ≤ ch 'F' then c - ch 'A' + 10
  else 0

/-- Whether the byte `c` is escaped when it appears in the part of a URL
that `mode` names. -/
def shouldEscape (c : Nat) (mode : encoding) : Bool :=
  if (ch 'a' ≤ c ∧ c ≤ ch 'z') ∨ (ch 'A' ≤ c ∧ c ≤ ch 'Z') ∨ (ch '0' ≤ c ∧ c ≤ ch '9') then
    false
  else if (mode = encodeHost ∨ mode = encodeZone) ∧
      c ∈ [ch '!', ch '$', ch '&', ch '\'', ch '(', ch ')', ch '*', ch '+', ch ',',
           ch ';', ch '=', ch ':', ch '[', ch ']', ch '<', ch '>', ch '"'] then
    false
  else if c ∈ [ch '-', ch '_', ch '.', ch '~'] then
    false
  else if c ∈ [ch '$', ch '&', ch '+', ch ',', ch '/', ch ':', ch ';', ch '=', ch '?',
               ch '@'] then
    match mode with
    | encodePath => c == ch '?'
    | encodePathSegment => c == ch '/' || c == ch ';' || c == ch ',' || c == ch '?'
    | encodeUserPassword => c == ch '@' || c == ch '/' || c == ch '?' || c == ch ':'
    | encodeQueryComponent => true
    | encodeFragment => false
    | _ => true
  else if mode = encodeFragment ∧ c ∈ [ch '!', ch '(', ch ')', ch '*'] then
    false
  else
    true

/-- The first loop of `unescape`: counts the `%` escapes and checks that
they are well formed; also says whether a `+` must be decoded. -/
def unescapeCheck (mode : encoding) : GoString → Nat → Bool → Except Error (Nat × Bool)
  | [], n, hasPlus => .ok (n, hasPlus)
  | c :: rest, n, hasPlus =>
    if c = ch '%' then
      match rest with
      | a :: b :: rest2 =>
        if !ishex a || !ishex b then
          .error (.EscapeError [c, a, b])
        else if mode = encodeHost ∧ unhex a < 8 ∧ [c, a, b] ≠ str "%25" then
          .error (.EscapeError [c, a, b])
        else if mode = encodeZone ∧ [c, a, b] ≠ str "%25" ∧ unhex a * 16 + unhex b ≠ ch ' ' ∧
            shouldEscape (unhex a * 16 + unhex b) encodeHost then
          .error (.EscapeError [c, a, b])
        else
          unescapeCheck mode rest2 (n + 1) hasPlus
      | _ => .error (.EscapeError (c :: rest))
    else if c = ch '+' then
      unescapeCheck mode rest n (decide (mode = encodeQueryComponent))
    else if (mode = encodeHost ∨ mode = encodeZone) ∧ c < 0x80 ∧ shouldEscape c encodeHost then
      .error (.InvalidHostError [c])
    else
      unescapeCheck mode rest n hasPlus

/-- The second loop of `unescape`: decodes `%XX`, and `+` in a query. -/
def unescapeBuild (mode : encoding) : GoString → GoString
  | [] => []
  | c :: rest =>
    if c = ch '%' then
      match rest with
      | a :: b :: rest2 => (unhex a * 16 + unhex b) :: unescapeBuild mode rest2
      | _ => []
    else if c = ch '+' then
      (if mode = encodeQueryComponent then ch ' ' else ch '+') :: unescapeBuild mode rest
    else
      c :: unescapeBuild mode rest

/-- Go `unescape`: `s` with its `%XX` escapes decoded, or the error that
makes `s` invalid in the part of the URL that `mode` names. -/
def unescape (s : GoString) (mode : encoding) : Except Error GoString :=
  match unescapeCheck mode s 0 false with
  | .error e => .error e
  | .ok (n, hasPlus) =>
    if n = 0 ∧ hasPlus = false then .ok s else .ok (unescapeBuild mode s)

/-- The relation `Decodes mode s t` of the proofs about `unescape`: the text
`s` passes the checks that `unescape` makes in `mode`, and `t` is the text it
decodes to (`url.unescape_iff` below). The bytes are written as numbers: 37 is
`%`, 43 is `+`, 32 is the space, and 37, 50, 53 is `%25`. -/
inductive Decodes (mode : encoding) : GoString → GoString → Prop where
  | nil : Decodes mode [] []
  | escaped (a b : Nat) (s t : GoString) :
      ishex a = true → ishex b = true →
      ¬ (mode = encodeHost ∧ unhex a < 8 ∧ [37, a, b] ≠ [37, 50, 53]) →
      ¬ (mode = encodeZone ∧ [37, a, b] ≠ [37, 50, 53] ∧ unhex a * 16 + unhex b ≠ 32 ∧
          shouldEscape (unhex a * 16 + unhex b) encodeHost = true) →
      Decodes mode s t →
      Decodes mode (37 :: a :: b :: s) ((unhex a * 16 + unhex b) :: t)
  | plus (s t : GoString) :
      Decodes mode s t →
      Decodes mode (43 :: s) ((if mode = encodeQueryComponent then 32 else 43) :: t)
  | plain (c : Nat) (s t : GoString) :
      c ≠ 37 → c ≠ 43 →
      ¬ ((mode = encodeHost ∨ mode = encodeZone) ∧ c < 128 ∧ shouldEscape c encodeHost = true) →
      Decodes mode s t →
      Decodes mode (c :: s) (c :: t)

/-- The digit of `upperhex` at index `n`. -/
def upperhex (n : Nat) : Nat := if n < 10 then ch '0' + n else ch 'A' + (n - 10)

/-- The second loop of `escape`. -/
def escapeBuild (mode : encoding) : GoString → GoString
  | [] => []
  | c :: rest =>
    if c = ch ' ' ∧ mode = encodeQueryComponent then
      ch '+' :: escapeBuild mode rest
    else if shouldEscape c mode then
      ch '%' :: upperhex (c / 16) :: upperhex (c % 16) :: escapeBuild mode rest
    else
      c :: escapeBuild mode rest

/-- Go `escape`: `s` with every byte that `shouldEscape` names written as
`%XX`. -/
def escape (s : GoString) (mode : encoding) : GoString :=
  if s.all (fun c => !shouldEscape c mode) then s else escapeBuild mode s

/-- Go `url.Userinfo`. -/
structure Userinfo where
  username : GoString
  password : GoString
  passwordSet : Bool
  deriving DecidableEq, Repr

def Userinfo.String (u : Userinfo) : GoString :=
  let s := escape u.username encodeUserPassword
  if u.passwordSet then s ++ str ":" ++ escape u.password encodeUserPassword else s

end url

/-- Go `url.URL`. -/
structure URL where
  Scheme : GoString := []
  Opaque : GoString := []
  User : Option url.Userinfo := none
  Host : GoString := []
  Path : GoString := []
  RawPath : GoString := []
  OmitHost : Bool := false
  ForceQuery : Bool := false
  RawQuery : GoString := []
  Fragment : GoString := []
  RawFragment : GoString := []
  deriving DecidableEq, Repr

namespace url

open encoding

/-- Go `getScheme`: splits `scheme:rest` when the text starts with a
scheme, at position `i` of the raw URL. -/
def getSchemeLoop (rawURL : GoString) : GoString → Nat → Except Error (GoString × GoString)
  | [], _ => .ok ([], rawURL)
  | c :: rest, i =>
    if (ch 'a' ≤ c ∧ c ≤ ch 'z') ∨ (ch 'A' ≤ c ∧ c ≤ ch 'Z') then
      getSchemeLoop rawURL rest (i + 1)
    else if (ch '0' ≤ c ∧ c ≤ ch '9') ∨ c = ch '+' ∨ c = ch '-' ∨ c = ch '.' then
      if i = 0 then .ok ([], rawURL) else getSchemeLoop rawURL rest (i + 1)
    else if c = ch ':' then
      if i = 0 then .error .missingProtocolScheme
      else .ok (rawURL.take i, rest)
    else
      .ok ([], rawURL)

def getScheme (rawURL : GoString) : Except Error (GoString × GoString) :=
  getSchemeLoop rawURL rawURL 0

def stringContainsCTLByte (s : GoString) : Bool :=
  s.any (fun b => b < ch ' ' || b == 0x7f)

/-- Go `validOptionalPort`: the text is empty or a colon and digits. -/
def validOptionalPort (port : GoString) : Bool :=
  match port with
  | [] => true
  | c :: rest => c == ch ':' && rest.all (fun b => ch '0' ≤ b && b ≤ ch '9')

def validUserinfo (s : GoString) : Bool :=
  s.all (fun r =>
    (ch 'A' ≤ r && r ≤ ch 'Z') || (ch 'a' ≤ r && r ≤ ch 'z') || (ch '0' ≤ r && r ≤ ch '9') ||
    decide (r ∈ [ch '-', ch '.', ch '_', ch ':', ch '~', ch '!', ch '$', ch '&', ch '\'',
                 ch '(', ch ')', ch '*', ch '+', ch ',', ch ';', ch '=', ch '%', ch '@']))

/-- Go `parseHost`: the host of an authority without user information. -/
def parseHost (host : GoString) : Except Error GoString :=
  if strings.HasPrefix host (str "[") then
    match strings.LastIndexByte host (ch ']') with
    | none => .error .missingBracketInHost
    | some i =>
      let colonPort := host.drop (i + 1)
      if !validOptionalPort colonPort then .error (.invalidPort colonPort)
      else
        match strings.Index (host.take i) (str "%25") with
        | some zone =>
          match unescape (host.take zone) encodeHost with
          | .error e => .error e
          | .ok host1 =>
            match unescape ((host.take i).drop zone) encodeZone with
            | .error e => .error e
            | .ok host2 =>
              match unescape (host.drop i) encodeHost with
              | .error e => .error e
              | .ok host3 => .ok (host1 ++ host2 ++ host3)
        | none => unescape host encodeHost
  else
    match strings.LastIndexByte host (ch ':') with
    | some i =>
      let colonPort := host.drop i
      if !validOptionalPort colonPort then .error (.invalidPort colonPort)
      else unescape host encodeHost
    | none => unescape host encodeHost

/-- Go `parseAuthority`: user information and host of `[user[:password]@]host`. -/
def parseAuthority (authority : GoString) : Except Error (Option Userinfo × GoString) :=
  match strings.LastIndexByte authority (ch '@') with
  | none =>
    match parseHost authority with
    | .error e => .error e
    | .ok host => .ok (none, host)
  | some i =>
    match parseHost (authority.drop (i + 1)) with
    | .error e => .error e
    | .ok host =>
      let userinfo := authority.take i
      if !validUserinfo userinfo then .error .invalidUserinfo
      else if !strings.ContainsByte userinfo (ch ':') then
        match unescape userinfo encodeUserPassword with
        | .error e => .error e
        | .ok username => .ok (some ⟨username, [], false⟩, host)
      else
        let c := strings.Cut userinfo (ch ':')
        match unescape c.1 encodeUserPassword with
        | .error e => .error e
        | .ok username =>
          match unescape c.2.1 encodeUserPassword with
          | .error e => .error e
          | .ok password => .ok (some ⟨username, password, true⟩, host)

/-- Go `(*URL).setPath`. -/
def setPath (u : URL) (p : GoString) : Except Error URL :=
  match unescape p encodePath with
  | .error e => .error e
  | .ok path =>
    if p = escape path encodePath then .ok { u with Path := path, RawPath := [] }
    else .ok { u with Path := path, RawPath := p }

/-- Go `(*URL).setFragment`. -/
def setFragment (u : URL) (f : GoString) : Except Error URL :=
  match unescape f encodeFragment with
  | .error e => .error e
  | .ok frag =>
    if f = escape frag encodeFragment then .ok { u with Fragment := frag, RawFragment := [] }
    else .ok { u with Fragment := frag, RawFragment := f }

/-- Go `validEncoded`. -/
def validEncoded (s : GoString) (mode : encoding) : Bool :=
  s.all (fun c =>
    decide (c ∈ [ch '!', ch '$', ch '&', ch '\'', ch '(', ch ')', ch '*', ch '+', ch ',',
                 ch ';', ch '=', ch ':', ch '@', ch '[', ch ']', ch '%']) ||
    !shouldEscape c mode)

/-- Go `parse` with `viaRequest = false`, as `url.Parse` calls it. -/
def parse (rawURL : GoString) : Except Error URL :=
  if stringContainsCTLByte rawURL then .error .invalidControlCharacter
  else if rawURL = str "*" then .ok { Path := str "*" }
  else
    match getScheme rawURL with
    | .error e => .error e
    | .ok (scheme0, rest0) =>
      let scheme := strings.ToLower scheme0
      let forceQuery := strings.HasSuffixByte rest0 (ch '?') && strings.CountByte rest0 (ch '?') == 1
      let rest1 := if forceQuery then rest0.dropLast else (strings.Cut rest0 (ch '?')).1
      let rawQuery := if forceQuery then [] else (strings.Cut rest0 (ch '?')).2.1
      let u0 : URL := { Scheme := scheme, ForceQuery := forceQuery, RawQuery := rawQuery }
      if !strings.HasPrefix rest1 (str "/") ∧ scheme ≠ [] then
        .ok { u0 with Opaque := rest1 }
      else if !strings.HasPrefix rest1 (str "/") ∧
          strings.ContainsByte (strings.Cut rest1 (ch '/')).1 (ch ':') then
        .error .firstPathSegmentColon
      else if (scheme ≠ [] ∨ !strings.HasPrefix rest1 (str "///")) ∧
          strings.HasPrefix rest1 (str "//") then
        let after := rest1.drop 2
        let authority := match strings.Index after (str "/") with
          | some i => after.take i
          | none => after
        let rest2 := match strings.Index after (str "/") with
          | some i => after.drop i
          | none => []
        match parseAuthority authority with
        | .error e => .error e
        | .ok (user, host) => setPath { u0 with User := user, Host := host } rest2
      else if scheme ≠ [] ∧ strings.HasPrefix rest1 (str "/") then
        setPath { u0 with OmitHost := true } rest1
      else
        setPath u0 rest1

/-- Go `url.Parse`: the URL that the text `rawURL` denotes, or the error
that makes it malformed. -/
def Parse (rawURL : GoString) : Except Error URL :=
  let c := strings.Cut rawURL (ch '#')
  match parse c.1 with
  | .error e => .error e
  | .ok u => if c.2.1 = [] then .ok u else setFragment u c.2.1

end url

namespace URL

open url url.encoding

/-- Go `(*URL).EscapedPath`. -/
def EscapedPath (u : URL) : GoString :=
  let same := match unescape u.RawPath encodePath with
    | .ok p => decide (p = u.Path)
    | .error _ => false
  if u.RawPath ≠ [] ∧ validEncoded u.RawPath encodePath = true ∧ same = true then
    u.RawPath
  else if u.Path = str "*" then str "*"
  else escape u.Path encodePath

/-- Go `(*URL).EscapedFragment`. -/
def EscapedFragment (u : URL) : GoString :=
  let same := match unescape u.RawFragment encodeFragment with
    | .ok f => decide (f = u.Fragment)
    | .error _ => false
  if u.RawFragment ≠ [] ∧ validEncoded u.RawFragment encodeFragment = true ∧ same = true then
    u.RawFragment
  else escape u.Fragment encodeFragment

/-- Go `(*URL).String`, up to the query: scheme, opaque data or authority,
and path. -/
def StringHead (u : URL) : GoString :=
  let buf0 := if u.Scheme ≠ [] then u.Scheme ++ str ":" else []
  if u.Opaque ≠ [] then buf0 ++ u.Opaque
  else
    let buf1 :=
      if u.Scheme ≠ [] ∨ u.Host ≠ [] ∨ u.User.isSome then
        if u.OmitHost ∧ u.Host = [] ∧ u.User.isNone then buf0
        else
          buf0
            ++ (if u.Host ≠ [] ∨ u.Path ≠ [] ∨ u.User.isSome then str "//" else [])
            ++ (match u.User with
                | some ui => ui.String ++ str "@"
                | none => [])
            ++ (if u.Host ≠ [] then escape u.Host encodeHost else [])
      else buf0
    let path := u.EscapedPath
    let buf2 :=
      if path ≠ [] ∧ path.head? ≠ some (ch '/') ∧ u.Host ≠ [] then buf1 ++ str "/" else buf1
    let buf3 :=
      if buf2 = [] ∧ strings.ContainsByte (strings.Cut path (ch '/')).1 (ch ':') then
        buf2 ++ str "./"
      else buf2
    buf3 ++ path

/-- Go `(*URL).String`: the text of the URL. -/
def String (u : URL) : GoString :=
  u.StringHead
    ++ (if u.ForceQuery ∨ u.RawQuery ≠ [] then str "?" ++ u.RawQuery else [])
    ++ (if u.Fragment ≠ [] then str "#" ++ u.EscapedFragment else [])

end URL

/-! ## render.go: the URL source -/

/-- Source `processURL`. The argument is a non-nil `*url.URL`; the result is
`none` when the code returns a nil pointer, which happens when the second
`url.Parse` fails: its error is discarded and its nil URL returned. -/
def processURL (arg : URL) : Option URL :=
  if arg.Scheme = [] then
    match url.Parse ({ arg with Scheme := str "http" } : URL).String with
    | .ok u => some u
    | .error _ => none
  else
    some arg

/-- What the producer goroutine of `urls` did: the URLs it sent on the
channel, in order, and the message of the fatal error that ended it, if
one did. A sent `none` is a nil `*url.URL`. -/
structure Produced where
  sent : List (Option URL)
  fatal : Option String
  deriving DecidableEq

/-- The standard-input branch of `urls`: the loop `for scanner.Scan()`,
given the texts that `scanner.Text()` holds in its successive rounds. -/
def urlsStdin : List GoString → Produced
  | [] => ⟨[], none⟩
  | t :: ts =>
    if t = [] then urlsStdin ts
    else
      match url.Parse t with
      | .error _ => ⟨[], some "Could not parse URL"⟩
      | .ok u => ⟨processURL u :: (urlsStdin ts).sent, (urlsStdin ts).fatal⟩

/-- Source `urls`: what is sent on the returned channel, for the URL
arguments `arg` and the lines of standard input (the bytes between one
newline and the next). Without arguments the lines are read by a
`bufio.NewScanner(os.Stdin)`; when its `Scan` returns false the loop ends and
the channel is closed, and `scanner.Err()` is not looked at. -/
def urls (arg : List URL) (stdin : List GoString) : Produced :=
  if arg ≠ [] then ⟨arg.map processURL, none⟩ else urlsStdin (bufio.Scan stdin)

/-! ## Collaborators

The renderer, the image encoder, `text/template`, `encoding/json` and the
file system are outside `render.go`. Their answers are parameters of the
embedding; every call to them is recorded as an event. -/

/-- A Go `error` of a collaborator, by its message. -/
abbrev GoError := String

/-- Modelled from the spec: `constants.Format` is declared in
lightbox/constants, which is not among the source files. `render.go` names
`constants.Unknown` and `constants.PNG`; the other values are the formats
that the `--format` flag lists. -/
inductive Format where
  | Unknown
  | Auto
  | PNG
  | JPEG
  | WEBP
  | GIF
  | MONO
  deriving DecidableEq, Repr

/-- Go `image.Point`. -/
structure Point where
  X : Int
  Y : Int
  deriving DecidableEq, Repr

/-- Go `image.Rectangle`. -/
structure Rectangle where
  Min : Point
  Max : Point
  deriving DecidableEq, Repr

/-- Go `Rectangle.Dx`: the width of the rectangle. -/
def Rectangle.Dx (r : Rectangle) : Int := r.Max.X - r.Min.X

/-- Go `Rectangle.Dy`: the height of the rectangle. -/
def Rectangle.Dy (r : Rectangle) : Int := r.Max.Y - r.Min.Y

/-- The captured image, by the fields `snapshot` reads: the pixel buffer
(`none` is a nil slice), the stride and the bounds. -/
structure Image where
  Pix : Option (List Nat)
  Stride : Int
  Rect : Rectangle
  deriving DecidableEq, Repr

/-- Go `reflect.Kind`. -/
inductive Kind where
  | Invalid | Bool | Int | Int8 | Int16 | Int32 | Int64
  | Uint | Uint8 | Uint16 | Uint32 | Uint64 | Uintptr
  | Float32 | Float64 | Complex64 | Complex128
  | Array | Chan | Func | Interface | Map | Ptr | Slice | String | Struct | UnsafePointer
  deriving DecidableEq, Repr

/-- A non-nil Go value held in an `interface{}`: the kind of its dynamic
type and the value, which the embedding keeps as text. A Go string is
`⟨Kind.String, its bytes⟩`. -/
structure Dyn where
  kind : Kind
  data : GoString
  deriving DecidableEq, Repr

/-- A Go `interface{}`: nil (`none`) or a value. -/
abbrev Value := Option Dyn

/-- Go `reflect.TypeOf(j)`: nil for a nil interface, else the dynamic type,
of which the code reads the kind. -/
def reflectTypeOf (j : Value) : Option Kind := j.map Dyn.kind

/-- Source `filenameMetadata`. The index is the `int` that `main` counts
up from 0 by one per URL. -/
structure filenameMetadata where
  Host : GoString
  Index : Nat
  deriving DecidableEq, Repr

/-- Source `timing`, with each time kept as the duration it is computed
from (the source stores `Seconds()` of it). -/
structure timing where
  Start : Int
  Load : Int
  Finish : Int
  deriving DecidableEq, Repr

/-- Source `metadata`. -/
structure metadata where
  Title : GoString
  URI : GoString
  Timing : timing
  deriving DecidableEq, Repr

/-- A `*template.Template`, by what it was built from: the names of its
`FuncMap` and the text it was parsed from. -/
structure Template where
  funcs : List String
  text : GoString
  deriving DecidableEq, Repr

/-- What is handed to a template or to `json.MarshalIndent`. -/
inductive Data where
  | value (j : Value)
  | filename (m : filenameMetadata)
  | metadata (m : metadata)
  deriving DecidableEq, Repr

/-- The `context.Context` of `newContext`: its timeout, when it has one. -/
structure Context where
  timeout : Option Int
  deriving DecidableEq, Repr

/-- The `io.Writer` that `snapshot` writes the image to. -/
inductive Dest where
  | Stdout
  | File (name : GoString)
  deriving DecidableEq, Repr

/-- An argument of a `fmt.Printf` call. -/
inductive Arg where
  | s (x : GoString)
  | b (x : Bool)
  | kind (k : Kind)
  deriving DecidableEq, Repr

/-- The calls `render.go` makes to its collaborators and to standard
output, as they appear in a run. -/
inductive Event where
  | Printf (format : String) (args : List Arg)
  | Println (j : Value)
  | NewRenderer
  | NewView (appName appVersion : GoString) (autoLoadImages console : Bool)
      (languages : List GoString)
  | LoadURI (u : GoString)
  | Wait (ctx : Context)
  | Close
  | NewSnapshot (ctx : Context)
  | EvaluateJavaScript (ctx : Context) (script : GoString)
  | TemplateParse (funcs : List String) (text : GoString)
  | TemplateExecute (t : Template) (d : Data)
  | MarshalIndent (d : Data)
  | Create (name : GoString)
  | FileClose (name : GoString)
  | Encode (format : Format) (out : Dest) (i : Image) (quality : Int)
  deriving DecidableEq, Repr

/-- The command line flags `render.go` reads. -/
structure Flags where
  debugOpt : Bool
  uaAppNameOpt : GoString
  uaAppVersionOpt : GoString
  consoleOpt : Bool
  timeoutOpt : Int
  languageOpt : GoString
  snapshotFormat : GoString
  snapshotQuality : Int
  snapshotOutput : GoString
  snapshotNoImagesOpt : Bool
  javascriptContent : GoString
  javascriptFormat : GoString
  javascriptImagesOpt : Bool
  metadataFormat : GoString
  metadataImagesOpt : Bool

/-- The libraries `render.go` formats and encodes with. `FormatParseFromFilename`
gives the format alone: `snapshot` discards the error. -/
structure Lib where
  templateParse : List String → GoString → Option GoError
  templateExecute : Template → Data → Except GoError GoString
  MarshalIndent : Data → Except GoError GoString
  FormatParse : GoString → Except GoError Format
  FormatParseFromFilename : GoString → Format

/-- What the renderer and the file system answer while one URL is
processed. -/
structure World where
  NewRenderer : Option GoError
  LoadURI : GoString → Option GoError
  Wait : Option GoError
  NewSnapshot : Except GoError Image
  EvaluateJavaScript : GoString → Except GoError Value
  Create : GoString → Option GoError
  Title : GoString
  URI : GoString
  TimeToStart : Int
  TimeToLoad : Int
  TimeToFinish : Int

/-! ## Runs -/

/-- How a piece of code ended. `fatal` is `app.Fatalf` or a failed
`app.FatalIfError`: kingpin prints the message and calls `os.Exit(1)`, which
ends the process at once, without running deferred calls. `panic` is a Go
run-time panic. -/
inductive Outcome (α : Type) where
  | ok (a : α)
  | fatal (msg : String)
  | panic (msg : String)
  deriving DecidableEq, Repr

/-- A run of a piece of code: the events so far, the deferred calls of the
enclosing function that are registered and not yet run (latest first), and
the outcome. -/
structure Run (α : Type) where
  events : List Event
  defers : List Event
  outcome : Outcome α

namespace Run

def ret {α : Type} (a : α) : Run α := ⟨[], [], .ok a⟩

def andThen {α β : Type} (r : Run α) (f : α → Run β) : Run β :=
  match r.outcome with
  | .ok a => ⟨r.events ++ (f a).events, (f a).defers ++ r.defers, (f a).outcome⟩
  | .fatal msg => ⟨r.events, r.defers, .fatal msg⟩
  | .panic msg => ⟨r.events, r.defers, .panic msg⟩

instance : Monad Run where
  pure := ret
  bind := andThen

/-- A call to a collaborator. -/
def emit (e : Event) : Run Unit := ⟨[e], [], .ok ()⟩

/-- Go `defer`: registers a call to run when the function ends. -/
def defer (e : Event) : Run Unit := ⟨[], [e], .ok ()⟩

/-- Kingpin `app.Fatalf`. -/
def Fatalf {α : Type} (msg : String) : Run α := ⟨[], [], .fatal msg⟩

/-- Kingpin `app.FatalIfError`. -/
def FatalIfError (err : Option GoError) (msg : String) : Run Unit :=
  match err with
  | none => ret ()
  | some _ => Fatalf msg

/-- A nil pointer dereference. -/
def nilDereference {α : Type} : Run α := ⟨[], [], .panic "nil pointer dereference"⟩

/-- A function body as a call: when the body returns or panics its deferred
calls run, latest first; when the process was ended they do not. -/
def func {α : Type} (body : Run α) : Run α :=
  match body.outcome with
  | .fatal msg => ⟨body.events, [], .fatal msg⟩
  | o => ⟨body.events ++ body.defers, [], o⟩

end Run

open Run

/-! ## render.go: sessions and output -/

/-- Source `newContext`. -/
def newContext (cfg : Flags) : Context :=
  if cfg.timeoutOpt > 0 then ⟨some cfg.timeoutOpt⟩ else ⟨none⟩

/-- Source `newLoadedView`. A nil `url` panics at `url.String()`. -/
def newLoadedView (cfg : Flags) (w : World) (ctx : Context) (url : Option URL)
    (autoLoadImages : Bool) : Run Unit :=
  func (match url with
  | none => nilDereference
  | some url => do
    let u := url.String
    emit .NewRenderer
    FatalIfError w.NewRenderer "Unable to create renderer"
    emit (.NewView cfg.uaAppNameOpt cfg.uaAppVersionOpt autoLoadImages cfg.consoleOpt
      (strings.Split cfg.languageOpt (ch ',')))
    if cfg.debugOpt then
      emit (.Printf "Loading URL:%q, Images:%t\n" [.s u, .b autoLoadImages])
    emit (.LoadURI u)
    FatalIfError (w.LoadURI u) "Unable to request URL %q"
    emit (.Wait ctx)
    FatalIfError w.Wait "Unable to load page")

/-- The `FuncMap` of `formatInterface`. -/
def formatFuncs : List String := ["json", "split", "join", "title", "lower", "upper"]

/-- The `FuncMap` of the output-name template in `main`. -/
def filenameFuncs : List String := ["split", "join", "title", "lower", "upper"]

/-- Source `formatInterface`. -/
def formatInterface (lib : Lib) (m : Data) (tmpl : GoString) : Run GoString :=
  func (if tmpl ≠ [] then do
    emit (.TemplateParse formatFuncs tmpl)
    FatalIfError (lib.templateParse formatFuncs tmpl) "Unable to parse template"
    emit (.TemplateExecute ⟨formatFuncs, tmpl⟩ m)
    match lib.templateExecute ⟨formatFuncs, tmpl⟩ m with
    | .error _ => Fatalf "Unable to format data"
    | .ok b => pure b
  else do
    emit (.MarshalIndent m)
    match lib.MarshalIndent m with
    | .error _ => Fatalf "Unable to format data"
    | .ok b => pure b)

/-- Source `createFilename`. -/
def createFilename (cfg : Flags) (lib : Lib) (temp : Template) (url : Option URL)
    (index : Nat) : Run GoString :=
  func (match url with
  | none => nilDereference
  | some url => do
    let m : filenameMetadata := ⟨url.Host, index⟩
    emit (.TemplateExecute temp (.filename m))
    match lib.templateExecute temp (.filename m) with
    | .error _ => Fatalf "Unable to format name"
    | .ok s => do
      if cfg.debugOpt then
        emit (.Printf "Writing output as file:%s\n" [.s s])
      pure s)

/-- The `if t == nil` statement of `snapshot`: the writer and the format
that `lightbox.Encode` is then called with. -/
def snapshotTarget (cfg : Flags) (lib : Lib) (w : World) (url : Option URL) (index : Nat)
    (optFmt : Format) (t : Option Template) : Run (Dest × Format) :=
  match t with
  | none => pure (.Stdout, optFmt)
  | some t => do
    let name ← createFilename cfg lib t url index
    emit (.Create name)
    FatalIfError (w.Create name) "Could not create image %s"
    defer (.FileClose name)
    let outFmt := lib.FormatParseFromFilename name
    if outFmt = .Unknown then do
      if cfg.debugOpt then
        emit (.Printf
          "Could not determine image type from filename %q, defaulting to image/png\n"
          [.s name])
      pure (.File name, .PNG)
    else
      pure (.File name, outFmt)

/-- Source `snapshot`. -/
def snapshot (cfg : Flags) (lib : Lib) (w : World) (url : Option URL) (index : Nat)
    (optFmt : Format) (t : Option Template) : Run Unit :=
  func (do
    let ctx := newContext cfg
    newLoadedView cfg w ctx url (!cfg.snapshotNoImagesOpt)
    defer .Close
    emit (.NewSnapshot ctx)
    match w.NewSnapshot with
    | .error _ => Fatalf "Unable to create snapshot"
    | .ok i =>
      if i.Pix = none then Fatalf "No Pix in captured image"
      else if i.Stride = 0 ∨ i.Rect.Max.X = 0 ∨ i.Rect.Max.Y = 0 then
        Fatalf "No image data in captured image"
      else do
        let target ← snapshotTarget cfg lib w url index optFmt t
        emit (.Encode target.2 target.1 i cfg.snapshotQuality))

/-- The test of `javascript` on the kind of the returned value. -/
def isStructured (j : Value) : Bool :=
  match reflectTypeOf j with
  | none => false
  | some k => k == .Map || k == .Slice || k == .Array

/-- Source `javascript`. -/
def javascript (cfg : Flags) (lib : Lib) (w : World) (url : Option URL)
    (script : GoString) : Run Unit :=
  func (do
    let ctx := newContext cfg
    newLoadedView cfg w ctx url cfg.javascriptImagesOpt
    defer .Close
    emit (.EvaluateJavaScript ctx script)
    match w.EvaluateJavaScript script with
    | .error _ => Fatalf "Unable to execute javascript"
    | .ok j => do
      if cfg.debugOpt then
        match j with
        | none => emit (.Println (some ⟨.String, str "JavaScript returned:null"⟩))
        | some d => emit (.Printf "JavaScript return type:%s, kind:%s\n" [.kind d.kind, .kind d.kind])
      if isStructured j then do
        let s ← formatInterface lib (.value j) cfg.javascriptFormat
        emit (.Println (some ⟨.String, s⟩))
      else
        emit (.Println j))

/-- The function literal that `main` runs per URL for the metadata
command. -/
def metadataFunc (cfg : Flags) (lib : Lib) (w : World) (u : Option URL) : Run Unit :=
  func (do
    let ctx := newContext cfg
    newLoadedView cfg w ctx u cfg.metadataImagesOpt
    defer .Close
    let m : metadata :=
      { Title := w.Title, URI := w.URI,
        Timing := { Start := w.TimeToStart, Load := w.TimeToLoad, Finish := w.TimeToFinish } }
    let s ← formatInterface lib (.metadata m) cfg.metadataFormat
    emit (.Println (some ⟨.String, s⟩)))

/-- The loop `for u := range urls(*snapshotOpt)` of `main`, from index `i`
on; `worlds k` is what the collaborators answer for the URL at index `k`. -/
def snapshotLoop (cfg : Flags) (lib : Lib) (worlds : Nat → World) (optFmt : Format)
    (t : Option Template) : List (Option URL) → Nat → Run Unit
  | [], _ => pure ()
  | u :: us, i => do
    snapshot cfg lib (worlds i) u i optFmt t
    snapshotLoop cfg lib worlds optFmt t us (i + 1)

/-- The snapshot case of `main`. The producer of `urls` runs beside the
loop; the URLs it sent are consumed in order, and a fatal error of the
producer is placed after them. -/
def mainSnapshot (cfg : Flags) (lib : Lib) (worlds : Nat → World) (arg : List URL)
    (stdin : List GoString) : Run Unit :=
  func (do
    let fnTemplate ← (if cfg.snapshotOutput ≠ [] then do
        emit (.TemplateParse filenameFuncs cfg.snapshotOutput)
        FatalIfError (lib.templateParse filenameFuncs cfg.snapshotOutput)
          "Unable to parse template"
        pure (some (⟨filenameFuncs, cfg.snapshotOutput⟩ : Template))
      else pure none : Run (Option Template))
    match lib.FormatParse cfg.snapshotFormat with
    | .error _ => Fatalf "Image format specification error"
    | .ok optFmt => do
      snapshotLoop cfg lib worlds optFmt fnTemplate (urls arg stdin).sent 0
      FatalIfError (urls arg stdin).fatal "Could not parse URL")

/-- The javascript case of `main`, after the script is read: the loop
`for u := range urls(*javascriptOpt)`. -/
def javascriptLoop (cfg : Flags) (lib : Lib) (worlds : Nat → World) (script : GoString) :
    List (Option URL) → Nat → Run Unit
  | [], _ => pure ()
  | u :: us, i => do
    javascript cfg lib (worlds i) u script
    javascriptLoop cfg lib worlds script us (i + 1)

/-- The metadata case of `main`: the loop `for u := range urls(*metadataOpt)`. -/
def metadataLoop (cfg : Flags) (lib : Lib) (worlds : Nat → World) :
    List (Option URL) → Nat → Run Unit
  | [], _ => pure ()
  | u :: us, i => do
    metadataFunc cfg lib (worlds i) u
    metadataLoop cfg lib worlds us (i + 1)

/-! ## Library behaviour used at concrete inputs -/

namespace template

/-- The decimal digits of `n`, as `text/template` prints an `int`. -/
def decimal (n : Nat) : GoString := (Nat.toDigits 10 n).map Char.toNat

/-- The field of the file-name record that an action names. -/
def field (action : GoString) (m : filenameMetadata) : Option GoString :=
  if action = str ".Host" then some m.Host
  else if action = str ".Index" then some (decimal m.Index)
  else none

/-- Where the scan of a template text stands: in text, after one `{`, in
an action with the bytes read so far, or in an action after one `}`. -/
inductive Scan where
  | text
  | leftBrace
  | action (read : GoString)
  | rightBrace (read : GoString)

/-- Go `text/template` on the templates made of text and of the actions
`{{.Host}}` and `{{.Index}}`, executed on a file-name record: text is
copied, an action prints its field. The result is `none` for a template
with any other action, which this definition does not cover. -/
def run (m : filenameMetadata) : GoString → Scan → Option GoString
  | [], .text => some []
  | [], .leftBrace => some [ch '{']
  | [], .action _ => none
  | [], .rightBrace _ => none
  | c :: rest, .text =>
    if c = ch '{' then run m rest .leftBrace
    else (run m rest .text).map (fun out => c :: out)
  | c :: rest, .leftBrace =>
    if c = ch '{' then run m rest (.action [])
    else (run m rest .text).map (fun out => ch '{' :: c :: out)
  | c :: rest, .action read =>
    if c = ch '}' then run m rest (.rightBrace read)
    else run m rest (.action (read ++ [c]))
  | c :: rest, .rightBrace read =>
    if c = ch '}' then
      match field read m, run m rest .text with
      | some v, some out => some (v ++ out)
      | _, _ => none
    else none

/-- Executing the file-name template `t` on the record `m`. -/
def execute (t : Template) (d : Data) : Except GoError GoString :=
  match d with
  | .filename m =>
    match run m t.text .text with
    | some out => .ok out
    | none => .error "template: action outside the modelled ones"
  | _ => .error "template: data outside the modelled ones"

end template

namespace lightbox

/-- Modelled from the spec: `lightbox.FormatParseFromFilename` is not among
the source files. The spec has the format "inferred from the filename
extension", with `out.jpg` giving JPEG and an unrecognised extension such as
`out.xyz` giving no format; the extensions taken as recognised here are the
names of the formats of the `--format` flag and `jpg`. -/
def FormatParseFromFilename (name : GoString) : Format :=
  match strings.LastIndexByte name (ch '.') with
  | none => .Unknown
  | some i =>
    let ext := strings.ToLower (name.drop (i + 1))
    if ext = str "png" then .PNG
    else if ext = str "jpg" ∨ ext = str "jpeg" then .JPEG
    else if ext = str "webp" then .WEBP
    else if ext = str "gif" then .GIF
    else .Unknown

/-- Modelled from the spec: `lightbox.FormatParse` is not among the source
files. It parses the format "from string name": the names are those that
the `--format` flag accepts. -/
def FormatParse (s : GoString) : Except GoError Format :=
  if s = str "auto" then .ok .Auto
  else if s = str "png" then .ok .PNG
  else if s = str "jpeg" then .ok .JPEG
  else if s = str "webp" then .ok .WEBP
  else if s = str "gif" then .ok .GIF
  else if s = str "mono" then .ok .MONO
  else .error "unknown format"

end lightbox

/-- The flags at their defaults (format `auto`, quality 75, no
`--accept-language`, empty templates), with `--output` set to `output`. -/
def defaultFlags (output : GoString) : Flags :=
  { debugOpt := false, uaAppNameOpt := str "go-render", uaAppVersionOpt := [],
    consoleOpt := false, timeoutOpt := 0, languageOpt := [],
    snapshotFormat := str "auto", snapshotQuality := 75, snapshotOutput := output,
    snapshotNoImagesOpt := false, javascriptContent := [], javascriptFormat := [],
    javascriptImagesOpt := false, metadataFormat := [], metadataImagesOpt := false }

/-- Libraries for the concrete runs: file-name templates always parse and
are executed by `template.execute`; JSON formatting answers with a fixed
text. -/
def sampleLib : Lib :=
  { templateParse := fun _ _ => none,
    templateExecute := template.execute,
    MarshalIndent := fun _ => .ok (str "{}"),
    FormatParse := lightbox.FormatParse,
    FormatParseFromFilename := lightbox.FormatParseFromFilename }

/-- A 2 by 1 image at the origin, 4 bytes a pixel. -/
def sampleImage : Image :=
  { Pix := some [0, 0, 0, 255, 255, 255, 255, 255], Stride := 8,
    Rect := { Min := ⟨0, 0⟩, Max := ⟨2, 1⟩ } }

/-- Collaborators that never fail: the page loads, the snapshot is
`image`, the script evaluates to `j`, files can be created. -/
def sampleWorld (image : Image) (j : Value) : World :=
  { NewRenderer := none, LoadURI := fun _ => none, Wait := none,
    NewSnapshot := .ok image, EvaluateJavaScript := fun _ => .ok j,
    Create := fun _ => none, Title := str "Example", URI := str "http://example.com/",
    TimeToStart := 1, TimeToLoad := 2, TimeToFinish := 3 }

/-- A URL with a scheme, for the concrete runs. -/
def sampleURL : URL := { Scheme := str "http", Host := str "example.com", Path := str "/a" }

/-- An image without a pixel buffer. -/
def nilImage : Image :=
  { Pix := none, Stride := 0, Rect := { Min := ⟨0, 0⟩, Max := ⟨0, 0⟩ } }

/-- The events of loading a view: none of them closes a session, formats,
creates a file, prints a result or encodes. -/
def Event.loads : Event → Prop
  | .Printf _ _ => True
  | .NewRenderer => True
  | .NewView _ _ _ _ _ => True
  | .LoadURI _ => True
  | .Wait _ => True
  | _ => False

/-- The calls that format a value: to `text/template` and to
`json.MarshalIndent`. -/
def Event.formats : Event → Prop
  | .TemplateParse _ _ => True
  | .TemplateExecute _ _ => True
  | .MarshalIndent _ => True
  | _ => False

/-- The file names handed to `os.Create` in a run, in order. -/
def createdNames (evs : List Event) : List GoString :=
  evs.filterMap (fun e => match e with
    | .Create name => some name
    | _ => none)

/-- A run releases its session exactly when it returns: a run that
returned called `Close` once, as its last call; a run that ended in a fatal
error never called it. -/
def closesOnReturn (r : Run Unit) : Prop :=
  (r.outcome = .ok () → r.events.count .Close = 1 ∧ r.events.getLast? = some .Close) ∧
    (∀ msg, r.outcome = .fatal msg → Event.Close ∉ r.events)

/-- Collaborators for which the page loads and the snapshot fails. -/
def noSnapshotWorld : World :=
  { sampleWorld sampleImage none with NewSnapshot := .error "no snapshot" }

/-- The URL that `url.Parse` reads from
`//user:pw@example.com:8080/a%20b?x=1#top`: no scheme, user information, a
host with a port, an escaped path, a query and a fragment. -/
def fullURL : URL :=
  { User := some { username := str "user", password := str "pw", passwordSet := true },
    Host := str "example.com:8080", Path := str "/a b", RawQuery := str "x=1",
    Fragment := str "top" }

/-- The URL that `url.Parse` reads from `//[fe80::1%25eth0]:80/a`: no scheme,
and a host that is an IPv6 literal with a zone and a port. -/
def zoneURL : URL := { Host := str "[fe80::1%eth0]:80", Path := str "/a" }

/-- A line of 65536 bytes: `//` and then 65534 times the letter `a`. -/
def longLine : GoString := str "//" ++ List.replicate 65534 (ch 'a')

/-- The flags at their defaults with `--accept-language` set to `language`. -/
def languageFlags (language : GoString) : Flags :=
  { defaultFlags [] with languageOpt := language }

/-- The unreserved characters of RFC 3986: letters, digits, `-`, `.`, `_`
and `~`. -/
def unreserved (c : Nat) : Bool :=
  (ch 'a' ≤ c && c ≤ ch 'z') || (ch 'A' ≤ c && c ≤ ch 'Z') || (ch '0' ≤ c && c ≤ ch '9') ||
    c == ch '-' || c == ch '.' || c == ch '_' || c == ch '~'

/-! ## Lemmas -/

theorem strings.genSplit_ne_nil (sep n : Nat) (s : GoString) :
    strings.genSplit sep n s ≠ [] := by
  cases n with
  | zero => simp [strings.genSplit]
  | succ n =>
    unfold strings.genSplit
    cases strings.Index s [sep] <;> simp

theorem strings.Index_byte_cons (a sep : Nat) (s : GoString) :
    strings.Index (a :: s) [sep] =
      if a = sep then some 0 else (strings.Index s [sep]).map (· + 1) := by
  rw [strings.Index]
  by_cases ha : a = sep
  · simp [strings.HasPrefix, ha]
  · cases hi : strings.Index s [sep] <;> simp [strings.HasPrefix, ha, hi]

theorem strings.Index_byte_none (s : GoString) (sep : Nat) :
    strings.Index s [sep] = none ↔ sep ∉ s := by
  induction s with
  | nil => simp [strings.Index]
  | cons a s ih =>
    rw [strings.Index_byte_cons]
    by_cases ha : a = sep
    · simp [ha]
    · have ha2 : ¬ sep = a := fun e => ha e.symm
      simp [ha, ha2, ih]

theorem strings.Index_byte_some (sep : Nat) (s : GoString) (m : Nat)
    (h : strings.Index s [sep] = some m) :
    sep ∉ s.take m ∧ s = s.take m ++ sep :: s.drop (m + 1) := by
  induction s generalizing m with
  | nil => simp [strings.Index] at h
  | cons a s ih =>
    rw [strings.Index_byte_cons] at h
    by_cases ha : a = sep
    · subst ha
      simp at h
      subst h
      simp
    · simp only [ha, if_false] at h
      cases hi : strings.Index s [sep] with
      | none => simp [hi] at h
      | some i =>
        simp only [hi, Option.map_some', Option.some.injEq] at h
        subst h
        obtain ⟨h1, h2⟩ := ih i hi
        refine ⟨?_, ?_⟩
        · simp only [List.take_succ_cons, List.mem_cons, not_or]
          exact ⟨fun e => ha e.symm, h1⟩
        · simp only [List.take_succ_cons, List.drop_succ_cons, List.cons_append]
          rw [← h2]

theorem strings.genSplit_spec (sep : Nat) (n : Nat) (s : GoString)
    (hn : n = strings.CountByte s sep) :
    [sep].intercalate (strings.genSplit sep n s) = s ∧
      (∀ p ∈ strings.genSplit sep n s, sep ∉ p) ∧
      (strings.genSplit sep n s).length = n + 1 := by
  induction n generalizing s with
  | zero =>
    have hs : sep ∉ s := by
      unfold strings.CountByte at hn
      exact List.count_eq_zero.mp hn.symm
    simp [strings.genSplit, List.intercalate, hs]
  | succ n ih =>
    unfold strings.genSplit
    cases hi : strings.Index s [sep] with
    | none =>
      exfalso
      have hpos : 0 < s.count sep := by
        unfold strings.CountByte at hn
        omega
      exact (strings.Index_byte_none s sep).mp hi (List.count_pos_iff.mp hpos)
    | some m =>
      obtain ⟨h1, h2⟩ := strings.Index_byte_some sep s m hi
      have hcount : n = strings.CountByte (s.drop (m + 1)) sep := by
        unfold strings.CountByte at hn ⊢
        have hc : s.count sep = (s.take m ++ sep :: s.drop (m + 1)).count sep := by rw [← h2]
        rw [List.count_append, List.count_cons, List.count_eq_zero.mpr h1] at hc
        simp at hc
        omega
      obtain ⟨i1, i2, i3⟩ := ih (s.drop (m + 1)) hcount
      refine ⟨?_, ?_, ?_⟩
      · have hne := i3
        cases hg : strings.genSplit sep n (s.drop (m + 1)) with
        | nil => rw [hg] at hne; simp at hne
        | cons p ps =>
          rw [hg] at i1
          simp only [List.intercalate, List.intersperse, List.flatten_cons, List.append_assoc,
            List.singleton_append] at i1 ⊢
          rw [hg]
          simp only [List.intersperse, List.flatten_cons, List.append_assoc,
            List.singleton_append]
          rw [i1]
          exact h2.symm
      · intro p hp
        rcases List.mem_cons.mp hp with e | e
        · rw [e]; exact h1
        · exact i2 p e
      · simp [i3]

theorem strings.Split_spec (s : GoString) (sep : Nat) :
    [sep].intercalate (strings.Split s sep) = s ∧
      (∀ p ∈ strings.Split s sep, sep ∉ p) ∧
      (strings.Split s sep).length = s.count sep + 1 :=
  strings.genSplit_spec sep _ s rfl

theorem newLoadedView_defers (cfg : Flags) (w : World) (ctx : Context) (url : Option URL)
    (autoLoadImages : Bool) : (newLoadedView cfg w ctx url autoLoadImages).defers = [] := by
  unfold newLoadedView Run.func
  split <;> rfl

theorem newLoadedView_loads (cfg : Flags) (w : World) (ctx : Context) (url : Option URL)
    (autoLoadImages : Bool) :
    ∀ e ∈ (newLoadedView cfg w ctx url autoLoadImages).events, e.loads := by
  unfold newLoadedView
  cases url with
  | none => simp [Run.func, Run.nilDereference]
  | some u =>
    cases h1 : w.NewRenderer <;> cases h2 : w.LoadURI u.String <;> cases h3 : w.Wait <;>
      cases h4 : cfg.debugOpt <;>
      simp [Run.func, Run.andThen, Run.emit, Run.FatalIfError, Run.Fatalf, Run.ret, bind, pure,
        h1, h2, h3, h4, Event.loads]

theorem createFilename_outcome_ok (cfg : Flags) (lib : Lib) (tm : Template)
    (url : Option URL) (index : Nat) (name : GoString) :
    (createFilename cfg lib tm url index).outcome = .ok name ↔
      ∃ u, url = some u ∧ lib.templateExecute tm (.filename ⟨u.Host, index⟩) = .ok name := by
  unfold createFilename
  cases url with
  | none => simp [Run.func, Run.nilDereference]
  | some u =>
    cases hx : lib.templateExecute tm (.filename ⟨u.Host, index⟩) <;>
      cases hdbg : cfg.debugOpt <;>
      simp [Run.func, Run.andThen, Run.emit, Run.Fatalf, Run.ret, bind, pure, hx, hdbg]

/-! ## The session: accepted languages -/

/-- C10: the language list that `newLoadedView` hands to `NewView` is the
comma-split of the `--accept-language` flag: it is what `strings.Split`
returns for the flag value and a comma, its pieces joined with commas give
back the flag value, no piece holds a comma, and it has one piece more than
the flag value has commas. So it is never empty, and for the empty flag value
it is the one-element list holding the empty string. A view is created
whenever the URL is not nil and the renderer is built. -/
theorem newLoadedView_languages (cfg : Flags) (w : World) (ctx : Context) (url : Option URL)
    (autoLoadImages : Bool) :
    (∀ a v i c langs,
      Event.NewView a v i c langs ∈ (newLoadedView cfg w ctx url autoLoadImages).events →
        langs = strings.Split cfg.languageOpt (ch ',') ∧
          [ch ','].intercalate langs = cfg.languageOpt ∧
          (∀ p ∈ langs, ch ',' ∉ p) ∧
          langs.length = cfg.languageOpt.count (ch ',') + 1 ∧
          1 ≤ langs.length ∧
          (cfg.languageOpt = [] → langs = [[]])) ∧
    (url ≠ none → w.NewRenderer = none →
      ∃ a v i c langs,
        Event.NewView a v i c langs ∈ (newLoadedView cfg w ctx url autoLoadImages).events) := by
  constructor
  · intro a v i c langs h
    have key : langs = strings.Split cfg.languageOpt (ch ',') := by
      unfold newLoadedView at h
      cases url with
      | none => simp [Run.func, Run.nilDereference] at h
      | some u =>
        cases h1 : w.NewRenderer <;> cases h2 : w.LoadURI u.String <;> cases h3 : w.Wait <;>
          cases h4 : cfg.debugOpt <;>
          simp [Run.func, Run.andThen, Run.emit, Run.FatalIfError, Run.Fatalf, Run.ret, bind,
            pure, h1, h2, h3, h4] at h <;>
          exact h.2.2.2.2
    subst key
    obtain ⟨s1, s2, s3⟩ := strings.Split_spec cfg.languageOpt (ch ',')
    refine ⟨rfl, s1, s2, s3, ?_, ?_⟩
    · have := strings.genSplit_ne_nil (ch ',') (strings.CountByte cfg.languageOpt (ch ','))
        cfg.languageOpt
      exact List.length_pos.mpr this
    · intro h0
      simp [strings.Split, h0, strings.CountByte, strings.genSplit]
  · intro hu hr
    unfold newLoadedView
    cases url with
    | none => exact absurd rfl hu
    | some u =>
      cases h2 : w.LoadURI u.String <;> cases h3 : w.Wait <;> cases h4 : cfg.debugOpt <;>
        simp [Run.func, Run.andThen, Run.emit, Run.FatalIfError, Run.Fatalf, Run.ret, bind,
          pure, hr, h2, h3, h4]

/-- C10 at `render --accept-language en-GB,de snapshot http://example.com/a`:
the view is created with the two languages `en-GB` and `de`; and without
`--accept-language` it is created with the language list `[""]`. -/
theorem newLoadedView_languages_witness :
    (Event.NewView (str "go-render") [] true false [str "en-GB", str "de"] ∈
        (newLoadedView (languageFlags (str "en-GB,de")) (sampleWorld sampleImage none) ⟨none⟩
          (some sampleURL) true).events ∧
      ([str "en-GB", str "de"] = strings.Split (str "en-GB,de") (ch ',') ∧
        [ch ','].intercalate [str "en-GB", str "de"] = str "en-GB,de" ∧
        (∀ p ∈ [str "en-GB", str "de"], ch ',' ∉ p) ∧
        [str "en-GB", str "de"].length = (str "en-GB,de").count (ch ',') + 1 ∧
        1 ≤ [str "en-GB", str "de"].length ∧
        (str "en-GB,de" = [] → [str "en-GB", str "de"] = [[]]))) ∧
    (Event.NewView (str "go-render") [] true false [[]] ∈
        (newLoadedView (languageFlags []) (sampleWorld sampleImage none) ⟨none⟩
          (some sampleURL) true).events ∧
      (([[]] : List GoString) = strings.Split [] (ch ',') ∧
        [ch ','].intercalate ([[]] : List GoString) = [] ∧
        (∀ p ∈ ([[]] : List GoString), ch ',' ∉ p) ∧
        ([[]] : List GoString).length = ([] : GoString).count (ch ',') + 1 ∧
        1 ≤ ([[]] : List GoString).length ∧
        (([] : GoString) = [] → ([[]] : List GoString) = [[]]))) :=
  ⟨⟨by decide,
      (newLoadedView_languages (languageFlags (str "en-GB,de")) (sampleWorld sampleImage none)
        ⟨none⟩ (some sampleURL) true).1 (str "go-render") [] true false [str "en-GB", str "de"]
        (by decide)⟩,
    ⟨by decide,
      (newLoadedView_languages (languageFlags []) (sampleWorld sampleImage none) ⟨none⟩
        (some sampleURL) true).1 (str "go-render") [] true false [[]] (by decide)⟩⟩

/-! ## The snapshot resolver -/

/-- C5: when a template is supplied and the format parsed from the generated
file name is Unknown, every call of the encoder that `snapshot` makes gets
PNG and the created file, whatever format was requested; and the unknown
extension raises no fatal error: when the view loads, the captured image
passes the checks and the file is created, `snapshot` returns and has
called the encoder with PNG. -/
theorem snapshot_unknown_extension_png (cfg : Flags) (lib : Lib) (w : World)
    (url : Option URL) (index : Nat) (optFmt : Format) (tm : Template) (name : GoString)
    (hname : (createFilename cfg lib tm url index).outcome = .ok name)
    (hunknown : lib.FormatParseFromFilename name = .Unknown) :
    (∀ f out i q,
      Event.Encode f out i q ∈ (snapshot cfg lib w url index optFmt (some tm)).events →
        f = .PNG ∧ out = .File name) ∧
    (∀ img,
      (newLoadedView cfg w (newContext cfg) url (!cfg.snapshotNoImagesOpt)).outcome = .ok () →
      w.NewSnapshot = .ok img → img.Pix ≠ none →
      ¬(img.Stride = 0 ∨ img.Rect.Max.X = 0 ∨ img.Rect.Max.Y = 0) →
      w.Create name = none →
        (snapshot cfg lib w url index optFmt (some tm)).outcome = .ok () ∧
        Event.Encode .PNG (.File name) img cfg.snapshotQuality ∈
          (snapshot cfg lib w url index optFmt (some tm)).events) := by
  rw [createFilename_outcome_ok] at hname
  obtain ⟨u, rfl, hx⟩ := hname
  unfold snapshot
  dsimp only
  have hd := newLoadedView_defers cfg w (newContext cfg) (some u) (!cfg.snapshotNoImagesOpt)
  have hl := newLoadedView_loads cfg w (newContext cfg) (some u) (!cfg.snapshotNoImagesOpt)
  generalize newLoadedView cfg w (newContext cfg) (some u) (!cfg.snapshotNoImagesOpt) = r
    at hd hl
  obtain ⟨ev, df, oc⟩ := r
  simp only at hd hl
  subst hd
  have hne : ∀ f out i q, Event.Encode f out i q ∉ ev :=
    fun f out i q h => by simpa [Event.loads] using hl _ h
  cases oc with
  | fatal msg => simp [Run.func, Run.andThen, bind, hne]
  | panic msg => simp [Run.func, Run.andThen, bind, hne]
  | ok _ =>
    unfold snapshotTarget createFilename
    cases hs : w.NewSnapshot with
    | error e => simp [Run.func, Run.andThen, Run.emit, Run.defer, Run.Fatalf, bind, hne]
    | ok img =>
      by_cases hp : img.Pix = none
      · simp [Run.func, Run.andThen, Run.emit, Run.defer, Run.Fatalf, bind, hne, hp]
      · by_cases hz : img.Stride = 0 ∨ img.Rect.Max.X = 0 ∨ img.Rect.Max.Y = 0
        · simp [Run.func, Run.andThen, Run.emit, Run.defer, Run.Fatalf, bind, hne, hp, hz]
          intro h1 h2 h3
          exact absurd hz (by simp [h1, h2, h3])
        · cases hc : w.Create name <;> cases hdbg : cfg.debugOpt <;>
            simp [Run.func, Run.andThen, Run.emit, Run.defer, Run.Fatalf, Run.ret,
              Run.FatalIfError, Run.nilDereference, bind, pure, hne, hp, hz, hx, hc, hdbg,
              hunknown] <;>
            intros <;> simp_all

/-- C5 at `--output out.xyz`: the extension is not recognised, the run
returns and the encoder is called with PNG. -/
theorem snapshot_unknown_extension_png_witness :
    (snapshot (defaultFlags (str "out.xyz")) sampleLib (sampleWorld sampleImage none)
        (some sampleURL) 0 .Auto (some ⟨filenameFuncs, str "out.xyz"⟩)).outcome = .ok () ∧
      Event.Encode .PNG (.File (str "out.xyz")) sampleImage
          (defaultFlags (str "out.xyz")).snapshotQuality ∈
        (snapshot (defaultFlags (str "out.xyz")) sampleLib (sampleWorld sampleImage none)
          (some sampleURL) 0 .Auto (some ⟨filenameFuncs, str "out.xyz"⟩)).events :=
  (snapshot_unknown_extension_png (defaultFlags (str "out.xyz")) sampleLib
    (sampleWorld sampleImage none) (some sampleURL) 0 .Auto ⟨filenameFuncs, str "out.xyz"⟩
    (str "out.xyz") (by decide) (by decide)).2 sampleImage (by decide) rfl (by decide)
    (by decide) rfl

/-- The checks of `snapshot` on the captured image: when the view has loaded
and the image has a nil pixel buffer, or stride 0, or a rectangle whose Max
corner has X = 0 or Y = 0, or a rectangle that starts at the origin and has
width 0 or height 0, `snapshot` ends in a fatal error and never calls the
encoder. -/
theorem snapshot_invalid_image_fatal (cfg : Flags) (lib : Lib) (w : World) (url : Option URL)
    (index : Nat) (optFmt : Format) (t : Option Template) (img : Image)
    (hview :
      (newLoadedView cfg w (newContext cfg) url (!cfg.snapshotNoImagesOpt)).outcome = .ok ())
    (himg : w.NewSnapshot = .ok img)
    (hbad : img.Pix = none ∨ img.Stride = 0 ∨ img.Rect.Max.X = 0 ∨ img.Rect.Max.Y = 0 ∨
      (img.Rect.Min = ⟨0, 0⟩ ∧ (img.Rect.Dx = 0 ∨ img.Rect.Dy = 0))) :
    (∃ msg, (snapshot cfg lib w url index optFmt t).outcome = .fatal msg) ∧
      ∀ f out i q, Event.Encode f out i q ∉ (snapshot cfg lib w url index optFmt t).events := by
  have hbad2 : img.Pix = none ∨ (img.Stride = 0 ∨ img.Rect.Max.X = 0 ∨ img.Rect.Max.Y = 0) := by
    rcases hbad with h | h | h | h | ⟨hmin, h⟩
    · exact Or.inl h
    · exact Or.inr (Or.inl h)
    · exact Or.inr (Or.inr (Or.inl h))
    · exact Or.inr (Or.inr (Or.inr h))
    · simp only [Rectangle.Dx, Rectangle.Dy, hmin, sub_zero] at h
      exact Or.inr (Or.inr h)
  unfold snapshot
  dsimp only
  have hd := newLoadedView_defers cfg w (newContext cfg) url (!cfg.snapshotNoImagesOpt)
  have hl := newLoadedView_loads cfg w (newContext cfg) url (!cfg.snapshotNoImagesOpt)
  generalize newLoadedView cfg w (newContext cfg) url (!cfg.snapshotNoImagesOpt) = r
    at hd hl hview
  obtain ⟨ev, df, oc⟩ := r
  simp only at hd hl hview
  subst hd hview
  have hne : ∀ f out i q, Event.Encode f out i q ∉ ev :=
    fun f out i q h => by simpa [Event.loads] using hl _ h
  by_cases hp : img.Pix = none
  · simp [Run.func, Run.andThen, Run.emit, Run.defer, Run.Fatalf, bind, hne, hp, himg]
  · have hz := hbad2.resolve_left hp
    simp [Run.func, Run.andThen, Run.emit, Run.defer, Run.Fatalf, bind, hne, hp, hz, himg]

/-- The checks of `snapshot` at an image without a pixel buffer. -/
theorem snapshot_invalid_image_fatal_witness :
    (∃ msg, (snapshot (defaultFlags []) sampleLib (sampleWorld nilImage none)
        (some sampleURL) 0 .Auto none).outcome = .fatal msg) ∧
      ∀ f out i q, Event.Encode f out i q ∉
        (snapshot (defaultFlags []) sampleLib (sampleWorld nilImage none) (some sampleURL) 0
          .Auto none).events :=
  snapshot_invalid_image_fatal (defaultFlags []) sampleLib (sampleWorld nilImage none)
    (some sampleURL) 0 .Auto none nilImage (by decide) rfl (Or.inl rfl)

/-! ## The result classifier -/

theorem isStructured_iff (j : Value) :
    isStructured j = true ↔
      ∃ d, j = some d ∧ (d.kind = .Map ∨ d.kind = .Slice ∨ d.kind = .Array) := by
  cases j with
  | none => simp [isStructured, reflectTypeOf]
  | some d =>
    obtain ⟨k, x⟩ := d
    cases k <;> simp [isStructured, reflectTypeOf]

theorem formatInterface_defers (lib : Lib) (m : Data) (tmpl : GoString) :
    (formatInterface lib m tmpl).defers = [] := by
  unfold formatInterface Run.func
  split <;> rfl

theorem formatInterface_formats (lib : Lib) (m : Data) (tmpl : GoString) :
    (∀ e ∈ (formatInterface lib m tmpl).events, e.formats) ∧
      ∃ e ∈ (formatInterface lib m tmpl).events, e.formats := by
  unfold formatInterface
  by_cases ht : tmpl = []
  · cases hm : lib.MarshalIndent m <;>
      simp [Run.func, Run.andThen, Run.emit, Run.Fatalf, Run.ret, bind, pure, ht, hm,
        Event.formats]
  · cases hp : lib.templateParse formatFuncs tmpl <;>
      cases hx : lib.templateExecute ⟨formatFuncs, tmpl⟩ m <;>
      simp [Run.func, Run.andThen, Run.emit, Run.Fatalf, Run.FatalIfError, Run.ret, bind, pure,
        ht, hp, hx, Event.formats]

/-- C3: when the view has loaded and the script evaluates to `j`,
`javascript` calls the formatter (a template or `json.MarshalIndent` call
appears in the run) if and only if `j` is a value of kind map, slice or array.
In that case the calls are those of `formatInterface` on `j` with the
`--format` template, and the text it returns is what is printed. In every
other case (nil, or a value of any other kind) `j` itself is printed and the
run returns. -/
theorem javascript_formats_iff_structured (cfg : Flags) (lib : Lib) (w : World)
    (url : Option URL) (script : GoString) (j : Value)
    (hview :
      (newLoadedView cfg w (newContext cfg) url cfg.javascriptImagesOpt).outcome = .ok ())
    (hj : w.EvaluateJavaScript script = .ok j) :
    ((∃ e ∈ (javascript cfg lib w url script).events, e.formats) ↔
      ∃ d, j = some d ∧ (d.kind = .Map ∨ d.kind = .Slice ∨ d.kind = .Array)) ∧
    ((∃ d, j = some d ∧ (d.kind = .Map ∨ d.kind = .Slice ∨ d.kind = .Array)) →
      (∀ e ∈ (formatInterface lib (.value j) cfg.javascriptFormat).events,
        e ∈ (javascript cfg lib w url script).events) ∧
      ∀ s, (formatInterface lib (.value j) cfg.javascriptFormat).outcome = .ok s →
        Event.Println (some ⟨.String, s⟩) ∈ (javascript cfg lib w url script).events ∧
        (javascript cfg lib w url script).outcome = .ok ()) ∧
    ((¬∃ d, j = some d ∧ (d.kind = .Map ∨ d.kind = .Slice ∨ d.kind = .Array)) →
      Event.Println j ∈ (javascript cfg lib w url script).events ∧
      (javascript cfg lib w url script).outcome = .ok ()) := by
  rw [← isStructured_iff]
  unfold javascript
  simp only [hj]
  have hd := newLoadedView_defers cfg w (newContext cfg) url cfg.javascriptImagesOpt
  have hl := newLoadedView_loads cfg w (newContext cfg) url cfg.javascriptImagesOpt
  generalize newLoadedView cfg w (newContext cfg) url cfg.javascriptImagesOpt = r
    at hd hl hview
  obtain ⟨ev, df, oc⟩ := r
  simp only at hd hl hview
  subst hd hview
  have hne : ∀ e ∈ ev, ¬e.formats := by
    intro e he hf
    have := hl e he
    cases e <;> simp [Event.loads, Event.formats] at this hf
  have hfd := formatInterface_defers lib (.value j) cfg.javascriptFormat
  have hff := formatInterface_formats lib (.value j) cfg.javascriptFormat
  generalize formatInterface lib (.value j) cfg.javascriptFormat = fi at hfd hff
  obtain ⟨fev, fdf, foc⟩ := fi
  simp only at hfd hff
  subst hfd
  obtain ⟨_, e0, he0, hf0⟩ := hff
  have hx1 : ¬(Event.EvaluateJavaScript (newContext cfg) script).formats := by
    simp [Event.formats]
  have hx2 : ∀ v, ¬(Event.Println v).formats := by simp [Event.formats]
  have hx3 : ¬Event.Close.formats := by simp [Event.formats]
  have hx4 : ∀ f a, ¬(Event.Printf f a).formats := by simp [Event.formats]
  by_cases hst : isStructured j = true
  · cases hdbg : cfg.debugOpt <;> cases j <;> cases foc <;>
      simp [Run.func, Run.andThen, Run.emit, Run.defer, Run.Fatalf, Run.ret, bind, pure,
        hst, hdbg] <;>
      exact ⟨⟨e0, by simp [he0], hf0⟩, fun e he => by simp [he]⟩
  · cases hdbg : cfg.debugOpt <;> cases j <;>
      simp [Run.func, Run.andThen, Run.emit, Run.defer, Run.Fatalf, Run.ret, bind, pure,
        hst, hdbg, or_imp, forall_and, hx1, hx2, hx3, hx4] <;>
      exact hne

/-- C3 at a script that returns a mapping, whose formatted text is then
printed, and at a script that returns the number 42, which is printed as it
is. -/
theorem javascript_formats_iff_structured_witness :
    (Event.Println (some ⟨.String, str "\x7b\x7d"⟩) ∈
        (javascript (defaultFlags []) sampleLib
          (sampleWorld sampleImage (some ⟨.Map, str "map[a:1]"⟩)) (some sampleURL)
          (str "x")).events ∧
      (javascript (defaultFlags []) sampleLib
        (sampleWorld sampleImage (some ⟨.Map, str "map[a:1]"⟩)) (some sampleURL)
        (str "x")).outcome = .ok ()) ∧
    (Event.Println (some ⟨.Float64, str "42"⟩) ∈
        (javascript (defaultFlags []) sampleLib
          (sampleWorld sampleImage (some ⟨.Float64, str "42"⟩)) (some sampleURL)
          (str "x")).events ∧
      (javascript (defaultFlags []) sampleLib
        (sampleWorld sampleImage (some ⟨.Float64, str "42"⟩)) (some sampleURL)
        (str "x")).outcome = .ok ()) :=
  ⟨((javascript_formats_iff_structured (defaultFlags []) sampleLib
      (sampleWorld sampleImage (some ⟨.Map, str "map[a:1]"⟩)) (some sampleURL) (str "x")
      (some ⟨.Map, str "map[a:1]"⟩) (by decide) rfl).2.1
      ⟨⟨.Map, str "map[a:1]"⟩, rfl, Or.inl rfl⟩).2 (str "\x7b\x7d") (by decide),
    (javascript_formats_iff_structured (defaultFlags []) sampleLib
      (sampleWorld sampleImage (some ⟨.Float64, str "42"⟩)) (some sampleURL) (str "x")
      (some ⟨.Float64, str "42"⟩) (by decide) rfl).2.2 (by decide)⟩

/-! ## The session: release -/

theorem getLast?_as_head (l : List Event) : l.getLast? = l.reverse.head? := by
  simp

theorem snapshot_closesOnReturn (cfg : Flags) (lib : Lib) (w : World) (url : Option URL)
    (index : Nat) (optFmt : Format) (t : Option Template) :
    closesOnReturn (snapshot cfg lib w url index optFmt t) := by
  unfold closesOnReturn snapshot
  dsimp only
  have hd := newLoadedView_defers cfg w (newContext cfg) url (!cfg.snapshotNoImagesOpt)
  have hl := newLoadedView_loads cfg w (newContext cfg) url (!cfg.snapshotNoImagesOpt)
  generalize newLoadedView cfg w (newContext cfg) url (!cfg.snapshotNoImagesOpt) = r at hd hl
  obtain ⟨ev, df, oc⟩ := r
  simp only at hd hl
  subst hd
  have hne : Event.Close ∉ ev := fun h => by simpa [Event.loads] using hl _ h
  have hc : List.count Event.Close ev = 0 := List.count_eq_zero.mpr hne
  cases oc with
  | fatal msg => simp [Run.func, Run.andThen, bind, hne]
  | panic msg => simp [Run.func, Run.andThen, bind, hne]
  | ok _ =>
    unfold snapshotTarget createFilename
    cases hs : w.NewSnapshot with
    | error e => simp [Run.func, Run.andThen, Run.emit, Run.defer, Run.Fatalf, bind, hne]
    | ok img =>
      by_cases hp : img.Pix = none
      · simp [Run.func, Run.andThen, Run.emit, Run.defer, Run.Fatalf, bind, hne, hp]
      · by_cases hz : img.Stride = 0 ∨ img.Rect.Max.X = 0 ∨ img.Rect.Max.Y = 0
        · simp [Run.func, Run.andThen, Run.emit, Run.defer, Run.Fatalf, bind, hne, hp, hz]
        · cases t with
          | none =>
            simp [Run.func, Run.andThen, Run.emit, Run.defer, Run.Fatalf, Run.ret, bind, pure,
              hne, hp, hz, hc, List.count_cons, List.getLast?_append]
          | some tm =>
            cases url with
            | none =>
              simp [Run.func, Run.andThen, Run.emit, Run.defer, Run.Fatalf, Run.ret,
                Run.nilDereference, bind, pure, hne, hp, hz]
            | some u =>
              cases hx : lib.templateExecute tm (.filename ⟨u.Host, index⟩) with
              | error e =>
                simp [Run.func, Run.andThen, Run.emit, Run.defer, Run.Fatalf, Run.ret,
                  Run.nilDereference, bind, pure, hne, hp, hz, hx]
              | ok name =>
                cases hcr : w.Create name <;> cases hdbg : cfg.debugOpt <;>
                  by_cases hu : lib.FormatParseFromFilename name = .Unknown <;>
                  simp [Run.func, Run.andThen, Run.emit, Run.defer, Run.Fatalf, Run.ret,
                    Run.FatalIfError, Run.nilDereference, bind, pure, hne, hp, hz, hx, hcr,
                    hdbg, hu, hc, List.count_cons, List.getLast?_append]

theorem javascript_closesOnReturn (cfg : Flags) (lib : Lib) (w : World) (url : Option URL)
    (script : GoString) : closesOnReturn (javascript cfg lib w url script) := by
  unfold closesOnReturn javascript
  dsimp only
  have hd := newLoadedView_defers cfg w (newContext cfg) url cfg.javascriptImagesOpt
  have hl := newLoadedView_loads cfg w (newContext cfg) url cfg.javascriptImagesOpt
  generalize newLoadedView cfg w (newContext cfg) url cfg.javascriptImagesOpt = r at hd hl
  obtain ⟨ev, df, oc⟩ := r
  simp only at hd hl
  subst hd
  have hne : Event.Close ∉ ev := fun h => by simpa [Event.loads] using hl _ h
  have hc : List.count Event.Close ev = 0 := List.count_eq_zero.mpr hne
  cases oc with
  | fatal msg => simp [Run.func, Run.andThen, bind, hne]
  | panic msg => simp [Run.func, Run.andThen, bind, hne]
  | ok _ =>
    cases hj : w.EvaluateJavaScript script with
    | error e => simp [Run.func, Run.andThen, Run.emit, Run.defer, Run.Fatalf, bind, hne]
    | ok j =>
      dsimp only
      have hfd := formatInterface_defers lib (.value j) cfg.javascriptFormat
      have hff := (formatInterface_formats lib (.value j) cfg.javascriptFormat).1
      generalize formatInterface lib (.value j) cfg.javascriptFormat = fi at hfd hff
      obtain ⟨fev, fdf, foc⟩ := fi
      simp only at hfd hff
      subst hfd
      have hfne : Event.Close ∉ fev := fun h => by simpa [Event.formats] using hff _ h
      have hfc : List.count Event.Close fev = 0 := List.count_eq_zero.mpr hfne
      cases hdbg : cfg.debugOpt <;> cases hst : isStructured j <;> cases j <;> cases foc <;>
        simp [Run.func, Run.andThen, Run.emit, Run.defer, Run.Fatalf, Run.ret, bind, pure,
          hne, hfne, hc, hfc, hdbg, hst, List.count_cons] <;>
        (simp only [getLast?_as_head]; simp)

theorem metadataFunc_closesOnReturn (cfg : Flags) (lib : Lib) (w : World) (u : Option URL) :
    closesOnReturn (metadataFunc cfg lib w u) := by
  unfold closesOnReturn metadataFunc
  dsimp only
  have hd := newLoadedView_defers cfg w (newContext cfg) u cfg.metadataImagesOpt
  have hl := newLoadedView_loads cfg w (newContext cfg) u cfg.metadataImagesOpt
  generalize newLoadedView cfg w (newContext cfg) u cfg.metadataImagesOpt = r at hd hl
  obtain ⟨ev, df, oc⟩ := r
  simp only at hd hl
  subst hd
  have hne : Event.Close ∉ ev := fun h => by simpa [Event.loads] using hl _ h
  have hc : List.count Event.Close ev = 0 := List.count_eq_zero.mpr hne
  cases oc with
  | fatal msg => simp [Run.func, Run.andThen, bind, hne]
  | panic msg => simp [Run.func, Run.andThen, bind, hne]
  | ok _ =>
    generalize Data.metadata _ = m
    have hfd := formatInterface_defers lib m cfg.metadataFormat
    have hff := (formatInterface_formats lib m cfg.metadataFormat).1
    generalize formatInterface lib m cfg.metadataFormat = fi at hfd hff
    obtain ⟨fev, fdf, foc⟩ := fi
    simp only at hfd hff
    subst hfd
    have hfne : Event.Close ∉ fev := fun h => by simpa [Event.formats] using hff _ h
    have hfc : List.count Event.Close fev = 0 := List.count_eq_zero.mpr hfne
    cases foc <;>
      simp [Run.func, Run.andThen, Run.emit, Run.defer, Run.Fatalf, Run.ret, bind, pure,
        hne, hfne, hc, hfc, List.count_cons, List.getLast?_append]

/-- C9 as stated fails: when the page loads and the snapshot cannot be
created, `snapshot` has opened a session (`NewView`), ends in the fatal
error "Unable to create snapshot", and has not called `Close`. -/
theorem snapshot_fatal_leaves_session_open :
    Event.NewView (str "go-render") [] true false [[]] ∈
        (snapshot (defaultFlags []) sampleLib noSnapshotWorld (some sampleURL) 0 .Auto
          none).events ∧
      (snapshot (defaultFlags []) sampleLib noSnapshotWorld (some sampleURL) 0 .Auto
        none).outcome = .fatal "Unable to create snapshot" ∧
      Event.Close ∉
        (snapshot (defaultFlags []) sampleLib noSnapshotWorld (some sampleURL) 0 .Auto
          none).events := by
  decide

/-- C9, amended: for `snapshot`, `javascript` and the function that the
metadata command runs per URL, a run that returns has called `Close` exactly
once, as its last call; a run that ends in a fatal error, which terminates
the process at once, has not called `Close`. -/
theorem session_closed_on_return (cfg : Flags) (lib : Lib) (w : World) (url : Option URL)
    (index : Nat) (optFmt : Format) (t : Option Template) (script : GoString) :
    closesOnReturn (snapshot cfg lib w url index optFmt t) ∧
      closesOnReturn (javascript cfg lib w url script) ∧
      closesOnReturn (metadataFunc cfg lib w url) :=
  ⟨snapshot_closesOnReturn cfg lib w url index optFmt t,
    javascript_closesOnReturn cfg lib w url script,
    metadataFunc_closesOnReturn cfg lib w url⟩

/-- C9, amended, at a snapshot to standard output that succeeds: `Close` is
called once, as the last call. -/
theorem session_closed_on_return_witness :
    (snapshot (defaultFlags []) sampleLib (sampleWorld sampleImage none) (some sampleURL) 0
        .Auto none).events.count .Close = 1 ∧
      (snapshot (defaultFlags []) sampleLib (sampleWorld sampleImage none) (some sampleURL) 0
        .Auto none).events.getLast? = some .Close :=
  (session_closed_on_return (defaultFlags []) sampleLib (sampleWorld sampleImage none)
    (some sampleURL) 0 .Auto none []).1.1 (by decide)

/-! ## The snapshot command: file names -/

theorem func_defers {α : Type} (body : Run α) : (Run.func body).defers = [] := by
  unfold Run.func
  split <;> rfl

theorem createdNames_append (a b : List Event) :
    createdNames (a ++ b) = createdNames a ++ createdNames b := by
  simp [createdNames, List.filterMap_append]

theorem createdNames_cons (e : Event) (l : List Event) :
    createdNames (e :: l) =
      (match e with
        | .Create name => [name]
        | _ => []) ++ createdNames l := by
  cases e <;> simp [createdNames, List.filterMap_cons]

theorem createdNames_nil : createdNames [] = [] := rfl

theorem snapshot_created (cfg : Flags) (lib : Lib) (w : World) (url : Option URL)
    (index : Nat) (optFmt : Format) (tm : Template) :
    (createdNames (snapshot cfg lib w url index optFmt (some tm)).events = [] ∧
        (snapshot cfg lib w url index optFmt (some tm)).outcome ≠ .ok ()) ∨
      ∃ u name, url = some u ∧
        lib.templateExecute tm (.filename ⟨u.Host, index⟩) = .ok name ∧
        createdNames (snapshot cfg lib w url index optFmt (some tm)).events = [name] := by
  unfold snapshot
  dsimp only
  have hd := newLoadedView_defers cfg w (newContext cfg) url (!cfg.snapshotNoImagesOpt)
  have hl := newLoadedView_loads cfg w (newContext cfg) url (!cfg.snapshotNoImagesOpt)
  generalize newLoadedView cfg w (newContext cfg) url (!cfg.snapshotNoImagesOpt) = r at hd hl
  obtain ⟨ev, df, oc⟩ := r
  simp only at hd hl
  subst hd
  have hne : createdNames ev = [] := by
    unfold createdNames
    rw [List.filterMap_eq_nil_iff]
    intro e he
    have := hl e he
    cases e <;> simp [Event.loads] at this ⊢
  cases oc with
  | fatal msg => simp [Run.func, Run.andThen, bind, hne]
  | panic msg => simp [Run.func, Run.andThen, bind, hne]
  | ok _ =>
    unfold snapshotTarget createFilename
    cases hs : w.NewSnapshot with
    | error e =>
      simp [Run.func, Run.andThen, Run.emit, Run.defer, Run.Fatalf, bind, hne,
        createdNames_append, createdNames_cons, createdNames_nil]
    | ok img =>
      by_cases hp : img.Pix = none
      · simp [Run.func, Run.andThen, Run.emit, Run.defer, Run.Fatalf, bind, hne, hp,
          createdNames_append, createdNames_cons, createdNames_nil]
      · by_cases hz : img.Stride = 0 ∨ img.Rect.Max.X = 0 ∨ img.Rect.Max.Y = 0
        · simp [Run.func, Run.andThen, Run.emit, Run.defer, Run.Fatalf, bind, hne, hp, hz,
            createdNames_append, createdNames_cons, createdNames_nil]
        · cases url with
          | none =>
            simp [Run.func, Run.andThen, Run.emit, Run.defer, Run.Fatalf, Run.ret,
              Run.nilDereference, bind, pure, hne, hp, hz,
              createdNames_append, createdNames_cons, createdNames_nil]
          | some u =>
            cases hx : lib.templateExecute tm (.filename ⟨u.Host, index⟩) with
            | error e =>
              simp [Run.func, Run.andThen, Run.emit, Run.defer, Run.Fatalf, Run.ret,
                Run.nilDereference, bind, pure, hne, hp, hz, hx,
                createdNames_append, createdNames_cons, createdNames_nil]
            | ok name =>
              cases hcr : w.Create name <;> cases hdbg : cfg.debugOpt <;>
                by_cases hu : lib.FormatParseFromFilename name = .Unknown <;>
                simp [Run.func, Run.andThen, Run.emit, Run.defer, Run.Fatalf, Run.ret,
                  Run.FatalIfError, Run.nilDereference, bind, pure, hne, hp, hz, hx, hcr,
                  hdbg, hu, createdNames_append, createdNames_cons, createdNames_nil]

theorem snapshotLoop_created (cfg : Flags) (lib : Lib) (worlds : Nat → World)
    (optFmt : Format) (tm : Template) (us : List (Option URL)) :
    ∀ i,
      (∀ k name,
        (createdNames (snapshotLoop cfg lib worlds optFmt (some tm) us i).events)[k]? =
            some name →
          ∃ u, us[k]? = some (some u) ∧
            lib.templateExecute tm (.filename ⟨u.Host, i + k⟩) = .ok name) ∧
      ((snapshotLoop cfg lib worlds optFmt (some tm) us i).outcome = .ok () →
        (createdNames (snapshotLoop cfg lib worlds optFmt (some tm) us i).events).length =
          us.length) := by
  induction us with
  | nil =>
    intro i
    simp [snapshotLoop, pure, Run.ret, createdNames_nil]
  | cons u us ih =>
    intro i
    obtain ⟨ih1, ih2⟩ := ih (i + 1)
    have hs := snapshot_created cfg lib (worlds i) u i optFmt tm
    unfold snapshotLoop
    generalize snapshot cfg lib (worlds i) u i optFmt (some tm) = r at hs
    generalize snapshotLoop cfg lib worlds optFmt (some tm) us (i + 1) = r2 at ih1 ih2
    obtain ⟨ev, df, oc⟩ := r
    obtain ⟨ev2, df2, oc2⟩ := r2
    simp only at hs ih1 ih2
    rcases hs with ⟨h0, hnok⟩ | ⟨u0, name0, rfl, hx, h1⟩
    · cases oc with
      | ok _ => exact absurd rfl hnok
      | fatal msg => simp [bind, Run.andThen, h0]
      | panic msg => simp [bind, Run.andThen, h0]
    · cases oc with
      | ok _ =>
        simp only [bind, Run.andThen, createdNames_append, h1]
        constructor
        · intro k name hk
          cases k with
          | zero =>
            simp at hk
            subst hk
            exact ⟨u0, by simp, by simpa using hx⟩
          | succ k =>
            simp at hk
            obtain ⟨u1, hu1, hx1⟩ := ih1 k name hk
            exact ⟨u1, by simpa using hu1, by rw [← hx1]; congr 3; omega⟩
        · intro hok
          simp [ih2 hok]
      | fatal msg =>
        simp only [bind, Run.andThen, h1]
        constructor
        · intro k name hk
          cases k with
          | zero =>
            simp at hk
            subst hk
            exact ⟨u0, by simp, by simpa using hx⟩
          | succ k => simp at hk
        · intro hok
          simp at hok
      | panic msg =>
        simp only [bind, Run.andThen, h1]
        constructor
        · intro k name hk
          cases k with
          | zero =>
            simp at hk
            subst hk
            exact ⟨u0, by simp, by simpa using hx⟩
          | succ k => simp at hk
        · intro hok
          simp at hok

theorem snapshotLoop_defers (cfg : Flags) (lib : Lib) (worlds : Nat → World)
    (optFmt : Format) (t : Option Template) (us : List (Option URL)) :
    ∀ i, (snapshotLoop cfg lib worlds optFmt t us i).defers = [] := by
  induction us with
  | nil => intro i; rfl
  | cons u us ih =>
    intro i
    unfold snapshotLoop
    have h1 : (snapshot cfg lib (worlds i) u i optFmt t).defers = [] := func_defers _
    have h2 := ih (i + 1)
    generalize snapshot cfg lib (worlds i) u i optFmt t = r at h1
    generalize snapshotLoop cfg lib worlds optFmt t us (i + 1) = r2 at h2
    obtain ⟨ev, df, oc⟩ := r
    obtain ⟨ev2, df2, oc2⟩ := r2
    simp only at h1 h2
    subst h1 h2
    cases oc <;> simp [bind, Run.andThen]

/-- C7: in the snapshot command with an output-name template, the k-th file
that a run creates (counting from 0) has the name that executing the template
on the record {Host = host of the k-th produced URL, Index = k} gives; a run
that returns has created one file per produced URL. The template
`{{.Host}}-{{.Index}}.png` gives `example.com-0.png` for host example.com and
index 0, and `example.org-1.png` for host example.org and index 1. -/
theorem mainSnapshot_file_names (cfg : Flags) (lib : Lib) (worlds : Nat → World)
    (arg : List URL) (stdin : List GoString) (hout : cfg.snapshotOutput ≠ []) :
    (∀ k name,
      (createdNames (mainSnapshot cfg lib worlds arg stdin).events)[k]? = some name →
        ∃ u, (urls arg stdin).sent[k]? = some (some u) ∧
          lib.templateExecute ⟨filenameFuncs, cfg.snapshotOutput⟩
            (.filename ⟨u.Host, k⟩) = .ok name) ∧
    ((mainSnapshot cfg lib worlds arg stdin).outcome = .ok () →
      (createdNames (mainSnapshot cfg lib worlds arg stdin).events).length =
        (urls arg stdin).sent.length) ∧
    template.execute ⟨filenameFuncs, str "\x7b\x7b.Host\x7d\x7d-\x7b\x7b.Index\x7d\x7d.png"⟩
        (.filename ⟨str "example.com", 0⟩) = .ok (str "example.com-0.png") ∧
    template.execute ⟨filenameFuncs, str "\x7b\x7b.Host\x7d\x7d-\x7b\x7b.Index\x7d\x7d.png"⟩
        (.filename ⟨str "example.org", 1⟩) = .ok (str "example.org-1.png") := by
  refine ⟨?_, ?_, rfl, rfl⟩
  all_goals
    unfold mainSnapshot
    simp only [hout, ne_eq, not_false_eq_true, if_true]
    cases hp : lib.templateParse filenameFuncs cfg.snapshotOutput with
    | some e =>
      simp [Run.func, Run.andThen, Run.emit, Run.FatalIfError, Run.Fatalf, Run.ret, bind, pure,
        createdNames_cons, createdNames_nil]
    | none =>
      cases hf : lib.FormatParse cfg.snapshotFormat with
      | error e =>
        simp [Run.func, Run.andThen, Run.emit, Run.FatalIfError, Run.Fatalf, Run.ret, bind,
          pure, createdNames_cons, createdNames_nil]
      | ok optFmt =>
        simp only [Run.func, Run.andThen, Run.emit, Run.FatalIfError, Run.Fatalf, Run.ret,
          bind, pure, hp, hf]
        have hl := snapshotLoop_created cfg lib worlds optFmt
          ⟨filenameFuncs, cfg.snapshotOutput⟩ (urls arg stdin).sent 0
        have hd := snapshotLoop_defers cfg lib worlds optFmt
          (some ⟨filenameFuncs, cfg.snapshotOutput⟩) (urls arg stdin).sent 0
        generalize snapshotLoop cfg lib worlds optFmt
          (some ⟨filenameFuncs, cfg.snapshotOutput⟩) (urls arg stdin).sent 0 = r at hl hd
        obtain ⟨ev, df, oc⟩ := r
        simp only [zero_add] at hl hd
        subst hd
        obtain ⟨hl1, hl2⟩ := hl
        cases oc <;> cases hu : (urls arg stdin).fatal <;>
          simp [Run.func, Run.andThen, Run.emit, Run.FatalIfError, Run.Fatalf, Run.ret, bind,
            pure, createdNames_cons, createdNames_nil, createdNames_append, hu] <;>
          first
            | exact hl1
            | exact hl2 rfl

/-- C7 at `render snapshot --output {{.Host}}-{{.Index}}.png
http://example.com/ http://example.org/`: the files created are
`example.com-0.png` and `example.org-1.png`, in this order, and the second
one is named from the host of the second URL and the index 1. -/
theorem mainSnapshot_file_names_witness :
    createdNames
        (mainSnapshot (defaultFlags (str "\x7b\x7b.Host\x7d\x7d-\x7b\x7b.Index\x7d\x7d.png"))
          sampleLib (fun _ => sampleWorld sampleImage none)
          [{ Scheme := str "http", Host := str "example.com", Path := str "/" },
            { Scheme := str "http", Host := str "example.org", Path := str "/" }] []).events =
        [str "example.com-0.png", str "example.org-1.png"] ∧
      ∃ u,
        (urls
          [{ Scheme := str "http", Host := str "example.com", Path := str "/" },
            { Scheme := str "http", Host := str "example.org", Path := str "/" }] []).sent[1]? =
          some (some u) ∧
        sampleLib.templateExecute
            ⟨filenameFuncs, (defaultFlags
              (str "\x7b\x7b.Host\x7d\x7d-\x7b\x7b.Index\x7d\x7d.png")).snapshotOutput⟩
            (.filename ⟨u.Host, 1⟩) = .ok (str "example.org-1.png") :=
  ⟨by decide,
    (mainSnapshot_file_names (defaultFlags (str "\x7b\x7b.Host\x7d\x7d-\x7b\x7b.Index\x7d\x7d.png"))
      sampleLib (fun _ => sampleWorld sampleImage none)
      [{ Scheme := str "http", Host := str "example.com", Path := str "/" },
        { Scheme := str "http", Host := str "example.org", Path := str "/" }] []
      (by decide)).1 1 (str "example.org-1.png") (by decide)⟩

/-! ## The URL source -/

theorem urlsStdin_lines (lines : List GoString)
    (hparse : ∀ l ∈ lines, l ≠ [] → ∃ u, url.Parse l = .ok u) :
    List.Forall₂ (fun l r => ∃ u, url.Parse l = .ok u ∧ r = processURL u)
        (lines.filter (fun l => decide (l ≠ []))) (urlsStdin lines).sent ∧
      (urlsStdin lines).sent.length = (lines.filter (fun l => decide (l ≠ []))).length ∧
      (urlsStdin lines).fatal = none := by
  induction lines with
  | nil => simp [urlsStdin]
  | cons t ts ih =>
    have ih := ih (fun l hl => hparse l (List.mem_cons_of_mem _ hl))
    unfold urlsStdin
    by_cases ht : t = []
    · simpa [ht] using ih
    · obtain ⟨u, hu⟩ := hparse t (List.mem_cons_self _ _) ht
      simp only [ht, if_false, hu]
      simp only [List.filter_cons, ne_eq, ht, not_false_eq_true, decide_True, if_true,
        List.length_cons]
      exact ⟨List.Forall₂.cons ⟨u, hu, rfl⟩ ih.1, by rw [ih.2.1], ih.2.2⟩

theorem bufio.Scan_short (lines : List GoString)
    (h : ∀ l ∈ lines, l.length < bufio.MaxScanTokenSize) :
    bufio.Scan lines = lines.map bufio.dropCR := by
  induction lines with
  | nil => rfl
  | cons l ls ih =>
    have h1 := h l (List.mem_cons_self _ _)
    simp [bufio.Scan, h1, ih (fun x hx => h x (List.mem_cons_of_mem _ hx))]

theorem longLine_length : longLine.length = 65536 := by
  unfold longLine
  rw [List.length_append, List.length_replicate]
  rfl

theorem bufio.Scan_longLine (ls : List GoString) : bufio.Scan (longLine :: ls) = [] := by
  unfold bufio.Scan
  rw [longLine_length]
  rfl

/-- Without URL arguments, when every line of standard input is shorter than
the buffer of the scanner and the text of every non-empty line parses as a
URL, what `urls` sends is, line by line and in input order, `processURL` of
the parsed text for the non-empty lines and nothing for the empty ones, and
the producer does not end in a fatal error. -/
theorem urls_short_lines (lines : List GoString)
    (hshort : ∀ l ∈ lines, l.length < bufio.MaxScanTokenSize)
    (hparse : ∀ l ∈ lines, bufio.dropCR l ≠ [] → ∃ u, url.Parse (bufio.dropCR l) = .ok u) :
    List.Forall₂ (fun t r => ∃ u, url.Parse t = .ok u ∧ r = processURL u)
        ((lines.map bufio.dropCR).filter (fun t => decide (t ≠ []))) (urls [] lines).sent ∧
      (urls [] lines).sent.length =
        ((lines.map bufio.dropCR).filter (fun t => decide (t ≠ []))).length ∧
      (urls [] lines).fatal = none := by
  have hurls : urls [] lines = urlsStdin (lines.map bufio.dropCR) := by
    simp [urls, bufio.Scan_short lines hshort]
  rw [hurls]
  apply urlsStdin_lines
  intro t ht hne
  obtain ⟨l, hl, rfl⟩ := List.mem_map.mp ht
  exact hparse l hl hne

/-- C8 fails on the code: the line `a b` parses as a URL without scheme
whose path is `a b`; with the scheme set it prints as `http://a%20b`, which
`url.Parse` rejects (an escape in the host). `processURL` discards that error
and returns nil; `urls` sends the nil URL on, without a fatal error; and
`snapshot` on it panics with a nil pointer dereference, before any view is
created. -/
theorem processURL_nil_when_reparse_fails :
    url.Parse (str "a b") = .ok { Path := str "a b", RawPath := str "a b" } ∧
      ({ Scheme := str "http", Path := str "a b", RawPath := str "a b" } : URL).String =
        str "http://a%20b" ∧
      url.Parse (str "http://a%20b") = .error (.EscapeError (str "%20")) ∧
      processURL { Path := str "a b", RawPath := str "a b" } = none ∧
      urls [] [str "a b"] = ⟨[none], none⟩ ∧
      snapshot (defaultFlags []) sampleLib (sampleWorld sampleImage none) none 0 .Auto none =
        ⟨[], [], .panic "nil pointer dereference"⟩ := by
  refine ⟨rfl, rfl, rfl, rfl, rfl, rfl⟩

theorem url.setPath_Scheme (u u2 : URL) (p : GoString) (h : url.setPath u p = .ok u2) :
    u2.Scheme = u.Scheme := by
  unfold url.setPath at h
  split at h
  · cases h
  · split at h <;> (cases h; rfl)

theorem url.setFragment_Scheme (u u2 : URL) (f : GoString)
    (h : url.setFragment u f = .ok u2) : u2.Scheme = u.Scheme := by
  unfold url.setFragment at h
  split at h
  · cases h
  · split at h <;> (cases h; rfl)

theorem url.parse_Scheme (rawURL : GoString) (u : URL) (scheme rest : GoString)
    (hs : url.getScheme rawURL = .ok (scheme, rest)) (hne : rawURL ≠ str "*")
    (h : url.parse rawURL = .ok u) : u.Scheme = strings.ToLower scheme := by
  unfold url.parse at h
  simp only [hs, hne, if_false] at h
  split_ifs at h <;>
    first
      | (cases h <;> rfl)
      | exact url.setPath_Scheme _ _ _ h
      | (split at h <;>
          first
            | cases h
            | exact url.setPath_Scheme _ _ _ h)

theorem url.Parse_Scheme (rawURL : GoString) (u : URL) (scheme rest : GoString)
    (hs : url.getScheme (strings.Cut rawURL (ch '#')).1 = .ok (scheme, rest))
    (hne : (strings.Cut rawURL (ch '#')).1 ≠ str "*")
    (h : url.Parse rawURL = .ok u) : u.Scheme = strings.ToLower scheme := by
  unfold url.Parse at h
  dsimp only at h
  split at h
  · cases h
  · rename_i u0 h0
    split_ifs at h
    · cases h
      exact url.parse_Scheme _ _ _ _ hs hne h0
    · rw [url.setFragment_Scheme _ _ _ h]
      exact url.parse_Scheme _ _ _ _ hs hne h0

theorem str_http : str "http" = [104, 116, 116, 112] := rfl

theorem str_http_colon : str "http:" = [104, 116, 116, 112, 58] := rfl

theorem str_colon : str ":" = [58] := rfl

theorem str_star : str "*" = [42] := rfl

theorem strings.Cut_http (s : GoString) :
    (strings.Cut (str "http:" ++ s) (ch '#')).1 = str "http:" ++ (strings.Cut s (ch '#')).1 := by
  show (strings.Cut (104 :: 116 :: 116 :: 112 :: 58 :: s) 35).1 =
    104 :: 116 :: 116 :: 112 :: 58 :: (strings.Cut s 35).1
  simp [strings.Cut]

theorem url.getScheme_http (s : GoString) :
    url.getScheme (str "http:" ++ s) = .ok (str "http", s) := by
  show url.getScheme (104 :: 116 :: 116 :: 112 :: 58 :: s) = .ok ([104, 116, 116, 112], s)
  simp [url.getScheme, url.getSchemeLoop, ch]

set_option maxHeartbeats 1000000 in
theorem URL_String_http (u : URL) (h : u.Scheme = str "http") :
    ∃ s, u.String = str "http:" ++ s := by
  rw [str_http] at h
  have hne : u.Scheme ≠ [] := by simp [h]
  unfold URL.String URL.StringHead
  simp only [hne, h, str_http_colon, str_colon, ne_eq, not_false_eq_true, if_true, true_or,
    List.cons_ne_nil, List.cons_append, List.nil_append, List.append_assoc, false_and,
    if_false, List.append_eq_nil, and_false, List.cons_ne_self, reduceCtorEq]
  split_ifs <;> simp only [List.cons_append, List.nil_append, List.append_assoc] <;>
    exact ⟨_, rfl⟩

theorem unreserved_cases (c : Nat) (h : unreserved c = true) :
    (97 ≤ c ∧ c ≤ 122) ∨ (65 ≤ c ∧ c ≤ 90) ∨ (48 ≤ c ∧ c ≤ 57) ∨ c = 45 ∨ c = 46 ∨ c = 95 ∨
      c = 126 := by
  simpa [unreserved, ch, or_assoc] using h

theorem shouldEscape_unreserved (c : Nat) (mode : url.encoding) (h : unreserved c = true) :
    url.shouldEscape c mode = false := by
  have hc := unreserved_cases c h
  unfold url.shouldEscape
  simp only [ch, Char.reduceToNat]
  rcases hc with hc | hc | hc | hc | hc | hc | hc
  · simp [hc]
  · simp [hc]
  · simp [hc]
  · subst hc; cases mode <;> simp
  · subst hc; cases mode <;> simp
  · subst hc; cases mode <;> simp
  · subst hc; cases mode <;> simp

theorem shouldEscape_slash_path : url.shouldEscape 47 url.encoding.encodePath = false := by
  decide

theorem strings.Cut_of_not_mem (s : GoString) (c : Nat) (h : c ∉ s) :
    strings.Cut s c = (s, [], false) := by
  induction s with
  | nil => rfl
  | cons a s ih =>
    have ha : a ≠ c := fun e => h (by simp [e])
    have hs : c ∉ s := fun e => h (by simp [e])
    simp [strings.Cut, ha, ih hs]

theorem strings.LastIndexByte_of_not_mem (s : GoString) (c : Nat) (h : c ∉ s) :
    strings.LastIndexByte s c = none := by
  induction s with
  | nil => rfl
  | cons a s ih =>
    have ha : a ≠ c := fun e => h (by simp [e])
    have hs : c ∉ s := fun e => h (by simp [e])
    simp [strings.LastIndexByte, ha, ih hs]

theorem strings.HasSuffixByte_of_not_mem (s : GoString) (c : Nat) (h : c ∉ s) :
    strings.HasSuffixByte s c = false := by
  unfold strings.HasSuffixByte
  cases hl : s.getLast? with
  | none => simp
  | some d =>
    have hd : d ∈ s := List.mem_of_getLast?_eq_some hl
    have : d ≠ c := fun e => h (e ▸ hd)
    simp [this]

theorem strings.Index_slash_none (s : GoString) (h : 47 ∉ s) :
    strings.Index s [47] = none := by
  induction s with
  | nil => simp [strings.Index]
  | cons a s ih =>
    have ha : a ≠ 47 := fun e => h (by simp [e])
    have hs : 47 ∉ s := fun e => h (by simp [e])
    simp [strings.Index, strings.HasPrefix, ha, ih hs]

theorem strings.Index_slash_append (s p : GoString) (h : 47 ∉ s) :
    strings.Index (s ++ 47 :: p) [47] = some s.length := by
  induction s with
  | nil => simp [strings.Index, strings.HasPrefix]
  | cons a s ih =>
    have ha : a ≠ 47 := fun e => h (by simp [e])
    have hs : 47 ∉ s := fun e => h (by simp [e])
    simp [strings.Index, strings.HasPrefix, ha, ih hs]

theorem url.stringContainsCTLByte_false (s : GoString) (h : ∀ c ∈ s, 32 ≤ c ∧ c ≠ 127) :
    url.stringContainsCTLByte s = false := by
  unfold url.stringContainsCTLByte
  rw [List.any_eq_false]
  intro c hc
  have := h c hc
  simp [ch]
  omega

theorem url.unescapeCheck_plain (mode : url.encoding) (s : GoString) (n : Nat) (hasPlus : Bool)
    (h : ∀ c ∈ s, c ≠ 37 ∧ c ≠ 43 ∧ url.shouldEscape c url.encoding.encodeHost = false) :
    url.unescapeCheck mode s n hasPlus = .ok (n, hasPlus) := by
  induction s with
  | nil => rfl
  | cons a s ih =>
    obtain ⟨h1, h2, h3⟩ := h a (by simp)
    have hs := ih (fun c hc => h c (by simp [hc]))
    unfold url.unescapeCheck
    simp [ch, h1, h2, h3, hs]

theorem url.unescapeCheck_path (s : GoString) (n : Nat) (hasPlus : Bool)
    (h : ∀ c ∈ s, c ≠ 37 ∧ c ≠ 43) :
    url.unescapeCheck url.encoding.encodePath s n hasPlus = .ok (n, hasPlus) := by
  induction s with
  | nil => rfl
  | cons a s ih =>
    obtain ⟨h1, h2⟩ := h a (by simp)
    have hs := ih (fun c hc => h c (by simp [hc]))
    unfold url.unescapeCheck
    simp [ch, h1, h2, hs]

theorem url.escape_plain (mode : url.encoding) (s : GoString)
    (h : ∀ c ∈ s, url.shouldEscape c mode = false) : url.escape s mode = s := by
  unfold url.escape
  have : s.all (fun c => !url.shouldEscape c mode) = true := by
    rw [List.all_eq_true]
    intro c hc
    simp [h c hc]
  simp [this]

theorem unreserved_ne (c : Nat) (h : unreserved c = true) :
    32 ≤ c ∧ c ≠ 127 ∧ c ≠ 35 ∧ c ≠ 63 ∧ c ≠ 37 ∧ c ≠ 43 ∧ c ≠ 64 ∧ c ≠ 58 ∧ c ≠ 91 ∧
      c ≠ 47 ∧ c ≠ 42 := by
  have := unreserved_cases c h
  omega

theorem url.parseHost_unreserved (host : GoString) (h : ∀ c ∈ host, unreserved c = true) :
    url.parseHost host = .ok host := by
  have h1 : strings.HasPrefix host (str "[") = false := by
    cases host with
    | nil => rfl
    | cons a s =>
      have := (unreserved_ne a (h a (by simp))).2.2.2.2.2.2.2.2.1
      show strings.HasPrefix (a :: s) [91] = false
      simp [strings.HasPrefix, this]
  have h2 : strings.LastIndexByte host (ch ':') = none :=
    strings.LastIndexByte_of_not_mem host 58
      (fun hm => (unreserved_ne 58 (h 58 hm)).2.2.2.2.2.2.2.1 rfl)
  have h3 : url.unescape host url.encoding.encodeHost = .ok host := by
    unfold url.unescape
    rw [url.unescapeCheck_plain url.encoding.encodeHost host 0 false
      (fun c hc => ⟨(unreserved_ne c (h c hc)).2.2.2.2.1, (unreserved_ne c (h c hc)).2.2.2.2.2.1,
        shouldEscape_unreserved c _ (h c hc)⟩)]
    simp
  unfold url.parseHost
  simp [h1, h2, h3]

theorem url.parseAuthority_unreserved (host : GoString)
    (h : ∀ c ∈ host, unreserved c = true) : url.parseAuthority host = .ok (none, host) := by
  have h1 : strings.LastIndexByte host (ch '@') = none :=
    strings.LastIndexByte_of_not_mem host 64
      (fun hm => (unreserved_ne 64 (h 64 hm)).2.2.2.2.2.2.1 rfl)
  unfold url.parseAuthority
  simp [h1, url.parseHost_unreserved host h]

theorem url.setPath_unreserved (u : URL) (p : GoString)
    (h : ∀ c ∈ p, unreserved c = true ∨ c = 47) :
    url.setPath u p = .ok { u with Path := p, RawPath := [] } := by
  have hne : ∀ c ∈ p, c ≠ 37 ∧ c ≠ 43 := by
    intro c hc
    rcases h c hc with hu | hu
    · exact ⟨(unreserved_ne c hu).2.2.2.2.1, (unreserved_ne c hu).2.2.2.2.2.1⟩
    · omega
  have h1 : url.unescape p url.encoding.encodePath = .ok p := by
    unfold url.unescape
    rw [url.unescapeCheck_path p 0 false hne]
    simp
  have h2 : url.escape p url.encoding.encodePath = p := by
    apply url.escape_plain
    intro c hc
    rcases h c hc with hu | hu
    · exact shouldEscape_unreserved c _ hu
    · subst hu; exact shouldEscape_slash_path
  unfold url.setPath
  simp [h1, h2]

theorem str_slash : str "/" = [47] := rfl

theorem str_slash2 : str "//" = [47, 47] := rfl

theorem str_slash3 : str "///" = [47, 47, 47] := rfl

theorem url.parse_http_authority (host path : GoString)
    (hhost : ∀ c ∈ host, unreserved c = true)
    (hslash : path = [] ∨ ∃ p, path = 47 :: p)
    (hpath : ∀ c ∈ path, unreserved c = true ∨ c = 47) :
    url.parse (str "http:" ++ (str "//" ++ (host ++ path))) =
      .ok { Scheme := str "http", Host := host, Path := path } := by
  have hall : ∀ c ∈ host ++ path, 32 ≤ c ∧ c ≠ 127 ∧ c ≠ 35 ∧ c ≠ 63 := by
    intro c hc
    rcases List.mem_append.mp hc with hc | hc
    · have := unreserved_ne c (hhost c hc); omega
    · rcases hpath c hc with hu | hu
      · have := unreserved_ne c hu; omega
      · omega
  have hctl : url.stringContainsCTLByte (str "http:" ++ (str "//" ++ (host ++ path))) = false := by
    apply url.stringContainsCTLByte_false
    intro c hc
    rw [str_http_colon, str_slash2] at hc
    simp only [List.cons_append, List.nil_append, List.mem_cons] at hc
    rcases hc with hc | hc | hc | hc | hc | hc | hc | hc
    all_goals first | omega | (have hb := hall c hc; omega)
  have hq : (63 : Nat) ∉ (47 :: 47 :: (host ++ path)) := by
    intro hc
    simp only [List.mem_cons] at hc
    rcases hc with hc | hc | hc
    · omega
    · omega
    · have := hall 63 hc; omega
  have h47 : (47 : Nat) ∉ host := fun hm => (unreserved_ne 47 (hhost 47 hm)).2.2.2.2.2.2.2.2.2.1 rfl
  have hidx1 : strings.Index (host ++ path) (str "/") =
      if path = [] then none else some host.length := by
    rw [str_slash]
    rcases hslash with hp | ⟨p, hp⟩
    · subst hp; simp [strings.Index_slash_none host h47]
    · subst hp; simp [strings.Index_slash_append host p h47]
  unfold url.parse
  rw [hctl, url.getScheme_http]
  simp only [str_http_colon, str_slash2, str_slash, str_slash3, str_star, str_http, ch,
    Char.reduceToNat, List.cons_append, List.nil_append,
    strings.HasSuffixByte_of_not_mem _ 63 hq, strings.Cut_of_not_mem _ 63 hq]
  simp only [strings.ToLower, strings.HasPrefix, ch, Char.reduceToNat, List.map_cons,
    List.map_nil, List.drop_succ_cons, List.drop_zero]
  rw [str_slash] at hidx1
  rcases hslash with hp | ⟨p, hp⟩
  · subst hp
    simp [strings.Index_slash_none host h47, url.parseAuthority_unreserved host hhost,
      url.setPath_unreserved _ [] hpath]
  · subst hp
    simp [hidx1, url.parseAuthority_unreserved host hhost,
      url.setPath_unreserved _ (47 :: p) hpath]

theorem url.getScheme_slash (s : GoString) :
    url.getScheme (47 :: s) = .ok ([], 47 :: s) := by
  simp [url.getScheme, url.getSchemeLoop, ch]

theorem url.parse_authority (host path : GoString) (hne : host ≠ [])
    (hhost : ∀ c ∈ host, unreserved c = true)
    (hslash : path = [] ∨ ∃ p, path = 47 :: p)
    (hpath : ∀ c ∈ path, unreserved c = true ∨ c = 47) :
    url.parse (str "//" ++ (host ++ path)) = .ok { Host := host, Path := path } := by
  have hall : ∀ c ∈ host ++ path, 32 ≤ c ∧ c ≠ 127 ∧ c ≠ 35 ∧ c ≠ 63 := by
    intro c hc
    rcases List.mem_append.mp hc with hc | hc
    · have := unreserved_ne c (hhost c hc); omega
    · rcases hpath c hc with hu | hu
      · have := unreserved_ne c hu; omega
      · omega
  have hctl : url.stringContainsCTLByte (str "//" ++ (host ++ path)) = false := by
    apply url.stringContainsCTLByte_false
    intro c hc
    rw [str_slash2] at hc
    simp only [List.cons_append, List.nil_append, List.mem_cons] at hc
    rcases hc with hc | hc | hc
    all_goals first | omega | (have hb := hall c hc; omega)
  have hq : (63 : Nat) ∉ (47 :: 47 :: (host ++ path)) := by
    intro hc
    simp only [List.mem_cons] at hc
    rcases hc with hc | hc | hc
    · omega
    · omega
    · have := hall 63 hc; omega
  have h47 : (47 : Nat) ∉ host :=
    fun hm => (unreserved_ne 47 (hhost 47 hm)).2.2.2.2.2.2.2.2.2.1 rfl
  have h3 : strings.HasPrefix (host ++ path) [47] = false := by
    obtain ⟨a, s, rfl⟩ := List.exists_cons_of_ne_nil hne
    have ha : a ≠ 47 := fun e => h47 (by simp [e])
    simp [strings.HasPrefix, ha]
  unfold url.parse
  rw [hctl]
  simp only [str_slash2, str_slash, str_slash3, str_star, ch, Char.reduceToNat,
    List.cons_append, List.nil_append, url.getScheme_slash,
    strings.HasSuffixByte_of_not_mem _ 63 hq, strings.Cut_of_not_mem _ 63 hq]
  simp only [strings.ToLower, strings.HasPrefix, ch, Char.reduceToNat, List.map_cons,
    List.map_nil, List.drop_succ_cons, List.drop_zero, h3]
  rcases hslash with hp | ⟨p, hp⟩
  · subst hp
    simp [strings.Index_slash_none host h47, url.parseAuthority_unreserved host hhost,
      url.setPath_unreserved _ [] hpath]
  · subst hp
    simp [strings.Index_slash_append host p h47, url.parseAuthority_unreserved host hhost,
      url.setPath_unreserved _ (47 :: p) hpath]

theorem url.Parse_of_no_fragment (raw : GoString) (u : URL) (h35 : 35 ∉ raw)
    (h : url.parse raw = .ok u) : url.Parse raw = .ok u := by
  unfold url.Parse
  simp [ch, strings.Cut_of_not_mem raw 35 h35, h]

theorem URL_String_authority (host path : GoString) (hne : host ≠ [])
    (hhost : ∀ c ∈ host, unreserved c = true)
    (hslash : path = [] ∨ ∃ p, path = 47 :: p)
    (hpath : ∀ c ∈ path, unreserved c = true ∨ c = 47) :
    ({ Scheme := str "http", Host := host, Path := path } : URL).String =
      str "http:" ++ (str "//" ++ (host ++ path)) := by
  have hesc : url.escape host url.encoding.encodeHost = host :=
    url.escape_plain _ host (fun c hc => shouldEscape_unreserved c _ (hhost c hc))
  have hescp : url.escape path url.encoding.encodePath = path := by
    apply url.escape_plain
    intro c hc
    rcases hpath c hc with hu | hu
    · exact shouldEscape_unreserved c _ hu
    · subst hu; exact shouldEscape_slash_path
  have hstar : path ≠ [42] := by
    intro e
    rcases hpath 42 (by simp [e]) with hu | hu
    · exact (unreserved_ne 42 hu).2.2.2.2.2.2.2.2.2.2 rfl
    · omega
  have hep : ({ Scheme := str "http", Host := host, Path := path } : URL).EscapedPath = path := by
    simp [URL.EscapedPath, str_star, hstar, hescp]
  unfold URL.String URL.StringHead
  simp only [hep]
  rcases hslash with hp | ⟨p, hp⟩
  · subst hp
    simp [str_http, str_http_colon, str_slash2, str_slash, str_colon, hne, hesc, ch]
  · subst hp
    simp [str_http, str_http_colon, str_slash2, str_slash, str_colon, hne, hesc, ch]

theorem processURL_authority (host path : GoString) (hne : host ≠ [])
    (hhost : ∀ c ∈ host, unreserved c = true)
    (hslash : path = [] ∨ ∃ p, path = 47 :: p)
    (hpath : ∀ c ∈ path, unreserved c = true ∨ c = 47) :
    url.Parse (str "//" ++ (host ++ path)) = .ok { Host := host, Path := path } ∧
      processURL { Host := host, Path := path } =
        some { Scheme := str "http", Host := host, Path := path } := by
  have hno : ∀ c ∈ host ++ path, c ≠ 35 := by
    intro c hc
    rcases List.mem_append.mp hc with hc | hc
    · have := unreserved_ne c (hhost c hc); omega
    · rcases hpath c hc with hu | hu
      · have := unreserved_ne c hu; omega
      · omega
  constructor
  · apply url.Parse_of_no_fragment _ _ _ (url.parse_authority host path hne hhost hslash hpath)
    intro hc
    rw [str_slash2] at hc
    simp only [List.cons_append, List.nil_append, List.mem_cons] at hc
    rcases hc with hc | hc | hc
    · omega
    · omega
    · exact hno 35 hc rfl
  · have hs : ({ Host := host, Path := path } : URL).Scheme = [] := rfl
    unfold processURL
    simp only [hs, if_true]
    have hstr := URL_String_authority host path hne hhost hslash hpath
    have hrec : ({ ({ Host := host, Path := path } : URL) with Scheme := str "http" } : URL) =
        { Scheme := str "http", Host := host, Path := path } := rfl
    rw [hrec, hstr]
    rw [url.Parse_of_no_fragment _ _ _ (url.parse_http_authority host path hhost hslash hpath)]
    intro hc
    rw [str_http_colon, str_slash2] at hc
    simp only [List.cons_append, List.nil_append, List.mem_cons] at hc
    rcases hc with hc | hc | hc | hc | hc | hc | hc | hc
    all_goals first | omega | exact hno 35 hc rfl

/-- C2 fails on the code: `longLine` is a line of 65536 bytes, the size of the
buffer of the scanner, and parses as a URL. With `example.org` as the only line
of standard input `urls` sends its URL; with `longLine` as the first line and
`example.org` as the second it sends nothing, and it does not end in a fatal
error: the scan ends at the long line and its error is never read. -/
theorem urls_drops_long_line :
    longLine.length = bufio.MaxScanTokenSize ∧
      url.Parse longLine = .ok { Host := List.replicate 65534 (ch 'a') } ∧
      urls [] [str "example.org"] =
        ⟨[some { Scheme := str "http", Host := str "example.org" }], none⟩ ∧
      urls [] [longLine, str "example.org"] = ⟨[], none⟩ := by
  refine ⟨longLine_length, ?_, rfl, ?_⟩
  · have hne : List.replicate 65534 (ch 'a') ≠ [] := by
      intro h
      have := congrArg List.length h
      rw [List.length_replicate] at this
      cases this
    have hall : ∀ c ∈ List.replicate 65534 (ch 'a'), unreserved c = true := by
      intro c hc
      rw [List.eq_of_mem_replicate hc]
      rfl
    have h := (processURL_authority (List.replicate 65534 (ch 'a')) [] hne hall (Or.inl rfl)
      (by intro c hc; cases hc)).1
    rw [List.append_nil] at h
    exact h
  · unfold urls
    rw [if_neg (by simp), bufio.Scan_longLine]
    rfl

/-! ## net/url: printing a parsed URL and parsing it again -/

section roundtrip

open url url.encoding


theorem url.upperhex_spec (n : Nat) (h : n < 16) :
    ishex (upperhex n) = true ∧ unhex (upperhex n) = n ∧
      ((48 ≤ upperhex n ∧ upperhex n ≤ 57) ∨ (65 ≤ upperhex n ∧ upperhex n ≤ 70)) := by
  interval_cases n <;> decide

theorem url.hex_roundtrip (c : Nat) (h : c < 256) :
    unhex (upperhex (c / 16)) * 16 + unhex (upperhex (c % 16)) = c := by
  have h1 := (url.upperhex_spec (c / 16) (by omega)).2.1
  have h2 := (url.upperhex_spec (c % 16) (by omega)).2.1
  rw [h1, h2]
  omega

theorem url.unhex_le (a : Nat) : unhex a ≤ 15 := by
  unfold unhex
  simp only [ch, Char.reduceToNat]
  split_ifs <;> omega

theorem url.shouldEscape_space (m : encoding) : shouldEscape 32 m = true := by
  cases m <;> decide

theorem url.shouldEscape_percent (m : encoding) : shouldEscape 37 m = true := by
  cases m <;> decide


theorem url.escapeBuild_append (m : encoding) (a b : GoString) :
    escapeBuild m (a ++ b) = escapeBuild m a ++ escapeBuild m b := by
  induction a with
  | nil => rfl
  | cons c a ih =>
    simp only [List.cons_append, escapeBuild]
    split_ifs <;> simp [ih]

theorem url.escapeBuild_plain (m : encoding) (s : GoString)
    (h : ∀ c ∈ s, shouldEscape c m = false) : escapeBuild m s = s := by
  induction s with
  | nil => rfl
  | cons c s ih =>
    have hc := h c (List.mem_cons_self _ _)
    have hne : c ≠ 32 := by
      intro e
      rw [e, url.shouldEscape_space] at hc
      cases hc
    simp [escapeBuild, hc, ch, hne, ih (fun d hd => h d (List.mem_cons_of_mem _ hd))]

theorem url.escape_eq (s : GoString) (m : encoding) : escape s m = escapeBuild m s := by
  unfold escape
  split_ifs with h
  · rw [url.escapeBuild_plain]
    intro c hc
    have := List.all_eq_true.mp h c hc
    simpa using this
  · rfl

/-- Bytes of an escaped text: `%`, an upper-case hex digit, the `+` of a
query, or a byte of the text that is not escaped. -/
theorem url.mem_escapeBuild (m : encoding) (s : GoString) (hs : ∀ c ∈ s, c < 256) (d : Nat)
    (hd : d ∈ escapeBuild m s) :
    d = 37 ∨ (48 ≤ d ∧ d ≤ 57) ∨ (65 ≤ d ∧ d ≤ 70) ∨ (d = 43 ∧ m = encodeQueryComponent) ∨
      (d ∈ s ∧ shouldEscape d m = false) := by
  induction s with
  | nil => simp [escapeBuild] at hd
  | cons c s ih =>
    have hc := hs c (List.mem_cons_self _ _)
    have ih := ih (fun x hx => hs x (List.mem_cons_of_mem _ hx))
    have lift : (d = 37 ∨ (48 ≤ d ∧ d ≤ 57) ∨ (65 ≤ d ∧ d ≤ 70) ∨
        (d = 43 ∧ m = encodeQueryComponent) ∨ (d ∈ s ∧ shouldEscape d m = false)) →
        (d = 37 ∨ (48 ≤ d ∧ d ≤ 57) ∨ (65 ≤ d ∧ d ≤ 70) ∨
        (d = 43 ∧ m = encodeQueryComponent) ∨ (d ∈ c :: s ∧ shouldEscape d m = false)) := by
      rintro (h | h | h | h | ⟨h, h2⟩)
      · exact Or.inl h
      · exact Or.inr (Or.inl h)
      · exact Or.inr (Or.inr (Or.inl h))
      · exact Or.inr (Or.inr (Or.inr (Or.inl h)))
      · exact Or.inr (Or.inr (Or.inr (Or.inr ⟨List.mem_cons_of_mem _ h, h2⟩)))
    unfold escapeBuild at hd
    split_ifs at hd with h1 h2
    · rcases List.mem_cons.mp hd with e | e
      · exact Or.inr (Or.inr (Or.inr (Or.inl ⟨by simpa [ch] using e, h1.2⟩)))
      · exact lift (ih e)
    · simp only [List.mem_cons] at hd
      rcases hd with e | e | e | e
      · exact Or.inl (by simpa [ch] using e)
      · have := (url.upperhex_spec (c / 16) (by omega)).2.2
        rw [← e] at this
        rcases this with t | t
        · exact Or.inr (Or.inl t)
        · exact Or.inr (Or.inr (Or.inl t))
      · have := (url.upperhex_spec (c % 16) (by omega)).2.2
        rw [← e] at this
        rcases this with t | t
        · exact Or.inr (Or.inl t)
        · exact Or.inr (Or.inr (Or.inl t))
      · exact lift (ih e)
    · rcases List.mem_cons.mp hd with e | e
      · subst e
        exact Or.inr (Or.inr (Or.inr (Or.inr ⟨List.mem_cons_self _ _, by simpa using h2⟩)))
      · exact lift (ih e)

/-- A byte that is always escaped and is neither `%` nor a hex digit does not
occur in an escaped text. -/
theorem url.not_mem_escapeBuild (m : encoding) (s : GoString) (hs : ∀ c ∈ s, c < 256) (d : Nat)
    (hd : shouldEscape d m = true) (h37 : d ≠ 37) (h43 : d ≠ 43)
    (hhex : ¬ (48 ≤ d ∧ d ≤ 57)) (hhex2 : ¬ (65 ≤ d ∧ d ≤ 70)) : d ∉ escapeBuild m s := by
  intro hmem
  rcases url.mem_escapeBuild m s hs d hmem with h | h | h | h | h
  · exact h37 h
  · exact hhex h
  · exact hhex2 h
  · exact h43 h.1
  · rw [hd] at h
    cases h.2

theorem str_pct25 : str "%25" = [37, 50, 53] := rfl

theorem GoString.escape_induction {motive : GoString → Prop} (nil : motive [])
    (escaped : ∀ a b s, motive s → motive (37 :: a :: b :: s))
    (short : ∀ s, s.length < 2 → motive (37 :: s))
    (plain : ∀ c s, c ≠ 37 → motive s → motive (c :: s)) (s : GoString) : motive s := by
  have key : ∀ k (s : GoString), s.length ≤ k → motive s := by
    intro k
    induction k with
    | zero =>
      intro s hs
      cases s with
      | nil => exact nil
      | cons c s => simp at hs
    | succ k ih =>
      intro s hs
      rcases s with _ | ⟨c, s⟩
      · exact nil
      · by_cases hc : c = 37
        · subst hc
          rcases s with _ | ⟨a, _ | ⟨b, s⟩⟩
          · exact short _ (by simp)
          · exact short _ (by simp)
          · exact escaped a b s (ih s (by simp at hs; omega))
        · exact plain c s hc (ih s (by simp at hs; omega))
  exact key s.length s le_rfl

theorem url.unescapeCheck_escaped (m : encoding) (a b : Nat) (s : GoString) (n : Nat)
    (hp : Bool) :
    unescapeCheck m (37 :: a :: b :: s) n hp =
      if (!ishex a || !ishex b) = true then .error (.EscapeError [37, a, b])
      else if m = encodeHost ∧ unhex a < 8 ∧ [37, a, b] ≠ [37, 50, 53] then
        .error (.EscapeError [37, a, b])
      else if m = encodeZone ∧ [37, a, b] ≠ [37, 50, 53] ∧ unhex a * 16 + unhex b ≠ 32 ∧
          shouldEscape (unhex a * 16 + unhex b) encodeHost = true then
        .error (.EscapeError [37, a, b])
      else unescapeCheck m s (n + 1) hp := by
  conv_lhs => unfold unescapeCheck
  simp [ch, str_pct25]

theorem url.unescapeCheck_short (m : encoding) (s : GoString) (n : Nat) (hp : Bool)
    (hs : s.length < 2) : unescapeCheck m (37 :: s) n hp = .error (.EscapeError (37 :: s)) := by
  rcases s with _ | ⟨a, _ | ⟨b, s⟩⟩
  · simp [unescapeCheck, ch]
  · simp [unescapeCheck, ch]
  · simp only [List.length_cons] at hs
    omega

theorem url.unescapeCheck_plain_cons (m : encoding) (c : Nat) (s : GoString) (n : Nat)
    (hp : Bool) (hc : c ≠ 37) :
    unescapeCheck m (c :: s) n hp =
      if c = 43 then unescapeCheck m s n (decide (m = encodeQueryComponent))
      else if (m = encodeHost ∨ m = encodeZone) ∧ c < 128 ∧ shouldEscape c encodeHost = true then
        .error (.InvalidHostError [c])
      else unescapeCheck m s n hp := by
  conv_lhs => unfold unescapeCheck
  simp [ch, hc]

theorem url.unescapeBuild_escaped (m : encoding) (a b : Nat) (s : GoString) :
    unescapeBuild m (37 :: a :: b :: s) = (unhex a * 16 + unhex b) :: unescapeBuild m s := by
  simp [unescapeBuild, ch]

theorem url.unescapeBuild_plain_cons (m : encoding) (c : Nat) (s : GoString) (hc : c ≠ 37) :
    unescapeBuild m (c :: s) =
      (if c = 43 then (if m = encodeQueryComponent then 32 else 43) else c) ::
        unescapeBuild m s := by
  conv_lhs => unfold unescapeBuild
  by_cases h : c = 43 <;> simp [ch, hc, h]

theorem url.unescapeCheck_Decodes (m : encoding) (s : GoString) :
    ∀ (n : Nat) (hp : Bool) (r : Nat × Bool), unescapeCheck m s n hp = .ok r →
      url.Decodes m s (unescapeBuild m s) ∧ n ≤ r.1 ∧
        (m = encodeQueryComponent → hp = true → r.2 = true) ∧
        (r.1 = n → r.2 = false → unescapeBuild m s = s) := by
  induction s using GoString.escape_induction with
  | nil =>
    intro n hp r h
    simp only [unescapeCheck, Except.ok.injEq] at h
    subst h
    exact ⟨url.Decodes.nil, le_rfl, fun _ h => h, fun _ _ => rfl⟩
  | escaped a b s ih =>
    intro n hp r h
    rw [url.unescapeCheck_escaped] at h
    split_ifs at h with h1 h2 h3
    obtain ⟨i1, i2, i3, i4⟩ := ih _ _ _ h
    rw [url.unescapeBuild_escaped]
    refine ⟨?_, by omega, i3, fun e => by omega⟩
    have ha : ishex a = true ∧ ishex b = true := by
      simpa using h1
    exact url.Decodes.escaped a b s _ ha.1 ha.2 h2 h3 i1
  | short s hs =>
    intro n hp r h
    rw [url.unescapeCheck_short m s n hp hs] at h
    cases h
  | plain c s hc ih =>
    intro n hp r h
    rw [url.unescapeCheck_plain_cons m c s n hp hc] at h
    rw [url.unescapeBuild_plain_cons m c s hc]
    by_cases hplus : c = 43
    · subst hplus
      simp only [if_true] at h ⊢
      obtain ⟨i1, i2, i3, i4⟩ := ih _ _ _ h
      refine ⟨url.Decodes.plus s _ i1, i2, fun hm _ => i3 hm (by simp [hm]), ?_⟩
      intro e1 e2
      by_cases hm : m = encodeQueryComponent
      · have := i3 hm (by simp [hm])
        rw [this] at e2
        cases e2
      · simp only [hm, if_false]
        rw [i4 e1 e2]
    · simp only [hplus, if_false] at h ⊢
      split_ifs at h with h1
      obtain ⟨i1, i2, i3, i4⟩ := ih _ _ _ h
      refine ⟨url.Decodes.plain c s _ hc hplus h1 i1, i2, i3, ?_⟩
      intro e1 e2
      rw [i4 e1 e2]

theorem url.Decodes_check (m : encoding) (s t : GoString) (h : url.Decodes m s t) :
    t = unescapeBuild m s ∧ ∀ (n : Nat) (hp : Bool), ∃ r, unescapeCheck m s n hp = .ok r := by
  induction h with
  | nil => exact ⟨rfl, fun n hp => ⟨_, rfl⟩⟩
  | escaped a b s t h1 h2 h3 h4 _ ih =>
    obtain ⟨i1, i2⟩ := ih
    refine ⟨?_, ?_⟩
    · show _ = unescapeBuild m (37 :: a :: b :: s)
      rw [url.unescapeBuild_escaped, i1]
    · intro n hp
      show ∃ r, unescapeCheck m (37 :: a :: b :: s) n hp = .ok r
      rw [url.unescapeCheck_escaped]
      have h3b : ¬ (m = encodeHost ∧ unhex a < 8 ∧ [37, a, b] ≠ [37, 50, 53]) := h3
      have h4b : ¬ (m = encodeZone ∧ [37, a, b] ≠ [37, 50, 53] ∧ unhex a * 16 + unhex b ≠ 32 ∧
          shouldEscape (unhex a * 16 + unhex b) encodeHost = true) := h4
      simp only [h1, h2, Bool.not_true, Bool.or_self, Bool.false_eq_true, if_false, h3b, h4b]
      exact i2 _ _
  | plus s t _ ih =>
    obtain ⟨i1, i2⟩ := ih
    refine ⟨?_, ?_⟩
    · show _ = unescapeBuild m (43 :: s)
      rw [url.unescapeBuild_plain_cons m 43 s (by decide), i1]
      simp [ch]
    · intro n hp
      show ∃ r, unescapeCheck m (43 :: s) n hp = .ok r
      rw [url.unescapeCheck_plain_cons m 43 s n hp (by decide)]
      simp only [if_true]
      exact i2 _ _
  | plain c s t h1 h2 h3 _ ih =>
    obtain ⟨i1, i2⟩ := ih
    have h1b : c ≠ 37 := h1
    have h2b : c ≠ 43 := h2
    refine ⟨?_, ?_⟩
    · rw [url.unescapeBuild_plain_cons m c s h1b, i1]
      simp [h2b]
    · intro n hp
      rw [url.unescapeCheck_plain_cons m c s n hp h1b]
      have h3b : ¬ ((m = encodeHost ∨ m = encodeZone) ∧ c < 128 ∧
          shouldEscape c encodeHost = true) := h3
      simp only [h2b, if_false, h3b]
      exact i2 _ _

/-- What `unescape` returns: `unescape s mode` succeeds with `t` exactly when
`s` decodes to `t` in `mode`. -/
theorem url.unescape_iff (s t : GoString) (m : encoding) :
    unescape s m = .ok t ↔ url.Decodes m s t := by
  constructor
  · intro h
    unfold unescape at h
    split at h
    · cases h
    · rename_i n hp hc
      obtain ⟨i1, _, _, i4⟩ := url.unescapeCheck_Decodes m s _ _ _ hc
      split_ifs at h with h0
      · cases h
        have := i4 h0.1 h0.2
        rw [this] at i1
        exact i1
      · cases h
        exact i1
  · intro h
    obtain ⟨i1, i2⟩ := url.Decodes_check m s t h
    obtain ⟨⟨n, hp⟩, hr⟩ := i2 0 false
    obtain ⟨_, _, _, i4⟩ := url.unescapeCheck_Decodes m s _ _ _ hr
    unfold unescape
    rw [hr]
    simp only
    split_ifs with h0
    · rw [i1, i4 h0.1 h0.2]
    · rw [i1]

theorem url.Decodes_lt (m : encoding) (s t : GoString) (h : url.Decodes m s t) :
    ∀ c ∈ t, c < 256 ∨ c ∈ s := by
  induction h with
  | nil => intro c hc; cases hc
  | escaped a b s t _ _ _ _ _ ih =>
    intro c hc
    rcases List.mem_cons.mp hc with e | e
    · left
      have := url.unhex_le a
      have := url.unhex_le b
      omega
    · rcases ih c e with i | i
      · exact Or.inl i
      · right; simp [i]
  | plus s t _ ih =>
    intro c hc
    rcases List.mem_cons.mp hc with e | e
    · left
      rw [e]
      split_ifs <;> omega
    · rcases ih c e with i | i
      · exact Or.inl i
      · right; simp [i]
  | plain c0 s t _ _ _ _ ih =>
    intro c hc
    rcases List.mem_cons.mp hc with e | e
    · right; simp [e]
    · rcases ih c e with i | i
      · exact Or.inl i
      · right; simp [i]

theorem url.Decodes_bytes (m : encoding) (s t : GoString) (h : url.Decodes m s t)
    (hs : ∀ c ∈ s, c < 256) : ∀ c ∈ t, c < 256 := by
  intro c hc
  rcases url.Decodes_lt m s t h c hc with i | i
  · exact i
  · exact hs c i

/-- Bytes of a decoded host: not escaped in a host, or `%`, or not ASCII. -/
theorem url.Decodes_host_good (s t : GoString) (h : url.Decodes encodeHost s t) :
    ∀ c ∈ t, shouldEscape c encodeHost = false ∨ c = 37 ∨ 128 ≤ c := by
  induction h with
  | nil => intro c hc; cases hc
  | escaped a b s t _ _ h3 _ _ ih =>
    intro c hc
    rcases List.mem_cons.mp hc with e | e
    · by_cases h8 : unhex a < 8
      · have : [37, a, b] = [37, 50, 53] := by
          by_contra hne
          exact h3 ⟨rfl, h8, hne⟩
        simp only [List.cons.injEq, and_true, true_and] at this
        obtain ⟨ha, hb⟩ := this
        subst ha hb
        right; left
        rw [e]
        decide
      · right; right
        omega
    · exact ih c e
  | plus s t _ ih =>
    intro c hc
    rcases List.mem_cons.mp hc with e | e
    · left
      rw [e]
      decide
    · exact ih c e
  | plain c0 s t _ _ h3 _ ih =>
    intro c hc
    rcases List.mem_cons.mp hc with e | e
    · subst e
      by_cases h1 : c < 128
      · left
        by_contra hne
        exact h3 ⟨Or.inl rfl, h1, by simpa using hne⟩
      · right; right; omega
    · exact ih c e

/-- Bytes of a decoded zone of ASCII text: not escaped in a host, or `%`, or
the space. -/
theorem url.Decodes_zone_good (s t : GoString) (h : url.Decodes encodeZone s t)
    (hs : ∀ c ∈ s, c < 128) :
    ∀ c ∈ t, shouldEscape c encodeHost = false ∨ c = 37 ∨ c = 32 := by
  induction h with
  | nil => intro c hc; cases hc
  | escaped a b s t _ _ _ h4 _ ih =>
    intro c hc
    rcases List.mem_cons.mp hc with e | e
    · by_cases h25 : [37, a, b] = [37, 50, 53]
      · simp only [List.cons.injEq, and_true, true_and] at h25
        obtain ⟨ha, hb⟩ := h25
        subst ha hb
        right; left
        rw [e]
        decide
      · by_cases h32 : unhex a * 16 + unhex b = 32
        · right; right
          rw [e]; exact h32
        · left
          by_contra hne
          rw [e] at hne
          exact h4 ⟨rfl, h25, h32, by simpa using hne⟩
    · exact ih (fun x hx => hs x (by simp [hx])) c e
  | plus s t _ ih =>
    intro c hc
    rcases List.mem_cons.mp hc with e | e
    · left
      rw [e]
      decide
    · exact ih (fun x hx => hs x (by simp [hx])) c e
  | plain c0 s t _ _ h3 _ ih =>
    intro c hc
    rcases List.mem_cons.mp hc with e | e
    · subst e
      left
      by_contra hne
      exact h3 ⟨Or.inr rfl, hs c (by simp), by simpa using hne⟩
    · exact ih (fun x hx => hs x (by simp [hx])) c e

/-- Escaping and decoding again gives back the text. -/
theorem url.Decodes_escapeBuild (E m : encoding) (t : GoString)
    (hE : E ≠ encodeQueryComponent) (hm : m ≠ encodeQueryComponent)
    (h : ∀ c ∈ t, c < 256 ∧
      (shouldEscape c E = false →
        ¬((m = encodeHost ∨ m = encodeZone) ∧ c < 128 ∧ shouldEscape c encodeHost = true)) ∧
      (shouldEscape c E = true →
        ¬(m = encodeHost ∧ c / 16 < 8 ∧ c ≠ 37) ∧
        ¬(m = encodeZone ∧ c ≠ 37 ∧ c ≠ 32 ∧ shouldEscape c encodeHost = true))) :
    url.Decodes m (escapeBuild E t) t := by
  induction t with
  | nil => exact url.Decodes.nil
  | cons c t ih =>
    have ih := ih (fun x hx => h x (List.mem_cons_of_mem _ hx))
    obtain ⟨hlt, hplain, hesc⟩ := h c (List.mem_cons_self _ _)
    unfold escapeBuild
    simp only [hE, and_false, if_false]
    by_cases he : shouldEscape c E = true
    · simp only [he, if_true]
      obtain ⟨g1, g2⟩ := hesc he
      obtain ⟨a1, a2, _⟩ := url.upperhex_spec (c / 16) (by omega)
      obtain ⟨b1, b2, _⟩ := url.upperhex_spec (c % 16) (by omega)
      have hv := url.hex_roundtrip c hlt
      have h25 : c = 37 → [37, upperhex (c / 16), upperhex (c % 16)] = [37, 50, 53] := by
        intro e; subst e; decide
      have key := @url.Decodes.escaped m (upperhex (c / 16)) (upperhex (c % 16))
        (escapeBuild E t) t a1 b1
        (by
          rintro ⟨hmh, h8, hne⟩
          rw [a2] at h8
          by_cases e : c = 37
          · exact hne (h25 e)
          · exact g1 ⟨hmh, h8, e⟩)
        (by
          rintro ⟨hmz, hne, h32, hse⟩
          rw [hv] at h32 hse
          by_cases e : c = 37
          · exact hne (h25 e)
          · exact g2 ⟨hmz, e, h32, hse⟩)
        ih
      rw [hv] at key
      exact key
    · have he2 : shouldEscape c E = false := by simpa using he
      simp only [he2, Bool.false_eq_true, if_false]
      have h37 : c ≠ 37 := by
        intro e
        rw [e, url.shouldEscape_percent] at he2
        cases he2
      by_cases h43 : c = 43
      · subst h43
        have key := @url.Decodes.plus m (escapeBuild E t) t ih
        simp only [hm, if_false] at key
        exact key
      · exact url.Decodes.plain c _ _ h37 h43 (hplain he2) ih


theorem strings.Index_cons (x : Nat) (s pat : GoString) :
    strings.Index (x :: s) pat =
      if strings.HasPrefix (x :: s) pat = true then some 0
      else (strings.Index s pat).map (· + 1) := by
  rw [strings.Index]
  split_ifs
  · rfl
  · cases strings.Index s pat <;> rfl

theorem strings.HasPrefix_take (k : Nat) (s pat : GoString)
    (h : strings.HasPrefix (s.take k) pat = true) : strings.HasPrefix s pat = true := by
  induction pat generalizing s k with
  | nil => cases s <;> rfl
  | cons p pat ih =>
    cases s with
    | nil => simp [strings.HasPrefix] at h
    | cons x s =>
      cases k with
      | zero => simp [strings.HasPrefix] at h
      | succ k =>
        simp only [List.take_succ_cons, strings.HasPrefix, Bool.and_eq_true] at h ⊢
        exact ⟨h.1, ih k s h.2⟩

theorem strings.Index_some (s pat : GoString) (z : Nat) (hpat : pat ≠ [])
    (h : strings.Index s pat = some z) :
    strings.HasPrefix (s.drop z) pat = true ∧ z ≤ s.length ∧
      strings.Index (s.take z) pat = none := by
  induction s generalizing z with
  | nil => simp [strings.Index, hpat] at h
  | cons x s ih =>
    rw [strings.Index_cons] at h
    split_ifs at h with hp
    · cases h
      simp [hp, strings.Index, hpat]
    · cases hi : strings.Index s pat with
      | none => simp [hi] at h
      | some i =>
        simp only [hi, Option.map_some', Option.some.injEq] at h
        subst h
        obtain ⟨i1, i2, i3⟩ := ih i hi
        refine ⟨by simpa using i1, by simp; omega, ?_⟩
        simp only [List.take_succ_cons]
        rw [strings.Index_cons, i3]
        have : strings.HasPrefix (x :: List.take i s) pat = false := by
          by_contra hc
          have hc2 : strings.HasPrefix (List.take (i + 1) (x :: s)) pat = true := by
            simpa using hc
          exact hp (strings.HasPrefix_take _ _ _ hc2)
        simp [this]

theorem strings.LastIndexByte_some (s : GoString) (c i : Nat)
    (h : strings.LastIndexByte s c = some i) :
    s = s.take i ++ c :: s.drop (i + 1) ∧ c ∉ s.drop (i + 1) := by
  induction s generalizing i with
  | nil => simp [strings.LastIndexByte] at h
  | cons x s ih =>
    unfold strings.LastIndexByte at h
    cases hl : strings.LastIndexByte s c with
    | some j =>
      simp only [hl, Option.some.injEq] at h
      subst h
      obtain ⟨i1, i2⟩ := ih j hl
      refine ⟨?_, by simpa using i2⟩
      simp only [List.take_succ_cons, List.drop_succ_cons, List.cons_append]
      rw [← i1]
    | none =>
      simp only [hl] at h
      split_ifs at h with hx
      cases h
      subst hx
      refine ⟨by simp, ?_⟩
      simp only [zero_add, List.drop_succ_cons, List.drop_zero]
      intro hm
      have hex : ∃ j, strings.LastIndexByte s x = some j := by
        clear ih hl
        induction s with
        | nil => cases hm
        | cons y s ih2 =>
          unfold strings.LastIndexByte
          cases hl2 : strings.LastIndexByte s x with
          | some j => exact ⟨_, rfl⟩
          | none =>
            rcases List.mem_cons.mp hm with e | e
            · simp [e]
            · obtain ⟨j, hj⟩ := ih2 e
              rw [hj] at hl2
              cases hl2
      obtain ⟨j, hj⟩ := hex
      rw [hj] at hl
      cases hl

theorem strings.LastIndexByte_none (s : GoString) (c : Nat)
    (h : strings.LastIndexByte s c = none) : c ∉ s := by
  induction s with
  | nil => simp
  | cons x s ih =>
    unfold strings.LastIndexByte at h
    cases hl : strings.LastIndexByte s c with
    | some j => simp [hl] at h
    | none =>
      simp only [hl] at h
      split_ifs at h with hx
      simp only [List.mem_cons, not_or]
      exact ⟨fun e => hx e.symm, ih hl⟩

theorem strings.LastIndexByte_append (A B : GoString) (c : Nat) (h : c ∉ B) :
    strings.LastIndexByte (A ++ c :: B) c = some A.length := by
  induction A with
  | nil =>
    simp only [List.nil_append, List.length_nil]
    unfold strings.LastIndexByte
    cases hl : strings.LastIndexByte B c with
    | some j =>
      rw [strings.LastIndexByte_of_not_mem B c h] at hl
      cases hl
    | none => simp
  | cons x A ih =>
    simp only [List.cons_append, List.length_cons]
    unfold strings.LastIndexByte
    simp [ih]


theorem url.Decodes_escaped_inv (m : encoding) (s t : GoString)
    (h : url.Decodes m (37 :: s) t) :
    ∃ a b s2 t2, s = a :: b :: s2 ∧ t = (unhex a * 16 + unhex b) :: t2 ∧
      ishex a = true ∧ ishex b = true ∧
      ¬ (m = encodeHost ∧ unhex a < 8 ∧ [37, a, b] ≠ [37, 50, 53]) ∧
      ¬ (m = encodeZone ∧ [37, a, b] ≠ [37, 50, 53] ∧ unhex a * 16 + unhex b ≠ 32 ∧
          shouldEscape (unhex a * 16 + unhex b) encodeHost = true) ∧
      url.Decodes m s2 t2 := by
  cases h with
  | escaped a b s2 t2 h1 h2 h3 h4 h5 => exact ⟨a, b, s2, t2, rfl, rfl, h1, h2, h3, h4, h5⟩
  | plain _ _ t2 h1 _ _ _ => exact absurd rfl h1

theorem url.Decodes_plain_inv (m : encoding) (c : Nat) (s t : GoString) (hc : c ≠ 37)
    (h : url.Decodes m (c :: s) t) :
    ∃ t2, t = (if c = 43 then (if m = encodeQueryComponent then 32 else 43) else c) :: t2 ∧
      (c ≠ 43 → ¬ ((m = encodeHost ∨ m = encodeZone) ∧ c < 128 ∧
        shouldEscape c encodeHost = true)) ∧
      url.Decodes m s t2 := by
  cases h with
  | escaped a b s2 t2 h1 h2 h3 h4 h5 => exact absurd rfl hc
  | plus _ t2 h5 => exact ⟨t2, by simp, fun h => absurd rfl h, h5⟩
  | plain _ _ t2 h1 h2 h3 h5 => exact ⟨t2, by simp [h2], fun _ => h3, h5⟩

theorem url.Decodes_append (m : encoding) (A : GoString) (c : Nat) (B : GoString)
    (hc : ishex c = false) :
    ∀ t, url.Decodes m (A ++ c :: B) t →
      ∃ tA tB, url.Decodes m A tA ∧ url.Decodes m (c :: B) tB ∧ t = tA ++ tB := by
  induction A using GoString.escape_induction with
  | nil => intro t h; exact ⟨[], t, .nil, h, rfl⟩
  | escaped a b s ih =>
    intro t h
    simp only [List.cons_append] at h
    obtain ⟨a2, b2, s2, t2, e1, e2, h1, h2, h3, h4, h5⟩ := url.Decodes_escaped_inv m _ _ h
    simp only [List.cons.injEq] at e1
    obtain ⟨ea, eb, es⟩ := e1
    subst ea eb es
    obtain ⟨tA, tB, i1, i2, i3⟩ := ih t2 h5
    exact ⟨_ :: tA, tB, .escaped a b s tA h1 h2 h3 h4 i1, i2, by rw [e2, i3]; rfl⟩
  | short s hs =>
    intro t h
    simp only [List.cons_append] at h
    obtain ⟨a2, b2, s2, t2, e1, e2, h1, h2, h3, h4, h5⟩ := url.Decodes_escaped_inv m _ _ h
    rcases s with _ | ⟨a, _ | ⟨b, s⟩⟩
    · simp only [List.nil_append, List.cons.injEq] at e1
      rw [← e1.1, hc] at h1
      cases h1
    · simp only [List.cons_append, List.nil_append, List.cons.injEq] at e1
      rw [← e1.2.1, hc] at h2
      cases h2
    · simp only [List.length_cons] at hs
      omega
  | plain c0 s hc0 ih =>
    intro t h
    simp only [List.cons_append] at h
    obtain ⟨t2, e, h3, h5⟩ := url.Decodes_plain_inv m c0 _ t hc0 h
    obtain ⟨tA, tB, i1, i2, i3⟩ := ih t2 h5
    by_cases h43 : c0 = 43
    · subst h43
      refine ⟨_ :: tA, tB, .plus s tA i1, i2, ?_⟩
      rw [e, i3]
      simp
    · refine ⟨c0 :: tA, tB, .plain c0 s tA hc0 h43 (h3 h43) i1, i2, ?_⟩
      rw [e, i3]
      simp [h43]

/-- A text without `%` and `+` decodes to itself. -/
theorem url.Decodes_plain_eq (m : encoding) (s t : GoString) (h : url.Decodes m s t)
    (hs : ∀ c ∈ s, c ≠ 37 ∧ c ≠ 43) : t = s := by
  induction h with
  | nil => rfl
  | escaped a b s t _ _ _ _ _ _ => exact absurd rfl (hs 37 (by simp)).1
  | plus s t _ _ => exact absurd rfl (hs 43 (by simp)).2
  | plain c s t _ _ _ _ ih => rw [ih (fun x hx => hs x (by simp [hx]))]

/-- Bytes of a decoded host come from the text, or are `%`, or not ASCII. -/
theorem url.Decodes_host_mem (s t : GoString) (h : url.Decodes encodeHost s t) :
    ∀ c ∈ t, c ∈ s ∨ c = 37 ∨ 128 ≤ c := by
  induction h with
  | nil => intro c hc; cases hc
  | escaped a b s t h1 h2 h3 h4 hd ih =>
    intro c hc
    rcases List.mem_cons.mp hc with e | e
    · have := url.Decodes_host_good _ _ (url.Decodes.escaped a b s t h1 h2 h3 h4 hd) c hc
      rcases this with g | g | g
      · by_cases h8 : unhex a < 8
        · have h25 : [37, a, b] = [37, 50, 53] := by
            by_contra hne
            exact h3 ⟨rfl, h8, hne⟩
          simp only [List.cons.injEq, and_true, true_and] at h25
          obtain ⟨ha, hb⟩ := h25
          subst ha hb
          right; left
          rw [e]
          decide
        · right; right; omega
      · exact Or.inr (Or.inl g)
      · exact Or.inr (Or.inr g)
    · rcases ih c e with g | g | g
      · left; simp [g]
      · exact Or.inr (Or.inl g)
      · exact Or.inr (Or.inr g)
  | plus s t _ ih =>
    intro c hc
    rcases List.mem_cons.mp hc with e | e
    · left
      rw [e]
      simp
    · rcases ih c e with g | g | g
      · left; simp [g]
      · exact Or.inr (Or.inl g)
      · exact Or.inr (Or.inr g)
  | plain c0 s t _ _ _ _ ih =>
    intro c hc
    rcases List.mem_cons.mp hc with e | e
    · left; simp [e]
    · rcases ih c e with g | g | g
      · left; simp [g]
      · exact Or.inr (Or.inl g)
      · exact Or.inr (Or.inr g)

theorem strings.Index_cons_none (x : Nat) (s pat : GoString)
    (h : strings.Index (x :: s) pat = none) :
    strings.HasPrefix (x :: s) pat = false ∧ strings.Index s pat = none := by
  rw [strings.Index_cons] at h
  split_ifs at h with hp
  exact ⟨by simpa using hp, by simpa using h⟩

/-- A host text without `%25` decodes to a text without `%`. -/
theorem url.Decodes_host_no_percent (s t : GoString) (h : url.Decodes encodeHost s t)
    (hi : strings.Index s [37, 50, 53] = none) : 37 ∉ t := by
  induction h with
  | nil => simp
  | escaped a b s t _ _ h3 _ _ ih =>
    obtain ⟨hp, hi1⟩ := strings.Index_cons_none _ _ _ hi
    obtain ⟨_, hi2⟩ := strings.Index_cons_none _ _ _ hi1
    obtain ⟨_, hi3⟩ := strings.Index_cons_none _ _ _ hi2
    have hne : [37, a, b] ≠ [37, 50, 53] := by
      intro e
      simp only [List.cons.injEq, and_true, true_and] at e
      simp [strings.HasPrefix, e.1, e.2] at hp
    have h8 : ¬ unhex a < 8 := fun h8 => h3 ⟨rfl, h8, hne⟩
    simp only [List.mem_cons, not_or]
    exact ⟨by omega, ih hi3⟩
  | plus s t _ ih =>
    obtain ⟨_, hi1⟩ := strings.Index_cons_none _ _ _ hi
    simp only [List.mem_cons, not_or]
    exact ⟨by decide, ih hi1⟩
  | plain c s t h1 _ _ _ ih =>
    obtain ⟨_, hi1⟩ := strings.Index_cons_none _ _ _ hi
    simp only [List.mem_cons, not_or]
    exact ⟨fun e => h1 e.symm, ih hi1⟩

/-- In the escaped text of a host without `%`, the first `%25` is not before
the end of that text. -/
theorem strings.Index_escapeBuild_append (t B : GoString)
    (ht : ∀ c ∈ t, c < 256 ∧ c ≠ 37 ∧ (shouldEscape c encodeHost = true → 128 ≤ c)) :
    strings.Index (escapeBuild encodeHost t ++ B) [37, 50, 53] =
      (strings.Index B [37, 50, 53]).map (· + (escapeBuild encodeHost t).length) := by
  induction t with
  | nil => simp [escapeBuild]
  | cons c t ih =>
    have ih := ih (fun x hx => ht x (List.mem_cons_of_mem _ hx))
    obtain ⟨hlt, h37, hhi⟩ := ht c (List.mem_cons_self _ _)
    unfold escapeBuild
    have hq : ¬ (c = ch ' ' ∧ encodeHost = encodeQueryComponent) := by simp
    simp only [hq, if_false]
    by_cases he : shouldEscape c encodeHost = true
    · simp only [he, if_true, List.cons_append, ch, Char.reduceToNat]
      have h128 := hhi he
      obtain ⟨_, a2, a3⟩ := url.upperhex_spec (c / 16) (by omega)
      obtain ⟨_, b2, b3⟩ := url.upperhex_spec (c % 16) (by omega)
      have ha50 : upperhex (c / 16) ≠ 50 := by
        intro e
        rw [e] at a2
        have : unhex 50 = 2 := by decide
        omega
      have ha37 : upperhex (c / 16) ≠ 37 := by omega
      have hb37 : upperhex (c % 16) ≠ 37 := by omega
      rw [strings.Index_cons, strings.Index_cons, strings.Index_cons, ih]
      simp only [strings.HasPrefix, beq_iff_eq, ha50, ha37, hb37, Bool.and_eq_true, false_and,
        and_false, if_false, Bool.false_and, Bool.and_false, Bool.false_eq_true,
        Option.map_map, List.length_cons]
      cases strings.Index B [37, 50, 53] <;> simp
    · have he2 : shouldEscape c encodeHost = false := by simpa using he
      simp only [he2, Bool.false_eq_true, if_false, List.cons_append]
      rw [strings.Index_cons, ih]
      simp only [strings.HasPrefix, beq_iff_eq, h37, Bool.and_eq_true, false_and, if_false,
        Bool.false_and, Bool.false_eq_true, Option.map_map, List.length_cons]
      cases strings.Index B [37, 50, 53] <;> simp

theorem url.Decodes_escape_host (H : GoString)
    (hH : ∀ c ∈ H, c < 256 ∧ (shouldEscape c encodeHost = false ∨ c = 37 ∨ 128 ≤ c)) :
    url.Decodes encodeHost (escapeBuild encodeHost H) H := by
  apply url.Decodes_escapeBuild _ _ _ (by decide) (by decide)
  intro c hc
  obtain ⟨h1, h2⟩ := hH c hc
  refine ⟨h1, ?_, ?_⟩
  · intro he hx
    rw [he] at hx
    exact absurd hx.2.2 (by decide)
  · intro he
    refine ⟨?_, by simp⟩
    rintro ⟨_, h8, h37⟩
    rcases h2 with g | g | g
    · rw [he] at g; cases g
    · exact h37 g
    · omega

theorem url.Decodes_escape_zone (H : GoString)
    (hH : ∀ c ∈ H, c < 256 ∧ (shouldEscape c encodeHost = false ∨ c = 37 ∨ c = 32)) :
    url.Decodes encodeZone (escapeBuild encodeHost H) H := by
  apply url.Decodes_escapeBuild _ _ _ (by decide) (by decide)
  intro c hc
  obtain ⟨h1, h2⟩ := hH c hc
  refine ⟨h1, ?_, ?_⟩
  · intro he hx
    rw [he] at hx
    exact absurd hx.2.2 (by decide)
  · intro he
    refine ⟨by simp, ?_⟩
    rintro ⟨_, h37, h32, _⟩
    rcases h2 with g | g | g
    · rw [he] at g; cases g
    · exact h37 g
    · exact h32 g

theorem url.Decodes_escape_free (m : encoding)
    (hm : m = encodePath ∨ m = encodeFragment ∨ m = encodeUserPassword) (t : GoString)
    (ht : ∀ c ∈ t, c < 256) : url.Decodes m (escapeBuild m t) t := by
  have h1 : m ≠ encodeQueryComponent := by rcases hm with e | e | e <;> simp [e]
  have h2 : m ≠ encodeHost := by rcases hm with e | e | e <;> simp [e]
  have h3 : m ≠ encodeZone := by rcases hm with e | e | e <;> simp [e]
  apply url.Decodes_escapeBuild _ _ _ h1 h1
  intro c hc
  exact ⟨ht c hc, fun _ => by simp [h2, h3], fun _ => ⟨by simp [h2], by simp [h3]⟩⟩

theorem url.validOptionalPort_mem (P : GoString) (h : validOptionalPort P = true) :
    ∀ c ∈ P, c = 58 ∨ (48 ≤ c ∧ c ≤ 57) := by
  cases P with
  | nil => intro c hc; cases hc
  | cons x P =>
    simp only [validOptionalPort, ch, Char.reduceToNat, Bool.and_eq_true, beq_iff_eq,
      List.all_eq_true, decide_eq_true_eq] at h
    intro c hc
    rcases List.mem_cons.mp hc with e | e
    · left; rw [e]; exact h.1
    · right
      have := h.2 c e
      simpa using this

theorem url.validOptionalPort_tail (D : GoString) (h : validOptionalPort (58 :: D) = true) :
    ∀ c ∈ D, 48 ≤ c ∧ c ≤ 57 := by
  simp only [validOptionalPort, ch, Char.reduceToNat, Bool.and_eq_true, beq_iff_eq,
    List.all_eq_true, decide_eq_true_eq] at h
  intro c hc
  have := h.2 c hc
  simpa using this

theorem url.shouldEscape_host_digit (c : Nat) (h : c = 58 ∨ c = 93 ∨ (48 ≤ c ∧ c ≤ 57)) :
    shouldEscape c encodeHost = false := by
  rcases h with e | e | e
  · subst e; decide
  · subst e; decide
  · unfold shouldEscape
    simp only [ch, Char.reduceToNat]
    simp [e]

theorem url.HasPrefix_bracket_escapeBuild (H : GoString) :
    strings.HasPrefix (escapeBuild encodeHost H) [91] = strings.HasPrefix H [91] := by
  cases H with
  | nil => rfl
  | cons c t =>
    unfold escapeBuild
    have hq : ¬ (c = ch ' ' ∧ encodeHost = encodeQueryComponent) := by simp
    simp only [hq, if_false]
    by_cases he : shouldEscape c encodeHost = true
    · have hc : c ≠ 91 := by
        intro e
        subst e
        exact absurd he (by decide)
      simp [he, strings.HasPrefix, hc, ch]
    · have he2 : shouldEscape c encodeHost = false := by simpa using he
      simp [he2, strings.HasPrefix]

theorem url.Decodes_host_head (s t : GoString) (h : url.Decodes encodeHost s t)
    (ht : strings.HasPrefix t [91] = true) : strings.HasPrefix s [91] = true := by
  cases h with
  | nil => simp [strings.HasPrefix] at ht
  | escaped a b s t h1 h2 h3 h4 h5 =>
    exfalso
    simp only [strings.HasPrefix, Bool.and_true, beq_iff_eq] at ht
    by_cases h8 : unhex a < 8
    · have h25 : [37, a, b] = [37, 50, 53] := by
        by_contra hne
        exact h3 ⟨rfl, h8, hne⟩
      simp only [List.cons.injEq, and_true, true_and] at h25
      obtain ⟨ha, hb⟩ := h25
      subst ha hb
      revert ht
      decide
    · omega
  | plus s t h5 =>
    simp [strings.HasPrefix] at ht
  | plain c s t h1 h2 h3 h5 =>
    simpa [strings.HasPrefix] using ht

theorem str_bracket : str "[" = [91] := rfl

theorem url.parseHost_of_plain (X : GoString) (hpre : strings.HasPrefix X [91] = false)
    (htail : ∀ i, strings.LastIndexByte X 58 = some i → validOptionalPort (X.drop i) = true) :
    parseHost X = unescape X encodeHost := by
  unfold parseHost
  simp only [str_bracket, hpre, Bool.false_eq_true, if_false, ch, Char.reduceToNat]
  cases hl : strings.LastIndexByte X 58 with
  | none => rfl
  | some i => simp [htail i hl]

theorem url.parseHost_of_bracket (E P : GoString) (hpre : strings.HasPrefix E [91] = true)
    (hP : 93 ∉ P) (hv : validOptionalPort P = true) :
    parseHost (E ++ 93 :: P) =
      match strings.Index E [37, 50, 53] with
      | some zone =>
        match unescape (E.take zone) encodeHost with
        | .error e => .error e
        | .ok host1 =>
          match unescape (E.drop zone) encodeZone with
          | .error e => .error e
          | .ok host2 =>
            match unescape (93 :: P) encodeHost with
            | .error e => .error e
            | .ok host3 => .ok (host1 ++ host2 ++ host3)
      | none => unescape (E ++ 93 :: P) encodeHost := by
  have hpre2 : strings.HasPrefix (E ++ 93 :: P) [91] = true := by
    cases E with
    | nil => simp [strings.HasPrefix] at hpre
    | cons x E => simpa [strings.HasPrefix] using hpre
  have hl := strings.LastIndexByte_append E P 93 hP
  unfold parseHost
  simp only [str_bracket, hpre2, if_true, ch, Char.reduceToNat, hl, str_pct25]
  have e1 : List.drop (E.length + 1) (E ++ 93 :: P) = P := by
    rw [List.drop_append_eq_append_drop]
    simp
  have e2 : List.take E.length (E ++ 93 :: P) = E := by simp
  have e3 : List.drop E.length (E ++ 93 :: P) = 93 :: P := by simp
  rw [e1, e2, e3]
  simp only [hv, Bool.not_true, Bool.false_eq_true, if_false]
  cases hi : strings.Index E [37, 50, 53] with
  | none => rfl
  | some zone =>
    have hz := (strings.Index_some E _ zone (by simp) hi).2.1
    have e4 : List.take zone (E ++ 93 :: P) = List.take zone E := by
      rw [List.take_append_of_le_length hz]
    simp only [e4]

/-- A host without brackets: the escaped text of the parsed host parses to
the same host. -/
theorem url.parseHost_plain_roundtrip (orig H : GoString) (hb : ∀ c ∈ orig, c < 256)
    (hp : strings.HasPrefix orig [91] = false)
    (htail : ∀ i, strings.LastIndexByte orig 58 = some i →
      validOptionalPort (orig.drop i) = true)
    (hd : url.Decodes encodeHost orig H) :
    parseHost (escapeBuild encodeHost H) = .ok H := by
  have hbytes := url.Decodes_bytes _ _ _ hd hb
  have hgood : ∀ c ∈ H, c < 256 ∧ (shouldEscape c encodeHost = false ∨ c = 37 ∨ 128 ≤ c) :=
    fun c hc => ⟨hbytes c hc, url.Decodes_host_good _ _ hd c hc⟩
  have hun : unescape (escapeBuild encodeHost H) encodeHost = .ok H :=
    (url.unescape_iff _ _ _).mpr (url.Decodes_escape_host H hgood)
  have hpre : strings.HasPrefix (escapeBuild encodeHost H) [91] = false := by
    rw [url.HasPrefix_bracket_escapeBuild]
    by_contra hc
    have := url.Decodes_host_head _ _ hd (by simpa using hc)
    rw [hp] at this
    cases this
  rw [url.parseHost_of_plain _ hpre, hun]
  intro i' hi'
  cases hl : strings.LastIndexByte orig 58 with
  | none =>
    exfalso
    have h58 := strings.LastIndexByte_none _ _ hl
    have h58H : 58 ∉ H := by
      intro hm
      rcases url.Decodes_host_mem _ _ hd 58 hm with g | g | g
      · exact h58 g
      · omega
      · omega
    have : 58 ∉ escapeBuild encodeHost H := by
      intro hm
      rcases url.mem_escapeBuild _ _ hbytes 58 hm with g | g | g | g | g
      · omega
      · omega
      · omega
      · omega
      · exact h58H g.1
    rw [strings.LastIndexByte_of_not_mem _ _ this] at hi'
    cases hi'
  | some i =>
    have hv := htail i hl
    obtain ⟨e1, e2⟩ := strings.LastIndexByte_some _ _ _ hl
    have hlen : i < orig.length := by
      by_contra hge
      have : List.drop (i + 1) orig = [] := List.drop_eq_nil_of_le (by omega)
      have e3 := congrArg List.length e1
      rw [List.length_append, List.length_cons, List.length_take] at e3
      rw [this] at e3
      simp at e3
      omega
    have hdrop : orig.drop i = 58 :: orig.drop (i + 1) := by
      conv_lhs => rw [e1]
      rw [List.drop_append_eq_append_drop]
      simp [List.length_take, Nat.min_eq_left (Nat.le_of_lt hlen)]
    rw [hdrop] at hv
    have hdig := url.validOptionalPort_tail _ hv
    rw [e1] at hd
    obtain ⟨tA, tB, d1, d2, d3⟩ := url.Decodes_append _ _ 58 _ (by decide) _ hd
    have htB : tB = 58 :: orig.drop (i + 1) := by
      apply url.Decodes_plain_eq _ _ _ d2
      intro c hc
      rcases List.mem_cons.mp hc with e | e
      · omega
      · have := hdig c e; omega
    have hesc : escapeBuild encodeHost H =
        escapeBuild encodeHost tA ++ 58 :: orig.drop (i + 1) := by
      rw [d3, htB, url.escapeBuild_append]
      congr 1
      apply url.escapeBuild_plain
      intro c hc
      apply url.shouldEscape_host_digit
      rcases List.mem_cons.mp hc with e | e
      · exact Or.inl e
      · exact Or.inr (Or.inr (hdig c e))
    rw [hesc] at hi' ⊢
    rw [strings.LastIndexByte_append _ _ _ e2] at hi'
    cases hi'
    simpa using hv

theorem url.escapeBuild_bracket_port (P : GoString) (hv : validOptionalPort P = true) :
    escapeBuild encodeHost (93 :: P) = 93 :: P := by
  apply url.escapeBuild_plain
  intro c hc
  apply url.shouldEscape_host_digit
  rcases List.mem_cons.mp hc with e | e
  · exact Or.inr (Or.inl e)
  · rcases url.validOptionalPort_mem P hv c e with g | g
    · exact Or.inl g
    · exact Or.inr (Or.inr g)

theorem url.Decodes_bracket_port (P t : GoString) (hv : validOptionalPort P = true)
    (h : url.Decodes encodeHost (93 :: P) t) : t = 93 :: P := by
  apply url.Decodes_plain_eq _ _ _ h
  intro c hc
  rcases List.mem_cons.mp hc with e | e
  · omega
  · rcases url.validOptionalPort_mem P hv c e with g | g <;> omega

theorem url.HasPrefix_bracket_Decodes (A tA : GoString) (hA : strings.HasPrefix A [91] = true)
    (h : url.Decodes encodeHost A tA) : strings.HasPrefix tA [91] = true := by
  cases A with
  | nil => simp [strings.HasPrefix] at hA
  | cons x A =>
    have hx : x = 91 := by simpa [strings.HasPrefix] using hA
    subst hx
    obtain ⟨t2, e, _, _⟩ := url.Decodes_plain_inv _ 91 A tA (by decide) h
    rw [e]
    simp [strings.HasPrefix]

/-- A host in brackets without a zone: the escaped text of the parsed host
parses to the same host. -/
theorem url.parseHost_bracket_roundtrip (A P H : GoString) (hb : ∀ c ∈ A ++ 93 :: P, c < 256)
    (hA : strings.HasPrefix A [91] = true) (hP : 93 ∉ P) (hv : validOptionalPort P = true)
    (hi : strings.Index A [37, 50, 53] = none)
    (hd : url.Decodes encodeHost (A ++ 93 :: P) H) :
    parseHost (escapeBuild encodeHost H) = .ok H := by
  have hbytes := url.Decodes_bytes _ _ _ hd hb
  have hgood : ∀ c ∈ H, c < 256 ∧ (shouldEscape c encodeHost = false ∨ c = 37 ∨ 128 ≤ c) :=
    fun c hc => ⟨hbytes c hc, url.Decodes_host_good _ _ hd c hc⟩
  have hun : unescape (escapeBuild encodeHost H) encodeHost = .ok H :=
    (url.unescape_iff _ _ _).mpr (url.Decodes_escape_host H hgood)
  obtain ⟨tA, tB, d1, d2, d3⟩ := url.Decodes_append _ _ 93 _ (by decide) _ hd
  have htB := url.Decodes_bracket_port P tB hv d2
  have h37 := url.Decodes_host_no_percent _ _ d1 hi
  have hesc : escapeBuild encodeHost H = escapeBuild encodeHost tA ++ 93 :: P := by
    rw [d3, htB, url.escapeBuild_append, url.escapeBuild_bracket_port P hv]
  have hpre : strings.HasPrefix (escapeBuild encodeHost tA) [91] = true := by
    rw [url.HasPrefix_bracket_escapeBuild]
    exact url.HasPrefix_bracket_Decodes A tA hA d1
  have hidx : strings.Index (escapeBuild encodeHost tA) [37, 50, 53] = none := by
    have := strings.Index_escapeBuild_append tA [] (by
      intro c hc
      have hcH : c ∈ H := by rw [d3]; simp [hc]
      obtain ⟨g1, g2⟩ := hgood c hcH
      refine ⟨g1, fun e => h37 (e ▸ hc), ?_⟩
      intro he
      rcases g2 with g | g | g
      · rw [he] at g; cases g
      · exact absurd (g ▸ hc) h37
      · exact g)
    simpa [strings.Index] using this
  rw [← hun]
  conv_lhs => rw [hesc]
  rw [url.parseHost_of_bracket _ _ hpre hP hv, hidx, hesc]

/-- A host in brackets with a zone: the escaped text of the parsed host parses
to the same host. -/
theorem url.parseHost_zone_roundtrip (A Z P h1 h2 h3 : GoString)
    (hbA : ∀ c ∈ A, c < 256) (hbZ : ∀ c ∈ Z, c < 128)
    (hA : strings.HasPrefix A [91] = true) (hP : 93 ∉ P) (hv : validOptionalPort P = true)
    (hi : strings.Index A [37, 50, 53] = none)
    (hZ : strings.HasPrefix Z [37, 50, 53] = true)
    (d1 : url.Decodes encodeHost A h1) (d2 : url.Decodes encodeZone Z h2)
    (d3 : url.Decodes encodeHost (93 :: P) h3) :
    parseHost (escapeBuild encodeHost (h1 ++ h2 ++ h3)) = .ok (h1 ++ h2 ++ h3) := by
  have hb1 := url.Decodes_bytes _ _ _ d1 hbA
  have hb2 := url.Decodes_bytes _ _ _ d2 (fun c hc => by have := hbZ c hc; omega)
  have hg1 : ∀ c ∈ h1, c < 256 ∧ (shouldEscape c encodeHost = false ∨ c = 37 ∨ 128 ≤ c) :=
    fun c hc => ⟨hb1 c hc, url.Decodes_host_good _ _ d1 c hc⟩
  have hg2 : ∀ c ∈ h2, c < 256 ∧ (shouldEscape c encodeHost = false ∨ c = 37 ∨ c = 32) :=
    fun c hc => ⟨hb2 c hc, url.Decodes_zone_good _ _ d2 hbZ c hc⟩
  have hu1 : unescape (escapeBuild encodeHost h1) encodeHost = .ok h1 :=
    (url.unescape_iff _ _ _).mpr (url.Decodes_escape_host h1 hg1)
  have hu2 : unescape (escapeBuild encodeHost h2) encodeZone = .ok h2 :=
    (url.unescape_iff _ _ _).mpr (url.Decodes_escape_zone h2 hg2)
  have hu3 : unescape (93 :: P) encodeHost = .ok h3 := (url.unescape_iff _ _ _).mpr d3
  have h3eq := url.Decodes_bracket_port P h3 hv d3
  subst h3eq
  have h37 := url.Decodes_host_no_percent _ _ d1 hi
  have hpre : strings.HasPrefix (escapeBuild encodeHost h1 ++ escapeBuild encodeHost h2) [91]
      = true := by
    have := url.HasPrefix_bracket_Decodes A h1 hA d1
    rw [← url.HasPrefix_bracket_escapeBuild] at this
    cases he : escapeBuild encodeHost h1 with
    | nil => rw [he] at this; simp [strings.HasPrefix] at this
    | cons x E => rw [he] at this; simpa [strings.HasPrefix] using this
  -- the zone starts with the escape of `%`
  obtain ⟨z1, z2, Z2, t2, eZ, et, _, _, _, _, _⟩ : ∃ a b s2 t2, Z = 37 :: a :: b :: s2 ∧
      h2 = (unhex a * 16 + unhex b) :: t2 ∧ ishex a = true ∧ ishex b = true ∧
      ¬ (encodeZone = encodeHost ∧ unhex a < 8 ∧ [37, a, b] ≠ [37, 50, 53]) ∧
      ¬ (encodeZone = encodeZone ∧ [37, a, b] ≠ [37, 50, 53] ∧ unhex a * 16 + unhex b ≠ 32 ∧
          shouldEscape (unhex a * 16 + unhex b) encodeHost = true) ∧
      url.Decodes encodeZone s2 t2 := by
    rcases Z with _ | ⟨x, Z⟩
    · simp [strings.HasPrefix] at hZ
    · have hx : x = 37 := by
        simp only [strings.HasPrefix, Bool.and_eq_true, beq_iff_eq] at hZ
        exact hZ.1
      subst hx
      obtain ⟨a, b, s2, t2, e1, e2, r⟩ := url.Decodes_escaped_inv _ _ _ d2
      exact ⟨a, b, s2, t2, by rw [e1], e2, r⟩
  have hz12 : z1 = 50 ∧ z2 = 53 := by
    rw [eZ] at hZ
    simp only [strings.HasPrefix, Bool.and_eq_true, beq_iff_eq] at hZ
    exact ⟨hZ.2.1, hZ.2.2.1⟩
  obtain ⟨hz1, hz2⟩ := hz12
  subst hz1 hz2
  have het : h2 = 37 :: t2 := by rw [et]; rfl
  have hE2 : strings.HasPrefix (escapeBuild encodeHost h2) [37, 50, 53] = true := by
    rw [het]
    unfold escapeBuild
    simp [strings.HasPrefix, ch, url.shouldEscape_percent, upperhex]
  have hidx : strings.Index (escapeBuild encodeHost h1 ++ escapeBuild encodeHost h2)
      [37, 50, 53] = some (escapeBuild encodeHost h1).length := by
    rw [strings.Index_escapeBuild_append h1 _ (by
      intro c hc
      obtain ⟨g1, g2⟩ := hg1 c hc
      refine ⟨g1, fun e => h37 (e ▸ hc), ?_⟩
      intro he
      rcases g2 with g | g | g
      · rw [he] at g; cases g
      · exact absurd (g ▸ hc) h37
      · exact g)]
    have : strings.Index (escapeBuild encodeHost h2) [37, 50, 53] = some 0 := by
      cases he : escapeBuild encodeHost h2 with
      | nil => rw [he] at hE2; simp [strings.HasPrefix] at hE2
      | cons x E =>
        rw [he] at hE2
        rw [strings.Index_cons, if_pos hE2]
    rw [this]
    simp
  have hesc : escapeBuild encodeHost (h1 ++ h2 ++ 93 :: P) =
      (escapeBuild encodeHost h1 ++ escapeBuild encodeHost h2) ++ 93 :: P := by
    rw [url.escapeBuild_append, url.escapeBuild_append, url.escapeBuild_bracket_port P hv]
  rw [hesc, url.parseHost_of_bracket _ _ hpre hP hv, hidx]
  simp only [List.take_left', List.drop_left', hu1, hu2, hu3]

/-- The escaped text of a parsed host parses to the same host. The text of the
host is ASCII, or the host is not in brackets. -/
theorem url.parseHost_roundtrip (orig H : GoString) (hb : ∀ c ∈ orig, c < 256)
    (hz : (∀ c ∈ orig, c < 128) ∨ strings.HasPrefix H [91] = false)
    (h : parseHost orig = .ok H) :
    parseHost (escapeBuild encodeHost H) = .ok H ∧ ∀ c ∈ H, c < 256 := by
  by_cases hp : strings.HasPrefix orig [91] = true
  · -- a host in brackets
    cases hl : strings.LastIndexByte orig 93 with
    | none =>
      unfold parseHost at h
      simp only [str_bracket, hp, if_true, ch, Char.reduceToNat, hl] at h
      cases h
    | some i =>
      obtain ⟨e1, e2⟩ := strings.LastIndexByte_some _ _ _ hl
      obtain ⟨A, P, rfl, hP⟩ : ∃ A P, orig = A ++ 93 :: P ∧ 93 ∉ P := ⟨_, _, e1, e2⟩
      clear e1 e2 hl
      have hA : strings.HasPrefix A [91] = true := by
        cases A with
        | nil => simp [strings.HasPrefix] at hp
        | cons x A => simpa [strings.HasPrefix] using hp
      have hv : validOptionalPort P = true := by
        by_contra hv
        have hl := strings.LastIndexByte_append A P 93 hP
        have e1 : List.drop (A.length + 1) (A ++ 93 :: P) = P := by
          rw [List.drop_append_eq_append_drop]
          simp
        unfold parseHost at h
        simp only [str_bracket, hp, if_true, ch, Char.reduceToNat, hl, e1] at h
        simp only [hv, Bool.not_false, if_true] at h
        cases h
      rw [url.parseHost_of_bracket A P hA hP hv] at h
      cases hi : strings.Index A [37, 50, 53] with
      | none =>
        rw [hi] at h
        simp only at h
        have hd := (url.unescape_iff _ _ _).mp h
        exact ⟨url.parseHost_bracket_roundtrip A P H hb hA hP hv hi hd,
          url.Decodes_bytes _ _ _ hd hb⟩
      | some z =>
        rw [hi] at h
        simp only at h
        obtain ⟨z1, z2, z3⟩ := strings.Index_some A _ z (by simp) hi
        cases hu1 : unescape (List.take z A) encodeHost with
        | error e => rw [hu1] at h; cases h
        | ok h1 =>
          cases hu2 : unescape (List.drop z A) encodeZone with
          | error e => rw [hu1, hu2] at h; cases h
          | ok h2 =>
            cases hu3 : unescape (93 :: P) encodeHost with
            | error e => rw [hu1, hu2, hu3] at h; cases h
            | ok h3 =>
              rw [hu1, hu2, hu3] at h
              simp only [Except.ok.injEq] at h
              subst h
              have d1 := (url.unescape_iff _ _ _).mp hu1
              have d2 := (url.unescape_iff _ _ _).mp hu2
              have d3 := (url.unescape_iff _ _ _).mp hu3
              have hzpos : 0 < z := by
                rcases Nat.eq_zero_or_pos z with e | e
                · exfalso
                  subst e
                  rw [List.drop_zero] at z1
                  cases A with
                  | nil => simp [strings.HasPrefix] at hA
                  | cons x A =>
                    simp only [strings.HasPrefix, Bool.and_eq_true, beq_iff_eq] at hA z1
                    omega
                · exact e
              have hA1 : strings.HasPrefix (List.take z A) [91] = true := by
                cases A with
                | nil => simp [strings.HasPrefix] at hA
                | cons x A =>
                  obtain ⟨k, rfl⟩ : ∃ k, z = k + 1 := ⟨z - 1, by omega⟩
                  simpa [strings.HasPrefix] using hA
              have hbA : ∀ c ∈ A, c < 256 := fun c hc => hb c (by simp [hc])
              have hb1 : ∀ c ∈ List.take z A, c < 256 :=
                fun c hc => hbA c (List.mem_of_mem_take hc)
              have hbZ : ∀ c ∈ List.drop z A, c < 128 := by
                intro c hc
                rcases hz with g | g
                · exact g c (by simp [List.mem_of_mem_drop hc])
                · exfalso
                  have := url.HasPrefix_bracket_Decodes _ _ hA1 d1
                  cases h1 with
                  | nil => simp [strings.HasPrefix] at this
                  | cons x h1 =>
                    simp only [strings.HasPrefix, Bool.and_true, beq_iff_eq] at this
                    simp [strings.HasPrefix, this] at g
              refine ⟨url.parseHost_zone_roundtrip _ _ P h1 h2 h3 hb1 hbZ hA1 hP hv z3 z1
                d1 d2 d3, ?_⟩
              intro c hc
              simp only [List.mem_append] at hc
              rcases hc with (hc | hc) | hc
              · exact url.Decodes_bytes _ _ _ d1 hb1 c hc
              · exact url.Decodes_bytes _ _ _ d2
                  (fun x hx => by have := hbZ x hx; omega) c hc
              · exact url.Decodes_bytes _ _ _ d3 (fun x hx => hb x (by
                  simp only [List.mem_append]; exact Or.inr hx)) c hc
  · -- a host without brackets
    have hp2 : strings.HasPrefix orig [91] = false := by simpa using hp
    have key : (∀ i, strings.LastIndexByte orig 58 = some i →
        validOptionalPort (orig.drop i) = true) ∧ unescape orig encodeHost = .ok H := by
      unfold parseHost at h
      simp only [str_bracket, hp2, Bool.false_eq_true, if_false, ch, Char.reduceToNat] at h
      cases hl : strings.LastIndexByte orig 58 with
      | none =>
        rw [hl] at h
        exact ⟨fun i hi => (by cases hi), h⟩
      | some i =>
        rw [hl] at h
        simp only at h
        split_ifs at h with hv
        refine ⟨fun j hj => ?_, h⟩
        cases hj
        simpa using hv
    have hd := (url.unescape_iff _ _ _).mp key.2
    exact ⟨url.parseHost_plain_roundtrip orig H hb hp2 key.1 hd, url.Decodes_bytes _ _ _ hd hb⟩

theorem str_at : str "@" = [64] := rfl

/-- Control bytes, `#`, and bytes that are not ASCII are escaped in every
part of a URL. -/
theorem url.shouldEscape_always (c : Nat) (m : encoding)
    (h : c < 32 ∨ c = 127 ∨ c = 35 ∨ 128 ≤ c) : shouldEscape c m = true := by
  unfold shouldEscape
  simp only [ch, Char.reduceToNat, List.mem_cons, List.mem_singleton, List.not_mem_nil,
    or_false]
  have e1 : ¬ ((97 ≤ c ∧ c ≤ 122) ∨ (65 ≤ c ∧ c ≤ 90) ∨ (48 ≤ c ∧ c ≤ 57)) := by omega
  have e2 : ¬ (c = 33 ∨ c = 36 ∨ c = 38 ∨ c = 39 ∨ c = 40 ∨ c = 41 ∨ c = 42 ∨ c = 43 ∨
      c = 44 ∨ c = 59 ∨ c = 61 ∨ c = 58 ∨ c = 91 ∨ c = 93 ∨ c = 60 ∨ c = 62 ∨ c = 34) := by
    omega
  have e3 : ¬ (c = 45 ∨ c = 95 ∨ c = 46 ∨ c = 126) := by omega
  have e4 : ¬ (c = 36 ∨ c = 38 ∨ c = 43 ∨ c = 44 ∨ c = 47 ∨ c = 58 ∨ c = 59 ∨ c = 61 ∨
      c = 63 ∨ c = 64) := by omega
  have e5 : ¬ (c = 33 ∨ c = 40 ∨ c = 41 ∨ c = 42) := by omega
  simp only [e1, e2, e3, e4, e5, and_false, if_false]

theorem url.shouldEscape_ascii_table :
    ∀ c < 128,
      (c = 63 → shouldEscape c encodeHost = true ∧ shouldEscape c encodePath = true ∧
        shouldEscape c encodeUserPassword = true) ∧
      (c = 47 ∨ c = 64 → shouldEscape c encodeHost = true ∧
        shouldEscape c encodeUserPassword = true) ∧
      (c = 58 → shouldEscape c encodeUserPassword = true) ∧
      (shouldEscape c encodeUserPassword = false →
        validUserinfo [c] = true) := by
  decide

/-- The bytes that `escape` leaves in user information are valid there. -/
theorem url.validUserinfo_escapeBuild (s : GoString) (hs : ∀ c ∈ s, c < 256) :
    validUserinfo (escapeBuild encodeUserPassword s) = true := by
  unfold validUserinfo
  rw [List.all_eq_true]
  intro d hd
  rcases url.mem_escapeBuild _ _ hs d hd with g | g | g | g | g
  · subst g; decide
  · simp only [ch, Char.reduceToNat, Bool.or_eq_true, Bool.and_eq_true, decide_eq_true_eq]
    left; right
    exact g
  · simp only [ch, Char.reduceToNat, Bool.or_eq_true, Bool.and_eq_true, decide_eq_true_eq]
    left; left; left
    omega
  · cases g.2
  · have hlt : d < 128 := by
      by_contra hge
      rw [url.shouldEscape_always d _ (by omega)] at g
      cases g.2
    have := (url.shouldEscape_ascii_table d hlt).2.2.2 g.2
    simpa [validUserinfo] using this

theorem url.validUserinfo_append (a b : GoString) (ha : validUserinfo a = true)
    (hb : validUserinfo b = true) : validUserinfo (a ++ b) = true := by
  unfold validUserinfo at *
  rw [List.all_append, ha, hb]
  rfl

/-- Bytes that do not occur in the escaped text of a host. -/
theorem url.escapeBuild_host_free (H : GoString) (hH : ∀ c ∈ H, c < 256) (d : Nat)
    (hd : d < 32 ∨ d = 127 ∨ d = 35 ∨ d = 63 ∨ d = 47 ∨ d = 64) :
    d ∉ escapeBuild encodeHost H := by
  apply url.not_mem_escapeBuild _ _ hH
  · rcases hd with g | g | g | g | g | g
    · exact url.shouldEscape_always d _ (Or.inl g)
    · exact url.shouldEscape_always d _ (Or.inr (Or.inl g))
    · exact url.shouldEscape_always d _ (Or.inr (Or.inr (Or.inl g)))
    · subst g; decide
    · subst g; decide
    · subst g; decide
  all_goals omega

/-- Bytes that do not occur in escaped user information. -/
theorem url.escapeBuild_user_free (s : GoString) (hs : ∀ c ∈ s, c < 256) (d : Nat)
    (hd : d < 32 ∨ d = 127 ∨ d = 35 ∨ d = 63 ∨ d = 47 ∨ d = 64 ∨ d = 58) :
    d ∉ escapeBuild encodeUserPassword s := by
  apply url.not_mem_escapeBuild _ _ hs
  · rcases hd with g | g | g | g | g | g | g
    · exact url.shouldEscape_always d _ (Or.inl g)
    · exact url.shouldEscape_always d _ (Or.inr (Or.inl g))
    · exact url.shouldEscape_always d _ (Or.inr (Or.inr (Or.inl g)))
    · subst g; decide
    · subst g; decide
    · subst g; decide
    · subst g; decide
  all_goals omega

/-- Bytes that do not occur in an escaped path. -/
theorem url.escapeBuild_path_free (s : GoString) (hs : ∀ c ∈ s, c < 256) (d : Nat)
    (hd : d < 32 ∨ d = 127 ∨ d = 35 ∨ d = 63) :
    d ∉ escapeBuild encodePath s := by
  apply url.not_mem_escapeBuild _ _ hs
  · rcases hd with g | g | g | g
    · exact url.shouldEscape_always d _ (Or.inl g)
    · exact url.shouldEscape_always d _ (Or.inr (Or.inl g))
    · exact url.shouldEscape_always d _ (Or.inr (Or.inr (Or.inl g)))
    · subst g; decide
  all_goals omega

theorem strings.Cut_mem (s : GoString) (sep : Nat) :
    (∀ c ∈ (strings.Cut s sep).1, c ∈ s ∧ c ≠ sep) ∧ (∀ c ∈ (strings.Cut s sep).2.1, c ∈ s) := by
  induction s with
  | nil => simp [strings.Cut]
  | cons x s ih =>
    unfold strings.Cut
    by_cases hx : x = sep
    · simp only [hx, if_true, List.not_mem_nil, false_implies, implies_true, true_and]
      intro c hc
      exact List.mem_cons_of_mem _ hc
    · simp only [hx, if_false]
      constructor
      · intro c hc
        rcases List.mem_cons.mp hc with e | e
        · subst e
          exact ⟨by simp, hx⟩
        · exact ⟨by simp [(ih.1 c e).1], (ih.1 c e).2⟩
      · intro c hc
        simp [ih.2 c hc]

theorem strings.Cut_append (A B : GoString) (sep : Nat) (h : sep ∉ A) :
    strings.Cut (A ++ sep :: B) sep = (A, B, true) := by
  induction A with
  | nil => simp [strings.Cut]
  | cons x A ih =>
    have hx : x ≠ sep := fun e => h (by simp [e])
    have hA : sep ∉ A := fun e => h (by simp [e])
    simp [strings.Cut, hx, ih hA]

theorem url.parseAuthority_inv (auth : GoString) (user : Option Userinfo) (H : GoString)
    (h : parseAuthority auth = .ok (user, H)) :
    (∃ hostText, parseHost hostText = .ok H ∧ ∀ c ∈ hostText, c ∈ auth) ∧
      (user = none ∨ ∃ ui, user = some ui ∧ (∀ c ∈ ui.username, c < 256 ∨ c ∈ auth) ∧
        (∀ c ∈ ui.password, c < 256 ∨ c ∈ auth) ∧ (ui.passwordSet = false → ui.password = [])) := by
  unfold parseAuthority at h
  cases hl : strings.LastIndexByte auth (ch '@') with
  | none =>
    rw [hl] at h
    simp only at h
    cases hp : parseHost auth with
    | error e => rw [hp] at h; cases h
    | ok host =>
      rw [hp] at h
      simp only [Except.ok.injEq, Prod.mk.injEq] at h
      obtain ⟨h1, h2⟩ := h
      subst h1 h2
      exact ⟨⟨auth, hp, fun c hc => hc⟩, Or.inl rfl⟩
  | some i =>
    rw [hl] at h
    simp only at h
    cases hp : parseHost (auth.drop (i + 1)) with
    | error e => rw [hp] at h; cases h
    | ok host =>
      rw [hp] at h
      simp only at h
      split_ifs at h with hv hc
      · cases hu : unescape (List.take i auth) encodeUserPassword with
        | error e => rw [hu] at h; cases h
        | ok username =>
          rw [hu] at h
          simp only [Except.ok.injEq, Prod.mk.injEq] at h
          obtain ⟨h1, h2⟩ := h
          subst h1 h2
          refine ⟨⟨_, hp, fun c hc => List.mem_of_mem_drop hc⟩, Or.inr ⟨_, rfl, ?_, ?_, ?_⟩⟩
          · intro c hc
            rcases url.Decodes_lt _ _ _ ((url.unescape_iff _ _ _).mp hu) c hc with g | g
            · exact Or.inl g
            · exact Or.inr (List.mem_of_mem_take g)
          · intro c hc; cases hc
          · intro _; rfl
      · cases hu : unescape (strings.Cut (List.take i auth) (ch ':')).1 encodeUserPassword with
        | error e => rw [hu] at h; cases h
        | ok username =>
          rw [hu] at h
          simp only at h
          cases hw : unescape (strings.Cut (List.take i auth) (ch ':')).2.1
              encodeUserPassword with
          | error e => rw [hw] at h; cases h
          | ok password =>
            rw [hw] at h
            simp only [Except.ok.injEq, Prod.mk.injEq] at h
            obtain ⟨h1, h2⟩ := h
            subst h1 h2
            refine ⟨⟨_, hp, fun c hc => List.mem_of_mem_drop hc⟩, Or.inr ⟨_, rfl, ?_, ?_, ?_⟩⟩
            · intro c hc
              rcases url.Decodes_lt _ _ _ ((url.unescape_iff _ _ _).mp hu) c hc with g | g
              · exact Or.inl g
              · exact Or.inr (List.mem_of_mem_take ((strings.Cut_mem _ _).1 c g).1)
            · intro c hc
              rcases url.Decodes_lt _ _ _ ((url.unescape_iff _ _ _).mp hw) c hc with g | g
              · exact Or.inl g
              · exact Or.inr (List.mem_of_mem_take ((strings.Cut_mem _ _).2 c g))
            · intro e; cases e

theorem url.parseAuthority_host (H : GoString) (hH : ∀ c ∈ H, c < 256)
    (hhost : parseHost (escapeBuild encodeHost H) = .ok H) :
    parseAuthority (escapeBuild encodeHost H) = .ok (none, H) := by
  have h64 := url.escapeBuild_host_free H hH 64 (by omega)
  unfold parseAuthority
  simp only [ch, Char.reduceToNat, strings.LastIndexByte_of_not_mem _ _ h64, hhost]

theorem url.parseAuthority_String (ui : Userinfo) (H : GoString)
    (hu : ∀ c ∈ ui.username, c < 256) (hp : ∀ c ∈ ui.password, c < 256)
    (hps : ui.passwordSet = false → ui.password = [])
    (hH : ∀ c ∈ H, c < 256) (hhost : parseHost (escapeBuild encodeHost H) = .ok H) :
    parseAuthority ((ui.String ++ [64]) ++ escapeBuild encodeHost H) = .ok (some ui, H) := by
  have h64 := url.escapeBuild_host_free H hH 64 (by omega)
  have hl : strings.LastIndexByte ((ui.String ++ [64]) ++ escapeBuild encodeHost H) 64 =
      some ui.String.length := by
    rw [List.append_assoc]
    exact strings.LastIndexByte_append _ _ 64 h64
  have e1 : List.drop (ui.String.length + 1) ((ui.String ++ [64]) ++ escapeBuild encodeHost H) =
      escapeBuild encodeHost H := by
    rw [List.drop_append_eq_append_drop]
    simp
  have e2 : List.take ui.String.length ((ui.String ++ [64]) ++ escapeBuild encodeHost H) =
      ui.String := by
    rw [List.append_assoc, List.take_left']
    rfl
  have du := (url.unescape_iff _ _ _).mpr
    (url.Decodes_escape_free encodeUserPassword (by simp) ui.username hu)
  have dp := (url.unescape_iff _ _ _).mpr
    (url.Decodes_escape_free encodeUserPassword (by simp) ui.password hp)
  have hvu := url.validUserinfo_escapeBuild ui.username hu
  have hvp := url.validUserinfo_escapeBuild ui.password hp
  have h58 := url.escapeBuild_user_free ui.username hu 58 (by omega)
  unfold parseAuthority
  simp only [ch, Char.reduceToNat, hl, e1, e2, hhost]
  obtain ⟨un, pw, ps⟩ := ui
  cases ps with
  | false =>
    have hpw : pw = [] := hps rfl
    subst hpw
    have hS : (Userinfo.mk un [] false).String = escapeBuild encodeUserPassword un := by
      simp [Userinfo.String, url.escape_eq]
    have hc : strings.ContainsByte (escapeBuild encodeUserPassword un) 58 = false := by
      unfold strings.ContainsByte
      rw [List.any_eq_false]
      intro x hx
      simp only [beq_iff_eq]
      intro e
      exact h58 (e ▸ hx)
    simp only [hS, hvu, hc, du, Bool.not_true, Bool.false_eq_true, if_false, Bool.not_false,
      if_true]
  | true =>
    have hS : (Userinfo.mk un pw true).String =
        escapeBuild encodeUserPassword un ++ 58 :: escapeBuild encodeUserPassword pw := by
      simp [Userinfo.String, url.escape_eq, str_colon]
    have hc : strings.ContainsByte
        (escapeBuild encodeUserPassword un ++ 58 :: escapeBuild encodeUserPassword pw) 58
        = true := by
      unfold strings.ContainsByte
      simp
    have hv : validUserinfo
        (escapeBuild encodeUserPassword un ++ 58 :: escapeBuild encodeUserPassword pw)
        = true := by
      apply url.validUserinfo_append _ _ hvu
      have : (58 :: escapeBuild encodeUserPassword pw) = [58] ++ escapeBuild encodeUserPassword pw :=
        rfl
      rw [this]
      exact url.validUserinfo_append _ _ (by decide) hvp
    simp only [hS, hv, hc, strings.Cut_append _ _ 58 h58, du, dp, Bool.not_true,
      Bool.false_eq_true, if_false]

theorem url.setPath_inv (v u1 : URL) (p : GoString) (h : setPath v p = .ok u1) :
    url.Decodes encodePath p u1.Path ∧ (u1.RawPath = [] ∨ u1.RawPath = p) ∧
      u1.Scheme = v.Scheme ∧ u1.Opaque = v.Opaque ∧ u1.User = v.User ∧ u1.Host = v.Host ∧
      u1.ForceQuery = v.ForceQuery ∧ u1.RawQuery = v.RawQuery ∧
      u1.Fragment = v.Fragment ∧ u1.RawFragment = v.RawFragment := by
  unfold setPath at h
  cases hu : unescape p encodePath with
  | error e => rw [hu] at h; cases h
  | ok path =>
    rw [hu] at h
    have hd := (url.unescape_iff _ _ _).mp hu
    simp only at h
    split_ifs at h <;>
      (cases h; exact ⟨hd, by simp, rfl, rfl, rfl, rfl, rfl, rfl, rfl, rfl⟩)

theorem url.setPath_of_Decodes (v : URL) (p t : GoString) (h : url.Decodes encodePath p t) :
    ∃ u1, setPath v p = .ok u1 ∧ u1.Path = t ∧ u1.Host = v.Host ∧ u1.Scheme = v.Scheme := by
  have hu := (url.unescape_iff _ _ _).mpr h
  unfold setPath
  rw [hu]
  simp only
  split_ifs
  · exact ⟨_, rfl, rfl, rfl, rfl⟩
  · exact ⟨_, rfl, rfl, rfl, rfl⟩

theorem url.setFragment_inv (v u1 : URL) (f : GoString) (h : setFragment v f = .ok u1) :
    url.Decodes encodeFragment f u1.Fragment ∧
      u1.Scheme = v.Scheme ∧ u1.Opaque = v.Opaque ∧ u1.User = v.User ∧ u1.Host = v.Host ∧
      u1.Path = v.Path ∧ u1.RawPath = v.RawPath ∧
      u1.ForceQuery = v.ForceQuery ∧ u1.RawQuery = v.RawQuery := by
  unfold setFragment at h
  cases hu : unescape f encodeFragment with
  | error e => rw [hu] at h; cases h
  | ok frag =>
    rw [hu] at h
    have hd := (url.unescape_iff _ _ _).mp hu
    simp only at h
    split_ifs at h <;>
      (cases h; exact ⟨hd, rfl, rfl, rfl, rfl, rfl, rfl, rfl, rfl⟩)

theorem url.setFragment_of_Decodes (v : URL) (f t : GoString)
    (h : url.Decodes encodeFragment f t) :
    ∃ u1, setFragment v f = .ok u1 ∧ u1.Path = v.Path ∧ u1.Host = v.Host ∧
      u1.Scheme = v.Scheme := by
  have hu := (url.unescape_iff _ _ _).mpr h
  unfold setFragment
  rw [hu]
  simp only
  split_ifs
  · exact ⟨_, rfl, rfl, rfl, rfl⟩
  · exact ⟨_, rfl, rfl, rfl, rfl⟩

theorem url.escapeBuild_cons_plain (m : encoding) (c : Nat) (s : GoString)
    (h : shouldEscape c m = false) : escapeBuild m (c :: s) = c :: escapeBuild m s := by
  have hne : c ≠ 32 := by
    intro e
    rw [e, url.shouldEscape_space] at h
    cases h
  rw [escapeBuild]
  simp [h, hne, ch]

theorem url.Decodes_nil_inv (m : encoding) (t : GoString) (h : url.Decodes m [] t) : t = [] := by
  cases h
  rfl

/-- The escaped path of a parsed URL with an authority: it decodes to the
path, is empty or starts with a slash, and holds no control byte, `#` or
`?`. -/
theorem URL_EscapedPath_spec (u : URL) (rest2 : GoString)
    (hd : url.Decodes encodePath rest2 u.Path) (hraw : u.RawPath = [] ∨ u.RawPath = rest2)
    (hrest : rest2 = [] ∨ ∃ p, rest2 = 47 :: p)
    (hb : ∀ c ∈ rest2, c < 256 ∧ 32 ≤ c ∧ c ≠ 127 ∧ c ≠ 35 ∧ c ≠ 63) :
    url.Decodes encodePath u.EscapedPath u.Path ∧
      (u.EscapedPath = [] ∨ ∃ p, u.EscapedPath = 47 :: p) ∧
      (∀ c ∈ u.EscapedPath, 32 ≤ c ∧ c ≠ 127 ∧ c ≠ 35 ∧ c ≠ 63) := by
  have hbytes := url.Decodes_bytes _ _ _ hd (fun c hc => (hb c hc).1)
  have hpath : u.Path = [] ∨ ∃ p, u.Path = 47 :: p := by
    rcases hrest with e | ⟨p, e⟩
    · left
      rw [e] at hd
      exact url.Decodes_nil_inv _ _ hd
    · right
      rw [e] at hd
      obtain ⟨t2, e2, _, _⟩ := url.Decodes_plain_inv _ 47 p _ (by decide) hd
      exact ⟨t2, by simpa using e2⟩
  unfold URL.EscapedPath
  simp only
  split_ifs with h1 h2
  · have e : u.RawPath = rest2 := by
      rcases hraw with g | g
      · exact absurd g h1.1
      · exact g
    rw [e]
    exact ⟨hd, hrest, fun c hc => (hb c hc).2⟩
  · exfalso
    rw [str_star] at h2
    rcases hpath with e | ⟨p, e⟩
    · rw [e] at h2; cases h2
    · rw [e] at h2; cases h2
  · rw [url.escape_eq]
    refine ⟨url.Decodes_escape_free _ (by simp) _ hbytes, ?_, ?_⟩
    · rcases hpath with e | ⟨p, e⟩
      · left; rw [e]; rfl
      · right
        rw [e]
        exact ⟨escapeBuild encodePath p,
          url.escapeBuild_cons_plain _ _ _ shouldEscape_slash_path⟩
    · intro c hc
      have f1 := url.escapeBuild_path_free _ hbytes
      refine ⟨?_, ?_, ?_, ?_⟩
      · by_contra hlt
        exact f1 c (by omega) hc
      · intro e; exact f1 c (by omega) hc
      · intro e; exact f1 c (by omega) hc
      · intro e; exact f1 c (by omega) hc

/-- The escaped fragment of a URL decodes. -/
theorem URL_EscapedFragment_spec (u : URL) (hb : ∀ c ∈ u.Fragment, c < 256) :
    ∃ t, url.Decodes encodeFragment u.EscapedFragment t := by
  unfold URL.EscapedFragment
  simp only
  split_ifs with h1
  · obtain ⟨_, _, h3⟩ := h1
    cases hu : unescape u.RawFragment encodeFragment with
    | error e => rw [hu] at h3; simp at h3
    | ok f => exact ⟨f, (url.unescape_iff _ _ _).mp hu⟩
  · rw [url.escape_eq]
    exact ⟨_, url.Decodes_escape_free _ (by simp) _ hb⟩

theorem url.getSchemeLoop_mem (raw : GoString) (s : GoString) :
    ∀ (i : Nat) (sch rest : GoString), getSchemeLoop raw s i = .ok (sch, rest) →
      ∀ c ∈ rest, c ∈ raw ∨ c ∈ s := by
  induction s with
  | nil =>
    intro i sch rest h c hc
    simp only [getSchemeLoop, Except.ok.injEq, Prod.mk.injEq] at h
    rw [← h.2] at hc
    exact Or.inl hc
  | cons x s ih =>
    intro i sch rest h c hc
    unfold getSchemeLoop at h
    split_ifs at h with h1 h2 h3 h4 h5
    · rcases ih _ _ _ h c hc with g | g
      · exact Or.inl g
      · exact Or.inr (List.mem_cons_of_mem _ g)
    · simp only [Except.ok.injEq, Prod.mk.injEq] at h
      rw [← h.2] at hc
      exact Or.inl hc
    · rcases ih _ _ _ h c hc with g | g
      · exact Or.inl g
      · exact Or.inr (List.mem_cons_of_mem _ g)
    · simp only [Except.ok.injEq, Prod.mk.injEq] at h
      rw [← h.2] at hc
      exact Or.inr (List.mem_cons_of_mem _ hc)
    · simp only [Except.ok.injEq, Prod.mk.injEq] at h
      rw [← h.2] at hc
      exact Or.inl hc

theorem url.getScheme_mem (raw sch rest : GoString) (h : getScheme raw = .ok (sch, rest)) :
    ∀ c ∈ rest, c ∈ raw := by
  intro c hc
  rcases url.getSchemeLoop_mem raw raw 0 sch rest h c hc with g | g <;> exact g

theorem url.parse_inv (pre : GoString) (u : URL) (h : parse pre = .ok u) (hH : u.Host ≠ []) :
    u.Opaque = [] ∧ u.Fragment = [] ∧ u.RawFragment = [] ∧
      (∃ auth, parseAuthority auth = .ok (u.User, u.Host) ∧ ∀ c ∈ auth, c ∈ pre) ∧
      (∃ rest2, (rest2 = [] ∨ ∃ p, rest2 = 47 :: p) ∧ (∀ c ∈ rest2, c ∈ pre ∧ c ≠ 63) ∧
        url.Decodes encodePath rest2 u.Path ∧ (u.RawPath = [] ∨ u.RawPath = rest2)) ∧
      (∀ c ∈ u.RawQuery, c ∈ pre) ∧
      (∀ c ∈ pre, 32 ≤ c ∧ c ≠ 127) := by
  unfold parse at h
  by_cases hctl : stringContainsCTLByte pre = true
  · simp only [hctl, if_true] at h
    cases h
  simp only [hctl, Bool.false_eq_true, if_false] at h
  by_cases hstar : pre = str "*"
  · simp only [hstar, if_true] at h
    cases h
    exact absurd rfl hH
  simp only [hstar, if_false] at h
  cases hg : getScheme pre with
  | error e => rw [hg] at h; cases h
  | ok r =>
    obtain ⟨scheme0, rest0⟩ := r
    rw [hg] at h
    simp only at h
    have hmem0 := url.getScheme_mem pre scheme0 rest0 hg
    have hctl2 : ∀ c ∈ pre, 32 ≤ c ∧ c ≠ 127 := by
      intro c hc
      have hf : stringContainsCTLByte pre = false := by simpa using hctl
      unfold stringContainsCTLByte at hf
      rw [List.any_eq_false] at hf
      have := hf c hc
      simp only [ch, Char.reduceToNat, Bool.or_eq_true, decide_eq_true_eq, beq_iff_eq,
        not_or] at this
      omega
    generalize hfq : (strings.HasSuffixByte rest0 (ch '?') &&
      strings.CountByte rest0 (ch '?') == 1) = fq at h
    have hr1m : ∀ c ∈ (if fq = true then List.dropLast rest0
        else (strings.Cut rest0 (ch '?')).1), c ∈ pre ∧ c ≠ 63 := by
      intro c hc
      split_ifs at hc with hq
      · have hc0 := List.mem_of_mem_dropLast hc
        refine ⟨hmem0 c hc0, ?_⟩
        intro e
        subst e
        -- the only question mark is the last byte
        rw [hq] at hfq
        simp only [Bool.and_eq_true, beq_iff_eq, ch, Char.reduceToNat] at hfq
        obtain ⟨hs, hcnt⟩ := hfq
        unfold strings.HasSuffixByte at hs
        unfold strings.CountByte at hcnt
        have hne : rest0 ≠ [] := by
          intro e
          rw [e] at hc0
          cases hc0
        have hsplit := List.dropLast_append_getLast hne
        have hlast : rest0.getLast hne = 63 := by
          have := List.getLast?_eq_getLast rest0 hne
          rw [this] at hs
          simpa using hs
        rw [← hsplit, List.count_append, hlast] at hcnt
        simp only [List.count_singleton_self] at hcnt
        have : 0 < List.count 63 rest0.dropLast := List.count_pos_iff.mpr hc
        omega
      · have := (strings.Cut_mem rest0 (ch '?')).1 c hc
        exact ⟨hmem0 c this.1, this.2⟩
    have hrqm : ∀ c ∈ (if fq = true then ([] : GoString)
        else (strings.Cut rest0 (ch '?')).2.1), c ∈ pre := by
      intro c hc
      split_ifs at hc with hq
      · cases hc
      · exact hmem0 c ((strings.Cut_mem rest0 (ch '?')).2 c hc)
    generalize (if fq = true then List.dropLast rest0
      else (strings.Cut rest0 (ch '?')).1) = rest1 at h hr1m
    generalize (if fq = true then ([] : GoString)
      else (strings.Cut rest0 (ch '?')).2.1) = rq at h hrqm
    have hafter : ∀ c ∈ List.drop 2 rest1, c ∈ pre ∧ c ≠ 63 :=
      fun c hc => hr1m c (List.mem_of_mem_drop hc)
    have hidx : ∀ i, strings.Index (List.drop 2 rest1) (str "/") = some i →
        ∃ p, List.drop i (List.drop 2 rest1) = 47 :: p := by
      intro i hi
      have := (strings.Index_some _ _ i (by decide) hi).1
      rw [str_slash] at this
      cases hdr : List.drop i (List.drop 2 rest1) with
      | nil => rw [hdr] at this; simp [strings.HasPrefix] at this
      | cons x t =>
        rw [hdr] at this
        simp only [strings.HasPrefix, Bool.and_true, beq_iff_eq] at this
        exact ⟨t, by rw [this]⟩
    generalize strings.Index (List.drop 2 rest1) (str "/") = idx at h hidx
    generalize List.drop 2 rest1 = after at h hidx hafter
    split_ifs at h with c1 c2 c3 c4
    · cases h
      exact absurd rfl hH
    · split at h
      · cases h
      · rename_i user host hpa
        obtain ⟨s1, s2, s3, s4, s5, s6, s7, s8, s9, s10⟩ := url.setPath_inv _ _ _ h
        simp only at s3 s4 s5 s6 s7 s8 s9 s10
        rw [← s5, ← s6] at hpa
        refine ⟨s4, s9, s10, ⟨_, hpa, ?_⟩, ⟨_, ?_, ?_, s1, s2⟩, ?_, hctl2⟩
        · intro c hc
          cases idx with
          | none => exact (hafter c hc).1
          | some i => exact (hafter c (List.mem_of_mem_take hc)).1
        · cases idx with
          | none => exact Or.inl rfl
          | some i => exact Or.inr (hidx i rfl)
        · intro c hc
          cases idx with
          | none => cases hc
          | some i => exact hafter c (List.mem_of_mem_drop hc)
        · rw [s8]
          exact hrqm
    · obtain ⟨s1, s2, s3, s4, s5, s6, s7, s8, s9, s10⟩ := url.setPath_inv _ _ _ h
      exact absurd s6 hH
    · obtain ⟨s1, s2, s3, s4, s5, s6, s7, s8, s9, s10⟩ := url.setPath_inv _ _ _ h
      exact absurd s6 hH

theorem url.Parse_inv (raw : GoString) (u : URL) (hb : ∀ c ∈ raw, c < 256)
    (h : Parse raw = .ok u) (hH : u.Host ≠ []) :
    u.Opaque = [] ∧
      (∃ auth, parseAuthority auth = .ok (u.User, u.Host) ∧ ∀ c ∈ auth, c ∈ raw) ∧
      (∃ rest2, (rest2 = [] ∨ ∃ p, rest2 = 47 :: p) ∧
        (∀ c ∈ rest2, c < 256 ∧ 32 ≤ c ∧ c ≠ 127 ∧ c ≠ 35 ∧ c ≠ 63) ∧
        url.Decodes encodePath rest2 u.Path ∧ (u.RawPath = [] ∨ u.RawPath = rest2)) ∧
      (∀ c ∈ u.RawQuery, 32 ≤ c ∧ c ≠ 127 ∧ c ≠ 35) ∧
      (∀ c ∈ u.Fragment, c < 256) := by
  unfold Parse at h
  simp only at h
  have hcut := strings.Cut_mem raw (ch '#')
  simp only [ch, Char.reduceToNat] at hcut h
  cases hp : parse (strings.Cut raw 35).1 with
  | error e => rw [hp] at h; cases h
  | ok u0 =>
    rw [hp] at h
    simp only at h
    have key : u.Opaque = u0.Opaque ∧ u.User = u0.User ∧ u.Host = u0.Host ∧ u.Path = u0.Path ∧
        u.RawPath = u0.RawPath ∧ u.RawQuery = u0.RawQuery ∧
        (u.Fragment = u0.Fragment ∨ url.Decodes encodeFragment (strings.Cut raw 35).2.1
          u.Fragment) := by
      split_ifs at h with hf
      · cases h
        exact ⟨rfl, rfl, rfl, rfl, rfl, rfl, Or.inl rfl⟩
      · obtain ⟨s1, s2, s3, s4, s5, s6, s7, s8, s9⟩ := url.setFragment_inv _ _ _ h
        exact ⟨s3, s4, s5, s6, s7, s9, Or.inr s1⟩
    obtain ⟨k1, k2, k3, k4, k5, k6, k7⟩ := key
    have hH0 : u0.Host ≠ [] := by rw [← k3]; exact hH
    obtain ⟨i1, i2, i3, ⟨auth, i4, i5⟩, ⟨rest2, i6, i7, i8, i9⟩, i10, i11⟩ :=
      url.parse_inv _ u0 hp hH0
    rw [k1, k2, k3, k4, k5, k6]
    refine ⟨i1, ⟨auth, i4, fun c hc => (hcut.1 c (i5 c hc)).1⟩, ⟨rest2, i6, ?_, i8, i9⟩, ?_, ?_⟩
    · intro c hc
      obtain ⟨g1, g2⟩ := i7 c hc
      obtain ⟨g3, g4⟩ := hcut.1 c g1
      obtain ⟨g5, g6⟩ := i11 c g1
      exact ⟨hb c g3, g5, g6, g4, g2⟩
    · intro c hc
      have g1 := i10 c hc
      obtain ⟨g3, g4⟩ := hcut.1 c g1
      obtain ⟨g5, g6⟩ := i11 c g1
      exact ⟨g5, g6, g4⟩
    · rcases k7 with g | g
      · rw [g, i2]
        intro c hc
        cases hc
      · exact url.Decodes_bytes _ _ _ g (fun c hc => hb c (hcut.2 c hc))

/-- The text before the query of `X` followed by a query `q`, as `parse`
splits it off, is `X`. -/
theorem url.parse_query_split (X q : GoString) (hX : 63 ∉ X)
    (hq : q = [] ∨ ∃ rq, q = 63 :: rq) :
    (if (strings.HasSuffixByte (X ++ q) 63 && strings.CountByte (X ++ q) 63 == 1) = true
      then (X ++ q).dropLast else (strings.Cut (X ++ q) 63).1) = X := by
  rcases hq with e | ⟨rq, e⟩
  · subst e
    rw [List.append_nil, strings.HasSuffixByte_of_not_mem _ _ hX, strings.Cut_of_not_mem _ _ hX]
    simp
  · subst e
    split_ifs with hfq
    · simp only [Bool.and_eq_true, beq_iff_eq] at hfq
      obtain ⟨hs, hcnt⟩ := hfq
      unfold strings.CountByte at hcnt
      rw [List.count_append, List.count_cons_self, List.count_eq_zero.mpr hX] at hcnt
      have h0 : 63 ∉ rq := List.count_eq_zero.mp (by omega)
      have hrq : rq = [] := by
        by_contra hne
        unfold strings.HasSuffixByte at hs
        have hsplit := List.dropLast_append_getLast hne
        have h1 : X ++ 63 :: rq = (X ++ 63 :: rq.dropLast) ++ [rq.getLast hne] := by
          conv_lhs => rw [← hsplit]
          simp
        rw [h1, List.getLast?_append] at hs
        simp only [List.getLast?_singleton, Option.or, beq_iff_eq, Option.some.injEq] at hs
        exact h0 (hs ▸ List.getLast_mem hne)
      subst hrq
      exact List.dropLast_concat
    · rw [strings.Cut_append _ _ _ hX]

theorem str_question : str "?" = [63] := rfl

theorem str_hash : str "#" = [35] := rfl

/-- The text of a URL with scheme `http` and a host. -/
theorem URL_String_http_host (u : URL) (ustr : GoString) (hO : u.Opaque = [])
    (hH : u.Host ≠ [])
    (hustr : (u.User = none ∧ ustr = []) ∨ ∃ ui, u.User = some ui ∧ ustr = ui.String ++ [64])
    (hep : u.EscapedPath = [] ∨ ∃ p, u.EscapedPath = 47 :: p) :
    ({ u with Scheme := str "http" } : URL).String =
      (str "http:" ++
        ((47 :: 47 :: ((ustr ++ escapeBuild encodeHost u.Host) ++ u.EscapedPath)) ++
          (if u.ForceQuery = true ∨ u.RawQuery ≠ [] then 63 :: u.RawQuery else []))) ++
        (if u.Fragment ≠ [] then 35 :: u.EscapedFragment else []) := by
  have hp : ({ u with Scheme := str "http" } : URL).EscapedPath = u.EscapedPath := rfl
  have hf : ({ u with Scheme := str "http" } : URL).EscapedFragment = u.EscapedFragment := rfl
  generalize u.EscapedPath = ep at hp hep
  generalize u.EscapedFragment = ef at hf
  have hnohead : ¬ (¬ ep = [] ∧ ¬ ep.head? = some (ch '/')) := by
    rintro ⟨h1, h2⟩
    rcases hep with e | ⟨p, e⟩
    · exact h1 e
    · rw [e] at h2
      exact h2 rfl
  have h1 : str "http" ≠ [] := by decide
  obtain ⟨sc, op, us, ho, pa, rp, om, fq, rq, fr, rf⟩ := u
  simp only at hO hH hp hf hustr
  subst hO
  unfold URL.String URL.StringHead
  rcases hustr with ⟨hu, hus⟩ | ⟨ui, hu, hus⟩ <;>
  · subst hu hus
    simp only [hp, hf, hnohead, if_false, h1, hH, ne_eq, not_false_eq_true,
      not_true_eq_false, true_or, or_true, if_true, url.escape_eq, false_and, and_false,
      Option.isSome_some, Option.isSome_none, Option.isNone_some, Option.isNone_none,
      Bool.false_eq_true]
    simp [str_http, str_http_colon, str_colon, str_slash2, str_at, str_question, str_hash,
      hnohead]

theorem strings.HasPrefix_nil (s : GoString) : strings.HasPrefix s [] = true := by
  cases s <;> rfl

theorem strings.ToLower_http : strings.ToLower (str "http") = str "http" := by decide

/-- Parsing the text of a URL with scheme `http`, an authority, a path and a
query gives back the host of the authority and the decoded path. -/
theorem url.parse_http_body (A P q : GoString) (user : Option Userinfo) (H path : GoString)
    (hA : parseAuthority A = .ok (user, H))
    (hAfree : ∀ c ∈ A, 32 ≤ c ∧ c ≠ 127 ∧ c ≠ 63 ∧ c ≠ 47)
    (hP : P = [] ∨ ∃ p, P = 47 :: p) (hPfree : ∀ c ∈ P, 32 ≤ c ∧ c ≠ 127 ∧ c ≠ 63)
    (hPd : url.Decodes encodePath P path)
    (hq : q = [] ∨ ∃ rq, q = 63 :: rq) (hqfree : ∀ c ∈ q, 32 ≤ c ∧ c ≠ 127) :
    ∃ u1, parse (str "http:" ++ ((47 :: 47 :: (A ++ P)) ++ q)) = .ok u1 ∧
      u1.Scheme = str "http" ∧ u1.Host = H ∧ u1.Path = path := by
  have hctl : stringContainsCTLByte (str "http:" ++ ((47 :: 47 :: (A ++ P)) ++ q)) = false := by
    apply url.stringContainsCTLByte_false
    intro c hc
    rw [str_http_colon] at hc
    simp only [List.cons_append, List.nil_append, List.mem_cons, List.mem_append] at hc
    rcases hc with hc | hc | hc | hc | hc | hc | hc | (hc | hc) | hc
    · omega
    · omega
    · omega
    · omega
    · omega
    · omega
    · omega
    · have := hAfree c hc; omega
    · have := hPfree c hc; omega
    · exact hqfree c hc
  have hstar : str "http:" ++ ((47 :: 47 :: (A ++ P)) ++ q) ≠ str "*" := by
    rw [str_http_colon, str_star]
    simp
  have hX : 63 ∉ (47 :: 47 :: (A ++ P)) := by
    intro hc
    simp only [List.mem_cons, List.mem_append] at hc
    rcases hc with hc | hc | hc | hc
    · omega
    · omega
    · exact (hAfree 63 hc).2.2.1 rfl
    · exact (hPfree 63 hc).2.2 rfl
  have h47 : 47 ∉ A := fun hc => (hAfree 47 hc).2.2.2 rfl
  have hsplit := url.parse_query_split _ q hX hq
  obtain ⟨u1, hu1, hpath, hhost, hscheme⟩ := url.setPath_of_Decodes
    { Scheme := str "http",
      ForceQuery := (strings.HasSuffixByte ((47 :: 47 :: (A ++ P)) ++ q) 63 &&
        strings.CountByte ((47 :: 47 :: (A ++ P)) ++ q) 63 == 1),
      RawQuery := (if (strings.HasSuffixByte ((47 :: 47 :: (A ++ P)) ++ q) 63 &&
        strings.CountByte ((47 :: 47 :: (A ++ P)) ++ q) 63 == 1) = true then []
        else (strings.Cut ((47 :: 47 :: (A ++ P)) ++ q) 63).2.1),
      User := user, Host := H } P path hPd
  refine ⟨u1, ?_, hscheme, hhost, hpath⟩
  unfold parse
  rw [hctl, url.getScheme_http]
  simp only [hstar, Bool.false_eq_true, if_false, ch, Char.reduceToNat, hsplit,
    strings.ToLower_http]
  have e1 : strings.HasPrefix (47 :: 47 :: (A ++ P)) (str "/") = true := by
    rw [str_slash]
    simp [strings.HasPrefix]
  have e2 : strings.HasPrefix (47 :: 47 :: (A ++ P)) (str "//") = true := by
    rw [str_slash2]
    simp [strings.HasPrefix, strings.HasPrefix_nil]
  have e3 : str "http" ≠ [] := by decide
  simp only [e1, e2, e3, Bool.not_true, Bool.false_eq_true, false_and, if_false, ne_eq,
    not_false_eq_true, true_or, and_self, if_true, List.drop_succ_cons, List.drop_zero,
    str_slash]
  rcases hP with e | ⟨p, e⟩
  · subst e
    simp only [List.append_nil] at hu1 ⊢
    simp only [strings.Index_slash_none A h47, hA]
    exact hu1
  · subst e
    simp only [strings.Index_slash_append A p h47, List.take_left', List.drop_left', hA]
    exact hu1

theorem url.Userinfo_String_free (ui : Userinfo) (hu : ∀ c ∈ ui.username, c < 256)
    (hp : ∀ c ∈ ui.password, c < 256) (d : Nat)
    (hd : d < 32 ∨ d = 127 ∨ d = 35 ∨ d = 63 ∨ d = 47 ∨ d = 64) : d ∉ ui.String := by
  have f1 := url.escapeBuild_user_free ui.username hu d (by omega)
  have f2 := url.escapeBuild_user_free ui.password hp d (by omega)
  unfold Userinfo.String
  simp only [url.escape_eq, str_colon]
  split_ifs
  · simp only [List.mem_append, List.mem_singleton, not_or]
    exact ⟨⟨f1, by omega⟩, f2⟩
  · exact f1

/-- The URL that `processURL` returns for a parsed URL without scheme and with
a host: it has scheme `http` and the host and path of its argument. The text
that was parsed is ASCII, or the host is not in brackets. -/
theorem processURL_keeps_host_path (raw : GoString) (u : URL) (hb : ∀ c ∈ raw, c < 256)
    (hz : (∀ c ∈ raw, c < 128) ∨ strings.HasPrefix u.Host [91] = false)
    (h : url.Parse raw = .ok u) (hs : u.Scheme = []) (hH : u.Host ≠ []) :
    ∃ r, processURL u = some r ∧ r.Scheme = str "http" ∧ r.Host = u.Host ∧
      r.Path = u.Path := by
  obtain ⟨i1, ⟨auth, i2, i3⟩, ⟨rest2, i4, i5, i6, i7⟩, i8, i9⟩ := url.Parse_inv raw u hb h hH
  obtain ⟨⟨hostText, j1, j2⟩, j3⟩ := url.parseAuthority_inv auth u.User u.Host i2
  have hbh : ∀ c ∈ hostText, c < 256 := fun c hc => hb c (i3 c (j2 c hc))
  have hzh : (∀ c ∈ hostText, c < 128) ∨ strings.HasPrefix u.Host [91] = false := by
    rcases hz with g | g
    · exact Or.inl (fun c hc => g c (i3 c (j2 c hc)))
    · exact Or.inr g
  obtain ⟨k1, k2⟩ := url.parseHost_roundtrip hostText u.Host hbh hzh j1
  have hhostfree := url.escapeBuild_host_free u.Host k2
  -- the authority of the printed URL
  have huser : ∃ ustr,
      ((u.User = none ∧ ustr = []) ∨ ∃ ui, u.User = some ui ∧ ustr = ui.String ++ [64]) ∧
      parseAuthority (ustr ++ escapeBuild encodeHost u.Host) = .ok (u.User, u.Host) ∧
      ∀ d, (d < 32 ∨ d = 127 ∨ d = 35 ∨ d = 63 ∨ d = 47) → d ∉ ustr := by
    rcases j3 with g | ⟨ui, g, g1, g2, g3⟩
    · refine ⟨[], Or.inl ⟨g, rfl⟩, ?_, fun d _ hd => by cases hd⟩
      rw [g]
      exact url.parseAuthority_host u.Host k2 k1
    · have b1 : ∀ c ∈ ui.username, c < 256 := by
        intro c hc
        rcases g1 c hc with t | t
        · exact t
        · exact hb c (i3 c t)
      have b2 : ∀ c ∈ ui.password, c < 256 := by
        intro c hc
        rcases g2 c hc with t | t
        · exact t
        · exact hb c (i3 c t)
      refine ⟨ui.String ++ [64], Or.inr ⟨ui, g, rfl⟩, ?_, ?_⟩
      · rw [g]
        exact url.parseAuthority_String ui u.Host b1 b2 g3 k2 k1
      · intro d hd hc
        simp only [List.mem_append, List.mem_singleton] at hc
        rcases hc with t | t
        · exact url.Userinfo_String_free ui b1 b2 d (by omega) t
        · omega
  obtain ⟨ustr, hustr, hApa, hufree⟩ := huser
  have hAfree : ∀ c ∈ ustr ++ escapeBuild encodeHost u.Host,
      32 ≤ c ∧ c ≠ 127 ∧ c ≠ 63 ∧ c ≠ 47 ∧ c ≠ 35 := by
    intro c hc
    have hfree : ∀ d, (d < 32 ∨ d = 127 ∨ d = 35 ∨ d = 63 ∨ d = 47) → d ≠ c := by
      intro d hd e
      subst e
      rcases List.mem_append.mp hc with t | t
      · exact hufree d hd t
      · exact hhostfree d (by omega) t
    refine ⟨?_, ?_, ?_, ?_, ?_⟩
    · by_contra hlt
      exact hfree c (by omega) rfl
    · intro e; exact hfree c (by omega) rfl
    · intro e; exact hfree c (by omega) rfl
    · intro e; exact hfree c (by omega) rfl
    · intro e; exact hfree c (by omega) rfl
  generalize hAdef : ustr ++ escapeBuild encodeHost u.Host = A at hApa hAfree
  obtain ⟨p1, p2, p3⟩ := URL_EscapedPath_spec u rest2 i6 i7 i4 i5
  obtain ⟨ft, hft⟩ := URL_EscapedFragment_spec u i9
  have hq : ∃ q, q = (if u.ForceQuery = true ∨ u.RawQuery ≠ [] then 63 :: u.RawQuery else []) ∧
      (q = [] ∨ ∃ rq, q = 63 :: rq) ∧ ∀ c ∈ q, 32 ≤ c ∧ c ≠ 127 ∧ c ≠ 35 := by
    refine ⟨_, rfl, ?_, ?_⟩
    · split_ifs
      · exact Or.inr ⟨_, rfl⟩
      · exact Or.inl rfl
    · intro c hc
      split_ifs at hc
      · rcases List.mem_cons.mp hc with e | e
        · omega
        · exact i8 c e
      · cases hc
  obtain ⟨q, hqdef, hq1, hq2⟩ := hq
  have hstr := URL_String_http_host u ustr i1 hH hustr p2
  rw [hAdef, ← hqdef] at hstr
  obtain ⟨u1, hu1, hsc, hho, hpa⟩ := url.parse_http_body A u.EscapedPath q u.User u.Host u.Path
    hApa (fun c hc => ⟨(hAfree c hc).1, (hAfree c hc).2.1, (hAfree c hc).2.2.1,
      (hAfree c hc).2.2.2.1⟩) p2 (fun c hc => ⟨(p3 c hc).1, (p3 c hc).2.1, (p3 c hc).2.2.2⟩)
    p1 hq1 (fun c hc => ⟨(hq2 c hc).1, (hq2 c hc).2.1⟩)
  have h35 : 35 ∉ str "http:" ++ ((47 :: 47 :: (A ++ u.EscapedPath)) ++ q) := by
    intro hc
    rw [str_http_colon] at hc
    simp only [List.cons_append, List.nil_append, List.mem_cons, List.mem_append] at hc
    rcases hc with hc | hc | hc | hc | hc | hc | hc | (hc | hc) | hc
    · omega
    · omega
    · omega
    · omega
    · omega
    · omega
    · omega
    · exact (hAfree 35 hc).2.2.2.2 rfl
    · exact (p3 35 hc).2.2.1 rfl
    · exact (hq2 35 hc).2.2 rfl
  have hparse : ∃ r, url.Parse ({ u with Scheme := str "http" } : URL).String = .ok r ∧
      r.Scheme = str "http" ∧ r.Host = u.Host ∧ r.Path = u.Path := by
    rw [hstr]
    by_cases hfr : u.Fragment = []
    · simp only [hfr, ne_eq, not_true_eq_false, if_false, List.append_nil]
      unfold url.Parse
      simp only [ch, Char.reduceToNat, strings.Cut_of_not_mem _ 35 h35, hu1, if_true]
      exact ⟨u1, rfl, hsc, hho, hpa⟩
    · simp only [hfr, ne_eq, not_false_eq_true, if_true]
      unfold url.Parse
      simp only [ch, Char.reduceToNat, strings.Cut_append _ _ 35 h35, hu1]
      by_cases hef : u.EscapedFragment = []
      · simp only [hef, if_true]
        exact ⟨u1, rfl, hsc, hho, hpa⟩
      · simp only [hef, if_false]
        obtain ⟨u2, g1, g2, g3, g4⟩ := url.setFragment_of_Decodes u1 _ ft hft
        exact ⟨u2, g1, by rw [g4, hsc], by rw [g3, hho], by rw [g2, hpa]⟩
  obtain ⟨r, hr, hr1, hr2, hr3⟩ := hparse
  refine ⟨r, ?_, hr1, hr2, hr3⟩
  unfold processURL
  simp only [hs, if_true, hr]

end roundtrip

/-- The reason for the ASCII text of a host in brackets: `//[fe80::1%25é]/a`
parses, the zone `é` kept as its two bytes; printed with the scheme, the zone
is written `%25%C3%A9`, which `url.Parse` rejects in a zone, and `processURL`
returns nil. -/
theorem processURL_zone_reparse_fails :
    url.Parse (str "//[fe80::1%25é]/a") = .ok { Host := str "[fe80::1%é]", Path := str "/a" } ∧
      ({ Scheme := str "http", Host := str "[fe80::1%é]", Path := str "/a" } : URL).String =
        str "http://[fe80::1%25%C3%A9]/a" ∧
      processURL { Host := str "[fe80::1%é]", Path := str "/a" } = none :=
  ⟨rfl, rfl, rfl⟩

/-- C1 as stated fails: `example.com/a` parses as a URL with empty scheme,
empty host and path `example.com/a`; `processURL` returns the URL with scheme
`http`, host `example.com` and path `/a`, so neither host nor path is the one
of its argument. -/
theorem processURL_moves_path_to_host :
    url.Parse (str "example.com/a") = .ok { Path := str "example.com/a" } ∧
      processURL { Path := str "example.com/a" } =
        some { Scheme := str "http", Host := str "example.com", Path := str "/a" } ∧
      ({ Scheme := str "http", Host := str "example.com", Path := str "/a" } : URL).Host ≠
        ({ Path := str "example.com/a" } : URL).Host ∧
      ({ Scheme := str "http", Host := str "example.com", Path := str "/a" } : URL).Path ≠
        ({ Path := str "example.com/a" } : URL).Path := by
  refine ⟨rfl, rfl, by decide, by decide⟩

/-- C1, amended: for every URL `u` whose scheme is empty, a URL that
`processURL u` returns has scheme `http` and is the one that `url.Parse` reads
from the text of `u` with the scheme set to `http`. When `u` has a host and is
the URL that `url.Parse` reads from a text (of bytes; of ASCII bytes when the
host starts with a bracket), `processURL u` does return a URL, and it has
scheme `http` and the host and the path of `u`, whatever user information,
port, escapes, query and fragment the text holds: so for
`//user:pw@example.com:8080/a%20b?x=1#top` and for `//[fe80::1%25eth0]:80/a`,
where the result is `u` with the scheme set. A URL without host is read anew:
for `example.com/a` (empty host, path `example.com/a`) the result has host
`example.com` and path `/a`. -/
theorem processURL_scheme_http :
    (∀ u r : URL, u.Scheme = [] → processURL u = some r →
      r.Scheme = str "http" ∧
        url.Parse ({ u with Scheme := str "http" } : URL).String = .ok r) ∧
    (∀ (raw : GoString) (u : URL), (∀ c ∈ raw, c < 256) →
      ((∀ c ∈ raw, c < 128) ∨ u.Host.head? ≠ some (ch '[')) →
      url.Parse raw = .ok u → u.Scheme = [] → u.Host ≠ [] →
        ∃ r, processURL u = some r ∧ r.Scheme = str "http" ∧ r.Host = u.Host ∧
          r.Path = u.Path) ∧
    (url.Parse (str "//user:pw@example.com:8080/a%20b?x=1#top") = .ok fullURL ∧
      processURL fullURL = some { fullURL with Scheme := str "http" }) ∧
    (url.Parse (str "//[fe80::1%25eth0]:80/a") = .ok zoneURL ∧
      processURL zoneURL = some { zoneURL with Scheme := str "http" }) ∧
    processURL { Path := str "example.com/a" } =
      some { Scheme := str "http", Host := str "example.com", Path := str "/a" } := by
  refine ⟨?_, ?_, ⟨rfl, rfl⟩, ⟨rfl, rfl⟩, rfl⟩
  · intro u r hs h
    constructor
    · unfold processURL at h
      simp only [hs, if_true] at h
      obtain ⟨s, hstr⟩ := URL_String_http { u with Scheme := str "http" } rfl
      rw [hstr] at h
      split at h
      · rename_i u2 hp
        cases h
        have := url.Parse_Scheme _ _ _ _
          (by rw [strings.Cut_http]; exact url.getScheme_http _)
          (by rw [strings.Cut_http, str_http_colon, str_star]; simp) hp
        rw [this]
        decide
      · cases h
    · unfold processURL at h
      simp only [hs, if_true] at h
      split at h
      · rename_i u2 hp
        cases h
        exact hp
      · cases h
  · intro raw u hb hz hp hs hH
    apply processURL_keeps_host_path raw u hb _ hp hs hH
    rcases hz with g | g
    · exact Or.inl g
    · right
      cases hh : u.Host with
      | nil => exact absurd hh hH
      | cons x t =>
        rw [hh] at g
        simp only [List.head?_cons, ne_eq, Option.some.injEq, ch, Char.reduceToNat] at g
        simp [strings.HasPrefix, g]

/-- C1, amended, at `//user:pw@example.com:8080/a%20b?x=1#top` and at
`//[fe80::1%25eth0]:80/a`: `processURL` returns a URL for the parsed text, with
scheme `http`, the host with its port and the decoded path. -/
theorem processURL_scheme_http_witness :
    (∃ r, processURL fullURL = some r ∧ r.Scheme = str "http" ∧
        r.Host = str "example.com:8080" ∧ r.Path = str "/a b") ∧
      (∃ r, processURL zoneURL = some r ∧ r.Scheme = str "http" ∧
        r.Host = str "[fe80::1%eth0]:80" ∧ r.Path = str "/a") :=
  ⟨processURL_scheme_http.2.1 (str "//user:pw@example.com:8080/a%20b?x=1#top") fullURL
      (by decide) (Or.inl (by decide)) rfl rfl (by decide),
    processURL_scheme_http.2.1 (str "//[fe80::1%25eth0]:80/a") zoneURL
      (by decide) (Or.inl (by decide)) rfl rfl (by decide)⟩
